import Mathlib

/-!
Verification of the core Othello engine (bitboard primitives, incremental
evaluator, search state, transposition table, empties list, and parts of the
search driver) against its natural-language specification.

Rust `u64` values are modelled as `Nat` together with explicit `% 2 ^ 64`
masking (or hypotheses `< 2 ^ 64`) where overflow can occur; `i32`/`isize`
values are modelled as `Int`, with explicit wrapping functions at the few
places the code performs an `as i8` / `as u8` cast.
-/

namespace Swap

/-- `2 ^ 64`, the modulus of Rust's `u64` arithmetic. -/
def M64 : Nat := 2 ^ 64

/-- Rust's `!x` on `u64`: bitwise complement within 64 bits. -/
def not64 (a : Nat) : Nat := a ^^^ (M64 - 1)

/-- Rust's `count_ones()` on `u64` (valid for values `< 2 ^ 64`). -/
def popcount64 (n : Nat) : Nat := (List.range 64).countP (fun i => n.testBit i)

/-- A position: two disjoint bitboards, player to move and opponent.
Mirrors `struct Position` in `src/othello/position.rs`. -/
structure Position where
  player : Nat
  opponent : Nat
  deriving DecidableEq, Repr

namespace Position

/-- Well-formed machine representation: both bitboards fit in 64 bits. -/
def InRange (p : Position) : Prop := p.player < M64 ∧ p.opponent < M64

/-- The documented invariant `player & opponent = 0`. -/
def Disjoint (p : Position) : Prop := p.player &&& p.opponent = 0

/-- `Position::pass`: swap the two bitboards. -/
def pass (p : Position) : Position := ⟨p.opponent, p.player⟩

/-- `Position::count_discs`. -/
def count_discs (p : Position) : Nat := popcount64 p.player + popcount64 p.opponent

/-- `Position::count_empty`. -/
def count_empty (p : Position) : Nat := 64 - p.count_discs

/-- One scan of `get_flipped_simple`'s inner distance loop
(`src/othello/get_flipped/simple.rs`): walk from square `(sx, sy)` in
direction `(dx, dy)`, collecting the run of opponent discs in `acc`; return
the run when a player disc terminates it, and `0` when the walk leaves the
board, meets an empty square, or exhausts the seven possible distances. -/
def scanDir (player opponent : Nat) (sx sy dx dy : Int) : Nat → Nat → Nat
  | 0, _ => 0
  | fuel + 1, acc =>
    if sx + dx < 0 ∨ 8 ≤ sx + dx ∨ sy + dy < 0 ∨ 8 ≤ sy + dy then 0
    else if opponent.testBit ((sy + dy) * 8 + (sx + dx)).toNat then
      scanDir player opponent (sx + dx) (sy + dy) dx dy fuel
        (acc ||| (1 <<< ((sy + dy) * 8 + (sx + dx)).toNat))
    else if player.testBit ((sy + dy) * 8 + (sx + dx)).toNat then acc
    else 0

/-- The eight direction vectors of `get_flipped_simple`, in source order. -/
def flipDirections : List (Int × Int) :=
  [(-1, -1), (-1, 0), (-1, 1), (0, -1), (0, 1), (1, -1), (1, 0), (1, 1)]

/-- `get_flipped_simple` from `src/othello/get_flipped/simple.rs`: per-square
ray scan over the eight directions. -/
def get_flipped_simple (player opponent : Nat) (index : Nat) : Nat :=
  let mx : Int := (index % 8 : Nat)
  let my : Int := (index / 8 : Nat)
  flipDirections.foldl
    (fun fl d => fl ||| scanDir player opponent mx my d.1 d.2 7 0) 0

/-- Modelled from the spec: the dispatched flip routine
(`get_flipped_edax_bitscan`, declared in `src/othello/get_flipped/mod.rs`) is
not part of the provided sources.  The specification requires every flip
implementation to agree with the per-square ray scan ("Both must agree for
every position and every legal move"), so the dispatcher is modelled by the
in-repository ray-scan implementation `get_flipped_simple`. -/
def get_flipped (player opponent : Nat) (index : Nat) : Nat :=
  get_flipped_simple player opponent index

/-- `Position::get_flipped`. -/
def get_flipped' (p : Position) (index : Nat) : Nat :=
  get_flipped p.player p.opponent index

/-- `Position::do_move`: place the disc, flip, swap sides; returns the new
position together with the flipped bitset. -/
def do_move (p : Position) (index : Nat) : Position × Nat :=
  let flipped := p.get_flipped' index
  let player := p.player ||| (flipped ||| (1 <<< index))
  let opponent := p.opponent ^^^ flipped
  (⟨opponent, player⟩, flipped)

/-- `Position::undo_move`: swap back, clear the move and flipped discs from
the (new) player board, return the flipped discs to the opponent board. -/
def undo_move (p : Position) (index : Nat) (flips : Nat) : Position :=
  ⟨p.opponent &&& not64 (flips ||| (1 <<< index)), p.player ||| flips⟩

/-- `Position::final_score` (returns `isize`, modelled as `Int`). -/
def final_score (p : Position) : Int :=
  let player : Int := popcount64 p.player
  let opponent : Int := popcount64 p.opponent
  if player > opponent then 64 - 2 * opponent
  else if opponent > player then -64 + 2 * player
  else 0

/-- `Position::final_score_with_empty` (all quantities `i32`, modelled as
`Int`). -/
def final_score_with_empty (p : Position) (empty_count : Int) : Int :=
  let player_disc_count : Int := popcount64 p.player
  let opponent_disc_count : Int := 64 - empty_count - player_disc_count
  let score := player_disc_count - opponent_disc_count
  if score < 0 then score - empty_count
  else if score > 0 then score + empty_count
  else score

end Position

/-- The Kogge-Stone move generator `get_moves` from
`src/othello/get_moves.rs`, one direction at a time: the body of the
`for &(dir, dir_mask)` loop. -/
def movesDir (player : Nat) (dir : Nat) (dirMask : Nat) : Nat :=
  let flipL := dirMask &&& ((player <<< dir) % M64)
  let flipL := flipL ||| (dirMask &&& ((flipL <<< dir) % M64))
  let maskL := dirMask &&& ((dirMask <<< dir) % M64)
  let flipL := flipL ||| (maskL &&& ((flipL <<< (2 * dir)) % M64))
  let flipL := flipL ||| (maskL &&& ((flipL <<< (2 * dir)) % M64))
  let flipR := dirMask &&& (player >>> dir)
  let flipR := flipR ||| (dirMask &&& (flipR >>> dir))
  let maskR := dirMask &&& (dirMask >>> dir)
  let flipR := flipR ||| (maskR &&& (flipR >>> (2 * dir)))
  let flipR := flipR ||| (maskR &&& (flipR >>> (2 * dir)))
  ((flipL <<< dir) % M64) ||| (flipR >>> dir)

/-- `get_moves` from `src/othello/get_moves.rs`. -/
def get_moves (player opponent : Nat) : Nat :=
  let mask := opponent &&& 0x7E7E7E7E7E7E7E7E
  let moves := 0
  let moves := moves ||| movesDir player 1 mask
  let moves := moves ||| movesDir player 7 mask
  let moves := moves ||| movesDir player 9 mask
  let moves := moves ||| movesDir player 8 opponent
  moves &&& not64 (player ||| opponent)

/-- `Position::get_moves`. -/
def Position.get_moves' (p : Position) : Nat := get_moves p.player p.opponent

/-- `Position::get_opponent_moves`. -/
def Position.get_opponent_moves (p : Position) : Nat := get_moves p.opponent p.player

/-- `Position::shift` from `src/othello/position.rs`: shift a bitset in one of
the eight directions with wrap-preventing file masks.  The source panics on
any other direction; those cases are unreachable at every call site and are
mapped to `0`. -/
def Position.shift (bitset : Nat) (dir : Int) : Nat :=
  if dir = -9 then ((bitset &&& 0xfefefefefefefefe) <<< 7) % M64
  else if dir = -8 then (bitset <<< 8) % M64
  else if dir = -7 then ((bitset &&& 0x7f7f7f7f7f7f7f7f) <<< 9) % M64
  else if dir = -1 then (bitset &&& 0xfefefefefefefefe) >>> 1
  else if dir = 1 then ((bitset &&& 0x7f7f7f7f7f7f7f7f) <<< 1) % M64
  else if dir = 7 then (bitset &&& 0x7f7f7f7f7f7f7f7f) >>> 7
  else if dir = 8 then bitset >>> 8
  else if dir = 9 then (bitset &&& 0xfefefefefefefefe) >>> 9
  else 0

/-- The `while candidates != 0` loop of `get_moves_simple`
(`src/othello/get_moves.rs`), with explicit fuel.  Each iteration displaces
`candidates` one further step along the direction, so the loop runs at most
seven times; fuel `64` is more than enough for the fueled function to agree
with the source loop (see `simpleDirLoop_max_steps`). -/
def simpleDirLoop (opponent empty : Nat) (dir : Int) :
    Nat → Nat → Nat → Nat
  | 0, moves, _ => moves
  | fuel + 1, moves, candidates =>
    if candidates = 0 then moves
    else
      simpleDirLoop opponent empty dir fuel
        (moves ||| (empty &&& Position.shift candidates dir))
        (Position.shift candidates dir &&& opponent)

/-- The direction list of `get_moves_simple`, in source order. -/
def simpleDirections : List Int := [-9, -8, -7, -1, 1, 7, 8, 9]

/-- `get_moves_simple` from `src/othello/get_moves.rs`: the naive per-square
ray-scan move generator. -/
def get_moves_simple (player opponent : Nat) : Nat :=
  let empty := not64 (player ||| opponent)
  simpleDirections.foldl
    (fun moves dir =>
      simpleDirLoop opponent empty dir 64 moves
        (Position.shift player dir &&& opponent))
    0

/-! ### Basic bit-level lemmas -/

lemma testBit_not64 (a i : Nat) :
    (not64 a).testBit i = ((a.testBit i).xor (decide (i < 64))) := by
  unfold not64 M64
  rw [Nat.testBit_xor, Nat.testBit_two_pow_sub_one]

lemma testBit_one_shiftLeft (n i : Nat) :
    (1 <<< n).testBit i = decide (n = i) := by
  rw [Nat.one_shiftLeft]; exact Nat.testBit_two_pow

lemma testBit_false_of_lt {n : Nat} {i : Nat} (h : n < M64) (hi : 64 ≤ i) :
    n.testBit i = false :=
  Nat.testBit_lt_two_pow (lt_of_lt_of_le h (Nat.pow_le_pow_right (by norm_num) hi))

/-! ### Popcount lemmas -/

lemma countP_testBit_or_disjoint (a b : Nat) (hab : a &&& b = 0) (l : List Nat) :
    l.countP (fun i => (a ||| b).testBit i) =
      l.countP (fun i => a.testBit i) + l.countP (fun i => b.testBit i) := by
  induction l with
  | nil => simp
  | cons x xs ih =>
    have hx : ¬(a.testBit x = true ∧ b.testBit x = true) := by
      rintro ⟨h1, h2⟩
      have h := Nat.testBit_and a b x
      rw [hab] at h
      simp [h1, h2] at h
    simp only [List.countP_cons]
    rw [ih]
    have hor : (a ||| b).testBit x = (a.testBit x || b.testBit x) := Nat.testBit_or a b x
    rcases ha : a.testBit x <;> rcases hb : b.testBit x <;>
      simp [ha, hb, hor] at hx ⊢ <;> omega

lemma popcount64_or_disjoint (a b : Nat) (hab : a &&& b = 0) :
    popcount64 (a ||| b) = popcount64 a + popcount64 b :=
  countP_testBit_or_disjoint a b hab _

lemma popcount64_le (n : Nat) : popcount64 n ≤ 64 := by
  have h := List.countP_le_length (l := List.range 64) (p := fun i => n.testBit i)
  simpa [popcount64] using h

lemma count_discs_le_of_disjoint (p : Position) (hd : p.Disjoint) :
    p.count_discs ≤ 64 := by
  have h := popcount64_or_disjoint p.player p.opponent hd
  have := popcount64_le (p.player ||| p.opponent)
  unfold Position.count_discs
  omega

/-! ### C6: final score -/

/-- Helper: the empty-count variant agrees with `final_score` whenever it is
passed the true number of empty squares. -/
lemma final_score_with_empty_eq (p : Position) (e : Int)
    (hd : p.Disjoint) (he : e = (p.count_empty : Int)) :
    p.final_score_with_empty e = p.final_score := by
  have hle : popcount64 p.player + popcount64 p.opponent ≤ 64 :=
    count_discs_le_of_disjoint p hd
  have hcast : (p.count_empty : Int) =
      64 - (popcount64 p.player : Int) - (popcount64 p.opponent : Int) := by
    unfold Position.count_empty Position.count_discs
    omega
  subst he
  rw [hcast]
  simp only [Position.final_score_with_empty, Position.final_score]
  split_ifs <;> omega

/-- C6: for every position with disjoint bitboards and disc counts
`p = popcount(player)`, `o = popcount(opponent)`, `final_score` returns
`64 - 2*o` if `p > o`, `-64 + 2*p` if `o > p`, and `0` otherwise; and
`final_score_with_empty(e)`, called with `e` equal to the true number of
empty squares, returns the same value as `final_score`. -/
theorem final_score_correct (p : Position) (e : Int)
    (hd : p.Disjoint) (he : e = (p.count_empty : Int)) :
    (p.final_score =
      if (popcount64 p.player : Int) > (popcount64 p.opponent : Int) then
        64 - 2 * (popcount64 p.opponent : Int)
      else if (popcount64 p.opponent : Int) > (popcount64 p.player : Int) then
        -64 + 2 * (popcount64 p.player : Int)
      else 0)
    ∧ p.final_score_with_empty e = p.final_score :=
  ⟨rfl, final_score_with_empty_eq p e hd he⟩

/-- Witness for `final_score_correct` at a concrete position (player three
discs, opponent one disc, sixty empty squares). -/
theorem final_score_correct_witness :
    (Position.mk 7 8).Disjoint ∧
      (60 : Int) = ((Position.mk 7 8).count_empty : Int) ∧
      (Position.mk 7 8).final_score_with_empty 60 = (Position.mk 7 8).final_score :=
  ⟨by unfold Position.Disjoint; decide, by decide,
    (final_score_correct (Position.mk 7 8) 60 (by unfold Position.Disjoint; decide)
      (by decide)).2⟩

/-! ### C5: do_move / undo_move -/

lemma scanDir_subset (player opponent : Nat) :
    ∀ (fuel : Nat) (sx sy dx dy : Int) (acc : Nat),
      (∀ i, acc.testBit i = true → opponent.testBit i = true) →
      ∀ i, (Position.scanDir player opponent sx sy dx dy fuel acc).testBit i = true →
        opponent.testBit i = true := by
  intro fuel
  induction fuel with
  | zero => intro sx sy dx dy acc hacc i h; simp [Position.scanDir] at h
  | succ n ih =>
    intro sx sy dx dy acc hacc i h
    rw [Position.scanDir] at h
    split at h
    · simp at h
    · split at h
      · refine ih _ _ _ _ _ ?_ i h
        intro j hj
        rw [Nat.testBit_or, Bool.or_eq_true] at hj
        rcases hj with hj | hj
        · exact hacc j hj
        · rw [testBit_one_shiftLeft] at hj
          have : ((sy + dy) * 8 + (sx + dx)).toNat = j := by simpa using hj
          subst this
          assumption
      · split at h
        · exact hacc i h
        · simp at h

lemma get_flipped_simple_subset (player opponent index : Nat) :
    ∀ i, (Position.get_flipped_simple player opponent index).testBit i = true →
      opponent.testBit i = true := by
  unfold Position.get_flipped_simple
  generalize Position.flipDirections = dirs
  generalize hmx : ((index % 8 : Nat) : Int) = mx
  generalize hmy : ((index / 8 : Nat) : Int) = my
  have main : ∀ (l : List (Int × Int)) (fl : Nat),
      (∀ i, fl.testBit i = true → opponent.testBit i = true) →
      ∀ i, (l.foldl (fun fl d =>
          fl ||| Position.scanDir player opponent mx my d.1 d.2 7 0) fl).testBit i = true →
        opponent.testBit i = true := by
    intro l
    induction l with
    | nil => intro fl hfl i h; exact hfl i h
    | cons d rest ih =>
      intro fl hfl i h
      refine ih _ ?_ i h
      intro j hj
      rw [Nat.testBit_or, Bool.or_eq_true] at hj
      rcases hj with hj | hj
      · exact hfl j hj
      · exact scanDir_subset player opponent 7 mx my d.1 d.2 0 (by simp) j hj
  intro i h
  exact main dirs 0 (by simp) i h

/-- Helper: doing then undoing a legal move restores both bitsets. -/
lemma do_undo_restores (p : Position) (m : Nat)
    (hr : p.InRange) (hd : p.Disjoint)
    (hm : (p.get_moves').testBit m = true) :
    (p.do_move m).1.undo_move m (p.do_move m).2 = p := by
  obtain ⟨hp, ho⟩ := hr
  set f := p.get_flipped' m with hf
  -- the move square is an empty square below 64
  have hme : (not64 (p.player ||| p.opponent)).testBit m = true := by
    have h : p.get_moves' =
        (0 ||| movesDir p.player 1 (p.opponent &&& 0x7E7E7E7E7E7E7E7E)
           ||| movesDir p.player 7 (p.opponent &&& 0x7E7E7E7E7E7E7E7E)
           ||| movesDir p.player 9 (p.opponent &&& 0x7E7E7E7E7E7E7E7E)
           ||| movesDir p.player 8 p.opponent)
          &&& not64 (p.player ||| p.opponent) := rfl
    rw [h, Nat.testBit_and, Bool.and_eq_true] at hm
    exact hm.2
  rw [testBit_not64, Nat.testBit_or] at hme
  have hm64 : m < 64 := by
    by_contra hge
    have hge' : 64 ≤ m := by omega
    have h1 : p.player.testBit m = false := testBit_false_of_lt hp hge'
    have h2 : p.opponent.testBit m = false := testBit_false_of_lt ho hge'
    simp [h1, h2, hge] at hme
  have hmP : p.player.testBit m = false := by
    rcases hb : p.player.testBit m with _ | _
    · rfl
    · simp [hb, hm64] at hme
  have hmO : p.opponent.testBit m = false := by
    rcases hb : p.opponent.testBit m with _ | _
    · rfl
    · simp [hb, hm64] at hme
  have hfsub : ∀ i, f.testBit i = true → p.opponent.testBit i = true := by
    intro i hi
    exact get_flipped_simple_subset p.player p.opponent m i hi
  have hdisj : ∀ i, p.player.testBit i = true → p.opponent.testBit i = false := by
    intro i hi
    rcases hb : p.opponent.testBit i with _ | _
    · rfl
    · have h := Nat.testBit_and p.player p.opponent i
      rw [hd] at h
      simp [hi, hb] at h
  have hfp : ∀ i, f.testBit i = true → p.player.testBit i = false := by
    intro i hi
    rcases hb : p.player.testBit i with _ | _
    · rfl
    · have := hdisj i hb
      rw [hfsub i hi] at this
      exact absurd this (by simp)
  show Position.mk
      ((p.player ||| (f ||| 1 <<< m)) &&& not64 (f ||| 1 <<< m))
      ((p.opponent ^^^ f) ||| f) = p
  have hA : (p.player ||| (f ||| 1 <<< m)) &&& not64 (f ||| 1 <<< m) = p.player := by
    apply Nat.eq_of_testBit_eq
    intro i
    simp only [Nat.testBit_and, Nat.testBit_or, testBit_not64, testBit_one_shiftLeft]
    by_cases hi : i < 64
    · rcases hfb : f.testBit i with _ | _
      · by_cases hmi : m = i
        · subst hmi
          simp [hmP, hfb, hi]
        · simp [hfb, hmi, hi]
      · simp [hfb, hfp i hfb, hi]
    · have hi' : 64 ≤ i := by omega
      have h1 : p.player.testBit i = false := testBit_false_of_lt hp hi'
      have h2 : f.testBit i = false := by
        rcases hb : f.testBit i with _ | _
        · rfl
        · exact absurd (testBit_false_of_lt ho hi') (by simp [hfsub i hb])
      have h3 : m ≠ i := by omega
      simp [h1, h2, h3, hi]
  have hB : (p.opponent ^^^ f) ||| f = p.opponent := by
    apply Nat.eq_of_testBit_eq
    intro i
    simp only [Nat.testBit_or, Nat.testBit_xor]
    rcases hfb : f.testBit i with _ | _
    · simp [hfb]
    · simp [hfb, hfsub i hfb]
  rw [hA, hB]

/-- C5: for every position `P` and every legal move `m` of `P`, calling
`do_move(m)` (which returns the flipped bitset) followed by
`undo_move(m, flipped)` restores `P` exactly, both bitsets. -/
theorem do_move_undo_move (p : Position) (m : Nat)
    (hr : p.InRange) (hd : p.Disjoint)
    (hm : (p.get_moves').testBit m = true) :
    (p.do_move m).1.undo_move m (p.do_move m).2 = p :=
  do_undo_restores p m hr hd hm

/-- Witness for `do_move_undo_move`: playing D3 (square 19) from the
standard starting position and undoing it. -/
theorem do_move_undo_move_witness :
    (Position.mk 0x810000000 0x1008000000).InRange ∧
      (Position.mk 0x810000000 0x1008000000).Disjoint ∧
      ((Position.mk 0x810000000 0x1008000000).get_moves').testBit 19 = true ∧
      ((Position.mk 0x810000000 0x1008000000).do_move 19).1.undo_move 19
          ((Position.mk 0x810000000 0x1008000000).do_move 19).2 =
        Position.mk 0x810000000 0x1008000000 :=
  ⟨by unfold Position.InRange M64; exact ⟨by norm_num, by norm_num⟩,
   by unfold Position.Disjoint; decide,
   by decide,
   do_move_undo_move _ 19
     (by unfold Position.InRange M64; exact ⟨by norm_num, by norm_num⟩)
     (by unfold Position.Disjoint; decide) (by decide)⟩

/-! ### Hash table (`src/collections/hashtable.rs`) -/

/-- `SCORE_MIN` from `src/bot/edax/const.rs`. -/
def SCORE_MIN : Int := -64

/-- `SCORE_MAX` from `src/bot/edax/const.rs`. -/
def SCORE_MAX : Int := 64

/-- `SCORE_INF` from `src/bot/edax/const.rs`. -/
def SCORE_INF : Int := 127

/-- Modelled from the spec: `PASS` from `src/othello/squares.rs`, which is not
among the provided sources.  The spec's data model (`Move.index: 0..63 | PASS
| NO_MOVE`, the 65-entry `X2F` table with a pass sentinel at index 64, and the
66-entry `QUADRANT_ID`/`NEIGHBOUR` tables) fixes `PASS = 64`. -/
def PASS : Nat := 64

/-- Modelled from the spec: `NO_MOVE` from `src/othello/squares.rs` (see
`PASS`); the sentinel after `PASS`, `NO_MOVE = 65`. -/
def NO_MOVE : Nat := 65

/-- Rust's `x as i8` on an `i32`, as a function on `Int`. -/
def asI8 (x : Int) : Int := (x + 128) % 256 - 128

/-- Rust's `x as u8` on an `i32`, as a function on `Int`. -/
def asU8 (x : Int) : Nat := (x % 256).toNat

/-- `HashData`: cached evaluation data for a position.  `u8` fields are `Nat`,
`i8` fields are `Int`. -/
structure HashData where
  depth : Nat
  selectivity : Nat
  cost : Nat
  date : Nat
  lower : Int
  upper : Int
  move0 : Nat
  move1 : Nat
  deriving DecidableEq, Repr

/-- `HashData::default` (`HASH_DATA_INIT`). -/
def HashData.default : HashData :=
  ⟨0, 0, 0, 0, -SCORE_INF, SCORE_INF, NO_MOVE, NO_MOVE⟩

/-- `StoreArgs`: arguments of `HashTable::store` (all score-like fields are
`i32`). -/
structure StoreArgs where
  position : Position
  depth : Int
  selectivity : Int
  cost : Int
  alpha : Int
  beta : Int
  score : Int
  move_ : Int
  deriving Repr

/-- `HashData::new` (`data_new()` in Edax). -/
def HashData.new (date : Nat) (args : StoreArgs) : HashData :=
  let score := asI8 args.score
  let beta := asI8 args.beta
  let alpha := asI8 args.alpha
  let move_ := asU8 args.move_
  { upper := if score < beta then score else 64
    lower := if score > alpha then score else -64
    move0 := if score > alpha ∨ score = -64 then move_ else NO_MOVE
    move1 := NO_MOVE
    depth := asU8 args.depth
    selectivity := asU8 args.selectivity
    cost := asU8 args.cost
    date := date }

/-- `HashData::writable_level`: `u32::from_le_bytes([depth, selectivity,
cost, date])`. -/
def HashData.writable_level (d : HashData) : Nat :=
  d.depth + 256 * d.selectivity + 65536 * d.cost + 16777216 * d.date

/-- `HashData::update` (`data_update()` in Edax): same-level re-store,
tightening the bounds towards the new score.  The source performs four
sequential in-place assignments; none of them reads a field written by an
earlier one, so they are rendered as one simultaneous record update. -/
def HashData.update (d : HashData) (args : StoreArgs) : HashData :=
  let score := asI8 args.score
  let move_ := asU8 args.move_
  let alpha := asI8 args.alpha
  let beta := asI8 args.beta
  let cost := asU8 args.cost
  { d with
    upper := if score < beta ∧ score < d.upper then score else d.upper
    lower := if score > alpha ∧ score > d.lower then score else d.lower
    move0 :=
      if (score > alpha ∨ score = -64) ∧ d.move0 ≠ move_ then move_ else d.move0
    move1 :=
      if (score > alpha ∨ score = -64) ∧ d.move0 ≠ move_ then d.move0 else d.move1
    cost := max cost d.cost }

/-- `HashData::upgrade` (`data_upgrade()` in Edax): higher-level re-store,
resetting the bounds from the new score.  As in `HashData.update`, the
source's sequential assignments are independent and rendered as one
simultaneous record update. -/
def HashData.upgrade (d : HashData) (args : StoreArgs) : HashData :=
  let score := asI8 args.score
  let beta := asI8 args.beta
  let alpha := asI8 args.alpha
  let move_ := asU8 args.move_
  { d with
    upper := if score < beta then score else 64
    lower := if score > alpha then score else -64
    move0 :=
      if (score > alpha ∨ score = -64) ∧ d.move0 ≠ move_ then move_ else d.move0
    move1 :=
      if (score > alpha ∨ score = -64) ∧ d.move0 ≠ move_ then d.move0 else d.move1
    depth := asU8 args.depth
    selectivity := asU8 args.selectivity
    cost := max (asU8 args.cost) d.cost }

/-- `Entry`: a hash-table slot. -/
structure Entry where
  position : Position
  hash_data : HashData
  deriving DecidableEq, Repr

/-- `Entry::default`. -/
def Entry.default : Entry := ⟨⟨0, 0⟩, HashData.default⟩

/-- `Entry::new` (`hash_new()` in Edax). -/
def Entry.new (date : Nat) (args : StoreArgs) : Entry :=
  ⟨args.position, HashData.new date args⟩

/-- `Entry::update` (`hash_update()` in Edax); returns whether the entry was
updated, together with the new entry. -/
def Entry.update (e : Entry) (date : Nat) (args : StoreArgs) : Bool × Entry :=
  if e.position ≠ args.position then (false, e)
  else
    let d :=
      if e.hash_data.selectivity = asU8 args.selectivity ∧
          e.hash_data.depth = asU8 args.depth then
        e.hash_data.update args
      else
        e.hash_data.upgrade args
    let d := { d with date := date }
    let d := if d.lower > d.upper then HashData.new date args else d
    (true, { e with hash_data := d })

/-- The `for entry in bucket.iter_mut()` loop of `HashTable::store`: update
the first entry that matches the position; `none` when no entry matches. -/
def storeBucketAux (date : Nat) (args : StoreArgs) :
    List Entry → Option (List Entry)
  | [] => none
  | e :: rest =>
    let r := e.update date args
    if r.1 then some (r.2 :: rest)
    else
      match storeBucketAux date args rest with
      | some rest' => some (e :: rest')
      | none => none

/-- Index of the first minimal element of a list (the semantics of Rust's
`Iterator::min_by_key`), with running state. -/
def firstMinIdxAux : List Nat → Nat → Nat → Nat → Nat
  | [], _, bestIdx, _ => bestIdx
  | x :: xs, cur, bestIdx, bestVal =>
    if x < bestVal then firstMinIdxAux xs (cur + 1) cur x
    else firstMinIdxAux xs (cur + 1) bestIdx bestVal

/-- Index of the first minimal element of a list. -/
def firstMinIdx : List Nat → Nat
  | [] => 0
  | x :: xs => firstMinIdxAux xs 1 0 x

/-- The body of `HashTable::store` acting on one bucket. -/
def storeBucket (date : Nat) (args : StoreArgs) (bucket : List Entry) :
    List Entry :=
  match storeBucketAux date args bucket with
  | some b => b
  | none =>
    bucket.set (firstMinIdx (bucket.map (fun e => e.hash_data.writable_level)))
      (Entry.new date args)

/-- The `for entry in entries.iter_mut()` loop of `HashTable::get`: find the
first entry matching the position, refresh its stored date and return a copy
of its data. -/
def getBucketAux (date : Nat) (position : Position) :
    List Entry → Option (List Entry × HashData)
  | [] => none
  | e :: rest =>
    if e.position = position then
      let d := { e.hash_data with date := date }
      some ({ e with hash_data := d } :: rest, d)
    else
      match getBucketAux date position rest with
      | some (rest', d) => some (e :: rest', d)
      | none => none

/-- `HashTable`: buckets of four entries plus the replacement date.  The
bucket index of a position is `hash(position) & mask`; the 64-bit
`DefaultHasher` value is supplied as an explicit argument `hashFn`, which is
an arbitrary deterministic function of the position. -/
structure HashTable where
  buckets : List (List Entry)
  mask : Nat
  date : Nat
  deriving Repr

/-- `HashTable::store` (`hash_store()` in Edax). -/
def HashTable.store (hashFn : Position → Nat) (t : HashTable)
    (args : StoreArgs) : HashTable :=
  let idx := hashFn args.position &&& t.mask
  let bucket := t.buckets.getD idx []
  { t with buckets := t.buckets.set idx (storeBucket t.date args bucket) }

/-- `HashTable::get`: returns the mutated table (the matching entry's date is
refreshed in place) together with a copy of the matching data. -/
def HashTable.get (hashFn : Position → Nat) (t : HashTable)
    (position : Position) : HashTable × Option HashData :=
  let idx := hashFn position &&& t.mask
  match getBucketAux t.date position (t.buckets.getD idx []) with
  | some (b, d) => ({ t with buckets := t.buckets.set idx b }, some d)
  | none => (t, none)

/-! ### C7: transposition-table store / get -/

lemma asI8_eq_self {x : Int} (h1 : -128 ≤ x) (h2 : x ≤ 127) : asI8 x = x := by
  unfold asI8; omega

/-- The entry predicate used by `store` and `get`: entry position equals the
queried position. -/
def posMatch (P : Position) : Entry → Bool := fun e => e.position == P

/-- All `StoreArgs` score fields lie in the engine score range (`score` a
legal final/heuristic score, window bounds within `±SCORE_INF`). -/
def ScoreRange (args : StoreArgs) : Prop :=
  SCORE_MIN ≤ args.score ∧ args.score ≤ SCORE_MAX ∧
    -127 ≤ args.alpha ∧ args.alpha ≤ 127 ∧ -127 ≤ args.beta ∧ args.beta ≤ 127

lemma entry_update_position (e : Entry) (date : Nat) (args : StoreArgs) :
    (e.update date args).2.position = e.position := by
  unfold Entry.update
  split <;> rfl

lemma entry_update_fst (e : Entry) (date : Nat) (args : StoreArgs) :
    (e.update date args).1 = posMatch args.position e := by
  unfold Entry.update posMatch
  split <;> simp_all

lemma hashData_new_fields (date : Nat) (args : StoreArgs) :
    (HashData.new date args).lower =
        (if asI8 args.score > asI8 args.alpha then asI8 args.score else -64) ∧
      (HashData.new date args).upper =
        (if asI8 args.score < asI8 args.beta then asI8 args.score else 64) ∧
      (HashData.new date args).move0 =
        (if asI8 args.score > asI8 args.alpha ∨ asI8 args.score = -64 then
          asU8 args.move_ else NO_MOVE) := by
  unfold HashData.new
  exact ⟨rfl, rfl, rfl⟩

lemma hashData_upgrade_fields (d0 : HashData) (args : StoreArgs) :
    (d0.upgrade args).lower =
        (if asI8 args.score > asI8 args.alpha then asI8 args.score else -64) ∧
      (d0.upgrade args).upper =
        (if asI8 args.score < asI8 args.beta then asI8 args.score else 64) ∧
      (d0.upgrade args).move0 =
        (if (asI8 args.score > asI8 args.alpha ∨ asI8 args.score = -64) ∧
            d0.move0 ≠ asU8 args.move_ then
          asU8 args.move_ else d0.move0) := by
  unfold HashData.upgrade
  exact ⟨rfl, rfl, rfl⟩

lemma hashData_update_fields (d0 : HashData) (args : StoreArgs) :
    (d0.update args).lower =
        (if asI8 args.score > asI8 args.alpha ∧ asI8 args.score > d0.lower then
          asI8 args.score else d0.lower) ∧
      (d0.update args).upper =
        (if asI8 args.score < asI8 args.beta ∧ asI8 args.score < d0.upper then
          asI8 args.score else d0.upper) ∧
      (d0.update args).move0 =
        (if (asI8 args.score > asI8 args.alpha ∨ asI8 args.score = -64) ∧
            d0.move0 ≠ asU8 args.move_ then
          asU8 args.move_ else d0.move0) := by
  unfold HashData.update
  exact ⟨rfl, rfl, rfl⟩

lemma hashData_new_props (date : Nat) (args : StoreArgs) (h : ScoreRange args) :
    (HashData.new date args).lower ≤ args.score ∧
      args.score ≤ (HashData.new date args).upper ∧
      (args.score > args.alpha → (HashData.new date args).move0 = asU8 args.move_) := by
  obtain ⟨h1, h2, h3, h4, h5, h6⟩ := h
  simp only [SCORE_MIN] at h1; simp only [SCORE_MAX] at h2
  obtain ⟨hl, hu, hm⟩ := hashData_new_fields date args
  rw [hl, hu, hm, asI8_eq_self (by omega) (by omega), asI8_eq_self (by omega) h4,
    asI8_eq_self (by omega) h6]
  refine ⟨?_, ?_, ?_⟩
  · split_ifs <;> omega
  · split_ifs <;> omega
  · intro hgt
    rw [if_pos (Or.inl hgt)]

lemma hashData_upgrade_props (d0 : HashData) (args : StoreArgs) (h : ScoreRange args) :
    (d0.upgrade args).lower ≤ args.score ∧
      args.score ≤ (d0.upgrade args).upper ∧
      (args.score > args.alpha → (d0.upgrade args).move0 = asU8 args.move_) := by
  obtain ⟨h1, h2, h3, h4, h5, h6⟩ := h
  simp only [SCORE_MIN] at h1; simp only [SCORE_MAX] at h2
  obtain ⟨hl, hu, hm⟩ := hashData_upgrade_fields d0 args
  rw [hl, hu, hm, asI8_eq_self (by omega) (by omega), asI8_eq_self (by omega) h4,
    asI8_eq_self (by omega) h6]
  refine ⟨?_, ?_, ?_⟩
  · split_ifs <;> omega
  · split_ifs <;> omega
  · intro hgt
    split_ifs with hc
    · rfl
    · rw [not_and_or] at hc
      rcases hc with hc | hc
      · exact absurd (Or.inl hgt) hc
      · simpa using hc

lemma hashData_update_move (d0 : HashData) (args : StoreArgs)
    (h : ScoreRange args) (hgt : args.score > args.alpha) :
    (d0.update args).move0 = asU8 args.move_ := by
  obtain ⟨h1, h2, h3, h4, h5, h6⟩ := h
  simp only [SCORE_MIN] at h1; simp only [SCORE_MAX] at h2
  obtain ⟨hl, hu, hm⟩ := hashData_update_fields d0 args
  rw [hm, asI8_eq_self (by omega) (by omega), asI8_eq_self (by omega) h4]
  split_ifs with hc
  · rfl
  · rw [not_and_or] at hc
    rcases hc with hc | hc
    · exact absurd (Or.inl hgt) hc
    · simpa using hc


lemma entry_update_props (e : Entry) (date : Nat) (args : StoreArgs)
    (hpos : e.position = args.position) (h : ScoreRange args) :
    (args.score > args.alpha →
      (e.update date args).2.hash_data.move0 = asU8 args.move_) ∧
    ((e.hash_data.depth ≠ asU8 args.depth ∨
        e.hash_data.selectivity ≠ asU8 args.selectivity) →
      (e.update date args).2.hash_data.lower ≤ args.score ∧
        args.score ≤ (e.update date args).2.hash_data.upper) := by
  have hne : ¬e.position ≠ args.position := by simp [hpos]
  simp only [Entry.update, if_neg hne]
  by_cases hlvl : e.hash_data.selectivity = asU8 args.selectivity ∧
      e.hash_data.depth = asU8 args.depth
  · rw [if_pos hlvl]
    constructor
    · intro hgt
      split_ifs with hreset
      · exact (hashData_new_props date args h).2.2 hgt
      · exact hashData_update_move e.hash_data args h hgt
    · intro hcase
      rcases hcase with hcase | hcase
      · exact absurd hlvl.2 hcase
      · exact absurd hlvl.1 hcase
  · rw [if_neg hlvl]
    constructor
    · intro hgt
      split_ifs with hreset
      · exact (hashData_new_props date args h).2.2 hgt
      · exact (hashData_upgrade_props e.hash_data args h).2.2 hgt
    · intro _
      split_ifs with hreset
      · exact ⟨(hashData_new_props date args h).1, (hashData_new_props date args h).2.1⟩
      · exact ⟨(hashData_upgrade_props e.hash_data args h).1,
          (hashData_upgrade_props e.hash_data args h).2.1⟩

lemma storeBucketAux_none (date : Nat) (args : StoreArgs) :
    ∀ l : List Entry, l.find? (posMatch args.position) = none →
      storeBucketAux date args l = none := by
  intro l
  induction l with
  | nil => intro _; rfl
  | cons e rest ih =>
    intro h
    rw [List.find?_cons] at h
    rcases hpe : posMatch args.position e with _ | _
    · rw [hpe] at h
      rw [storeBucketAux]
      have h1 : (e.update date args).1 = false := by
        rw [entry_update_fst, hpe]
      rw [h1]
      simp only [Bool.false_eq_true, if_false]
      rw [ih h]
    · rw [hpe] at h
      exact absurd h (by simp)

lemma storeBucketAux_some (date : Nat) (args : StoreArgs) :
    ∀ (l : List Entry) (e : Entry), l.find? (posMatch args.position) = some e →
      ∃ l', storeBucketAux date args l = some l' ∧
        l'.find? (posMatch args.position) = some (e.update date args).2 := by
  intro l
  induction l with
  | nil => intro e h; simp at h
  | cons f rest ih =>
    intro e h
    rw [List.find?_cons] at h
    rcases hpf : posMatch args.position f with _ | _
    · rw [hpf] at h
      obtain ⟨rest', hr1, hr2⟩ := ih e h
      refine ⟨f :: rest', ?_, ?_⟩
      · rw [storeBucketAux]
        have h1 : (f.update date args).1 = false := by
          rw [entry_update_fst, hpf]
        rw [h1]
        simp only [Bool.false_eq_true, if_false]
        rw [hr1]
      · rw [List.find?_cons, hpf]
        exact hr2
    · rw [hpf] at h
      have he : e = f := by
        exact (Option.some.injEq _ _ ▸ h).symm
      subst he
      refine ⟨(e.update date args).2 :: rest, ?_, ?_⟩
      · rw [storeBucketAux]
        have h1 : (e.update date args).1 = true := by
          rw [entry_update_fst, hpf]
        rw [h1]
        simp only [if_true]
      · rw [List.find?_cons]
        have hp2 : posMatch args.position (e.update date args).2 = true := by
          unfold posMatch at hpf ⊢
          rw [entry_update_position]
          exact hpf
        rw [hp2]

lemma find?_set_of_none (p : Entry → Bool) :
    ∀ (l : List Entry) (k : Nat) (a : Entry), l.find? p = none →
      k < l.length → p a = true → (l.set k a).find? p = some a := by
  intro l
  induction l with
  | nil => intro k a _ hk; simp at hk
  | cons x rest ih =>
    intro k a h hk ha
    rw [List.find?_cons] at h
    rcases hpx : p x with _ | _
    · rw [hpx] at h
      match k with
      | 0 => simp [List.set, List.find?_cons, ha]
      | k + 1 =>
        rw [List.set]
        rw [List.find?_cons, hpx]
        exact ih k a h (by simpa using hk) ha
    · rw [hpx] at h
      exact absurd h (by simp)

lemma firstMinIdxAux_lt :
    ∀ (xs : List Nat) (cur bestIdx bestVal : Nat), bestIdx < cur →
      firstMinIdxAux xs cur bestIdx bestVal < cur + xs.length := by
  intro xs
  induction xs with
  | nil =>
    intro cur b v hb
    rw [firstMinIdxAux]
    simpa using hb
  | cons x rest ih =>
    intro cur b v hb
    rw [firstMinIdxAux]
    split
    · have := ih (cur + 1) cur x (by omega)
      simp only [List.length_cons]
      omega
    · have := ih (cur + 1) b v (by omega)
      simp only [List.length_cons]
      omega

lemma firstMinIdx_lt (l : List Nat) (h : l ≠ []) : firstMinIdx l < l.length := by
  match l with
  | x :: xs =>
    rw [firstMinIdx]
    have := firstMinIdxAux_lt xs 1 0 x (by omega)
    simp only [List.length_cons]
    omega

lemma getBucketAux_of_find? (date : Nat) (P : Position) :
    ∀ (l : List Entry) (e : Entry), l.find? (posMatch P) = some e →
      ∃ l', getBucketAux date P l =
        some (l', { e.hash_data with date := date }) := by
  intro l
  induction l with
  | nil => intro e h; simp at h
  | cons f rest ih =>
    intro e h
    rw [List.find?_cons] at h
    rcases hpf : posMatch P f with _ | _
    · rw [hpf] at h
      obtain ⟨rest', hr⟩ := ih e h
      refine ⟨f :: rest', ?_⟩
      rw [getBucketAux]
      have hne : ¬f.position = P := by
        unfold posMatch at hpf
        simpa using hpf
      rw [if_neg hne, hr]
    · rw [hpf] at h
      have he : e = f := (Option.some.injEq _ _ ▸ h).symm
      subst he
      have heq : e.position = P := by
        unfold posMatch at hpf
        simpa using hpf
      exact ⟨_, by rw [getBucketAux, if_pos heq]⟩

lemma buckets_getD_set (l : List (List Entry)) (i : Nat) (b : List Entry)
    (h : i < l.length) : (l.set i b).getD i [] = b := by
  simp [List.getD, List.getElem?_set_self', h]

/-- C7 (amended): after `store(P, args)` with scores in the engine score
range, a subsequent `get(P)` returns a hash entry whose primary move
`move_[0]` equals `args.move_` whenever `args.score > args.alpha`; and whose
bounds satisfy `lower ≤ args.score ≤ upper` whenever `P` was newly inserted
or an existing entry for `P` was upgraded (its stored depth or selectivity
differs from `args`).  After a same-depth-and-selectivity update the bounds
need not enclose `args.score` (see `hashtable_store_get_counterexample`). -/
theorem hashtable_store_then_get (hashFn : Position → Nat) (t : HashTable)
    (args : StoreArgs)
    (hidx : hashFn args.position &&& t.mask < t.buckets.length)
    (hbne : t.buckets.getD (hashFn args.position &&& t.mask) [] ≠ [])
    (hr : ScoreRange args) :
    ∃ d, ((t.store hashFn args).get hashFn args.position).2 = some d ∧
      (args.score > args.alpha → d.move0 = asU8 args.move_) ∧
      ((∀ e, (t.buckets.getD (hashFn args.position &&& t.mask) []).find?
            (posMatch args.position) = some e →
          e.hash_data.depth ≠ asU8 args.depth ∨
            e.hash_data.selectivity ≠ asU8 args.selectivity) →
        d.lower ≤ args.score ∧ args.score ≤ d.upper) := by
  set idx := hashFn args.position &&& t.mask with hidxdef
  set bucket := t.buckets.getD idx [] with hbdef
  have hfind :
      ∃ en : Entry,
        (storeBucket t.date args bucket).find? (posMatch args.position) = some en ∧
        (args.score > args.alpha → en.hash_data.move0 = asU8 args.move_) ∧
        ((∀ e, bucket.find? (posMatch args.position) = some e →
            e.hash_data.depth ≠ asU8 args.depth ∨
              e.hash_data.selectivity ≠ asU8 args.selectivity) →
          en.hash_data.lower ≤ args.score ∧ args.score ≤ en.hash_data.upper) := by
    rcases hfb : bucket.find? (posMatch args.position) with _ | e
    · -- no entry matches: replacement path
      have haux : storeBucketAux t.date args bucket = none :=
        storeBucketAux_none t.date args bucket hfb
      have hset : storeBucket t.date args bucket =
          bucket.set
            (firstMinIdx (bucket.map (fun e => e.hash_data.writable_level)))
            (Entry.new t.date args) := by
        unfold storeBucket
        rw [haux]
      have hklt : firstMinIdx (bucket.map (fun e => e.hash_data.writable_level)) <
          bucket.length := by
        have := firstMinIdx_lt (bucket.map (fun e => e.hash_data.writable_level))
          (by simpa using hbne)
        simpa using this
      have hnew : (storeBucket t.date args bucket).find? (posMatch args.position) =
          some (Entry.new t.date args) := by
        rw [hset]
        exact find?_set_of_none _ bucket _ _ hfb hklt (by simp [posMatch, Entry.new])
      obtain ⟨hl, hu, hm⟩ := hashData_new_props t.date args hr
      exact ⟨Entry.new t.date args, hnew, hm, fun _ => ⟨hl, hu⟩⟩
    · -- an entry matches: update / upgrade path
      have hepos : e.position = args.position := by
        have := List.find?_some hfb
        unfold posMatch at this
        simpa using this
      obtain ⟨l', hl1, hl2⟩ := storeBucketAux_some t.date args bucket e hfb
      have hsb : storeBucket t.date args bucket = l' := by
        unfold storeBucket
        rw [hl1]
      obtain ⟨hmove, hbounds⟩ := entry_update_props e t.date args hepos hr
      refine ⟨(e.update t.date args).2, ?_, hmove, ?_⟩
      · rw [hsb]; exact hl2
      · intro hcase
        exact hbounds (hcase e rfl)
  obtain ⟨en, hen, hmove, hbounds⟩ := hfind
  have hstore : (t.store hashFn args).buckets =
      t.buckets.set idx (storeBucket t.date args bucket) := rfl
  have hmask : (t.store hashFn args).mask = t.mask := rfl
  have hdate : (t.store hashFn args).date = t.date := rfl
  have hget : ((t.store hashFn args).get hashFn args.position).2 =
      some { en.hash_data with date := t.date } := by
    obtain ⟨l'', hl''⟩ :=
      getBucketAux_of_find? t.date args.position
        (storeBucket t.date args bucket) en hen
    unfold HashTable.get
    rw [hmask, hdate, hstore, ← hidxdef]
    simp only [buckets_getD_set _ _ _ hidx, hl'']
  exact ⟨{ en.hash_data with date := t.date }, hget, hmove, hbounds⟩

/-- A one-bucket hash table and two same-level stores on the same position,
used to witness and refute parts of the store-then-get contract. -/
def c7Hash : Position → Nat := fun _ => 0

/-- The position stored twice in the C7 scenario. -/
def c7Pos : Position := ⟨1, 2⟩

/-- First store: depth 5, selectivity 2, window `(-10, 10)`, score 3. -/
def c7Args1 : StoreArgs := ⟨c7Pos, 5, 2, 1, -10, 10, 3, 19⟩

/-- Second store at the same depth and selectivity: window `(5, 6)`,
score 5. -/
def c7Args2 : StoreArgs := ⟨c7Pos, 5, 2, 1, 5, 6, 5, 20⟩

/-- A fresh one-bucket table (four default entries, mask 0, date 0). -/
def c7Table0 : HashTable :=
  ⟨[[Entry.default, Entry.default, Entry.default, Entry.default]], 0, 0⟩

/-- The table after the first store. -/
def c7Table1 : HashTable := c7Table0.store c7Hash c7Args1

/-- Witness for `hashtable_store_then_get`: first store into the fresh
one-bucket table. -/
theorem hashtable_store_then_get_witness :
    (c7Hash c7Args1.position &&& c7Table0.mask < c7Table0.buckets.length) ∧
      (c7Table0.buckets.getD (c7Hash c7Args1.position &&& c7Table0.mask) [] ≠ []) ∧
      ScoreRange c7Args1 ∧
      (∃ d, ((c7Table0.store c7Hash c7Args1).get c7Hash c7Args1.position).2 = some d ∧
        (c7Args1.score > c7Args1.alpha → d.move0 = asU8 c7Args1.move_) ∧
        ((∀ e, (c7Table0.buckets.getD (c7Hash c7Args1.position &&& c7Table0.mask) []).find?
              (posMatch c7Args1.position) = some e →
            e.hash_data.depth ≠ asU8 c7Args1.depth ∨
              e.hash_data.selectivity ≠ asU8 c7Args1.selectivity) →
          d.lower ≤ c7Args1.score ∧ c7Args1.score ≤ d.upper)) :=
  ⟨by decide, by decide, by unfold ScoreRange SCORE_MIN SCORE_MAX; decide,
    hashtable_store_then_get c7Hash c7Table0 c7Args1 (by decide) (by decide)
      (by unfold ScoreRange SCORE_MIN SCORE_MAX; decide)⟩

/-- C7 counterexample: a second store at the same depth and selectivity, with
arguments in the engine score range, after which `get` returns an entry whose
bounds do not enclose the stored score (the claim requires
`lower ≤ args.score ≤ upper` also for the update path). -/
theorem hashtable_store_get_counterexample :
    ScoreRange c7Args2 ∧
      ∃ d, ((c7Table1.store c7Hash c7Args2).get c7Hash c7Args2.position).2 = some d ∧
        ¬(d.lower ≤ c7Args2.score ∧ c7Args2.score ≤ d.upper) := by
  refine ⟨by unfold ScoreRange SCORE_MIN SCORE_MAX; decide,
    ⟨5, 2, 1, 0, 3, 3, 19, 65⟩, ?_, ?_⟩
  · decide
  · decide

/-! ### EmptiesList (`src/collections/empties_list.rs`)

The arena of pre-allocated nodes is a `List ELNode`; raw node pointers become
arena indices (the design notes prescribe exactly this rendering: "In a
language without raw pointers, use indices into the arena; the sentinel is at
index 0"). -/

/-- `Square` as stored in the empties list: bitset, index and quadrant. -/
structure ELSquare where
  b : Nat
  x : Nat
  quadrant : Nat
  deriving DecidableEq, Repr

/-- A node of the `EmptiesList` arena: payload plus next/prev arena indices. -/
structure ELNode where
  data : ELSquare
  next : Nat
  prev : Nat
  deriving DecidableEq, Repr

/-- The default node used to read out-of-range arena slots. -/
def ELNode.dummy : ELNode := ⟨⟨0, 0, 0⟩, 0, 0⟩

/-- Replace the `next` field of a node. -/
def ELNode.withNext (x : ELNode) (v : Nat) : ELNode := ⟨x.data, v, x.prev⟩

/-- Replace the `prev` field of a node. -/
def ELNode.withPrev (x : ELNode) (v : Nat) : ELNode := ⟨x.data, x.next, v⟩

/-- `EmptiesList`: the node arena (sentinel at index 0) and the
square-to-node index map. -/
structure EmptiesList where
  nodes : List ELNode
  x_to_node : List Nat
  deriving DecidableEq, Repr

namespace EmptiesList

/-- The `next` link of arena node `i`. -/
def nextIdx (el : EmptiesList) (i : Nat) : Nat := (el.nodes.getD i ELNode.dummy).next

/-- The `prev` link of arena node `i`. -/
def prevIdx (el : EmptiesList) (i : Nat) : Nat := (el.nodes.getD i ELNode.dummy).prev

/-- `EmptiesList::remove`: unlink node `index`, leaving the node itself
untouched (`(*prev).next = next; (*next).prev = prev`). -/
def remove (el : EmptiesList) (index : Nat) : EmptiesList :=
  let prev := el.prevIdx index
  let next := el.nextIdx index
  let nodes := el.nodes.set prev ((el.nodes.getD prev ELNode.dummy).withNext next)
  let nodes := nodes.set next ((nodes.getD next ELNode.dummy).withPrev prev)
  ⟨nodes, el.x_to_node⟩

/-- `EmptiesList::restore`: relink node `index` using its preserved
neighbour pointers (`(*prev).next = node; (*next).prev = node`). -/
def restore (el : EmptiesList) (index : Nat) : EmptiesList :=
  let prev := el.prevIdx index
  let next := el.nextIdx index
  let nodes := el.nodes.set prev ((el.nodes.getD prev ELNode.dummy).withNext index)
  let nodes := nodes.set next ((nodes.getD next ELNode.dummy).withPrev index)
  ⟨nodes, el.x_to_node⟩

/-- `EmptiesList::remove_by_x`. -/
def remove_by_x (el : EmptiesList) (x : Nat) : EmptiesList :=
  el.remove (el.x_to_node.getD x 0)

/-- `EmptiesList::restore_by_x`. -/
def restore_by_x (el : EmptiesList) (x : Nat) : EmptiesList :=
  el.restore (el.x_to_node.getD x 0)

/-- The iterator of `EmptiesList::iter`, with fuel: follow `next` links from
the sentinel's successor until the sentinel is reached again. -/
def iterAux (el : EmptiesList) : Nat → Nat → List ELSquare
  | 0, _ => []
  | fuel + 1, cur =>
    if cur = 0 then []
    else (el.nodes.getD cur ELNode.dummy).data ::
      iterAux el fuel (el.nodes.getD cur ELNode.dummy).next

/-- `EmptiesList::iter`, collected into a list (fuel `nodes.length` is enough
for every well-formed list, whose active chain visits distinct nodes). -/
def iter (el : EmptiesList) : List ELSquare :=
  iterAux el el.nodes.length (el.nextIdx 0)

end EmptiesList

/-- A doubly-linked chain from `a` through the nodes of `l` to `b`, for
abstract link functions `f` (next) and `g` (prev): every consecutive pair is
linked in both directions. -/
def ChainF (f g : Nat → Nat) : Nat → List Nat → Nat → Prop
  | a, [], b => f a = b ∧ g b = a
  | a, c :: l, b => f a = c ∧ g c = a ∧ ChainF f g c l b

instance chainFDec (f g : Nat → Nat) :
    ∀ (a : Nat) (l : List Nat) (b : Nat), Decidable (ChainF f g a l b)
  | _, [], _ => inferInstanceAs (Decidable (_ ∧ _))
  | a, c :: l, b =>
    have : Decidable (ChainF f g c l b) := chainFDec f g c l b
    inferInstanceAs (Decidable (_ ∧ _ ∧ _))

/-- Well-formedness of an `EmptiesList`: `L` lists the arena indices of the
active (non-sentinel) nodes in list order; the `next`/`prev` links realize
the circular list `0 :: L`, all active indices are distinct, non-sentinel and
within the arena. -/
def EmptiesList.WF (el : EmptiesList) (L : List Nat) : Prop :=
  0 < el.nodes.length ∧ (0 :: L).Nodup ∧
    (∀ j ∈ 0 :: L, j < el.nodes.length) ∧
    ChainF el.nextIdx el.prevIdx 0 L 0

lemma getD_set_self {α : Type} (l : List α) (k : Nat) (a d : α) (h : k < l.length) :
    (l.set k a).getD k d = a := by
  simp [List.getD, List.getElem?_set_self', h]

lemma getD_set_ne {α : Type} (l : List α) (k j : Nat) (a d : α) (h : j ≠ k) :
    (l.set k a).getD j d = l.getD j d := by
  simp [List.getD, List.getElem?_set_ne (Ne.symm h)]

lemma list_ext_getD {α : Type} (d : α) (l1 l2 : List α) (hlen : l1.length = l2.length)
    (h : ∀ j, j < l1.length → l1.getD j d = l2.getD j d) : l1 = l2 := by
  refine List.ext_getElem hlen ?_
  intro n h1 h2
  have hx := h n h1
  rwa [List.getD_eq_getElem l1 d h1, List.getD_eq_getElem l2 d h2] at hx

lemma elnode_withNext_self (x : ELNode) (v : Nat) (h : x.next = v) :
    x.withNext v = x := by
  cases x; simp_all [ELNode.withNext]

lemma elnode_withPrev_self (x : ELNode) (v : Nat) (h : x.prev = v) :
    x.withPrev v = x := by
  cases x; simp_all [ELNode.withPrev]

lemma remove_nodes (el : EmptiesList) (i : Nat) :
    (el.remove i).nodes =
      (el.nodes.set (el.prevIdx i)
            ((el.nodes.getD (el.prevIdx i) ELNode.dummy).withNext (el.nextIdx i))).set
        (el.nextIdx i)
        (((el.nodes.set (el.prevIdx i)
              ((el.nodes.getD (el.prevIdx i) ELNode.dummy).withNext
                (el.nextIdx i))).getD (el.nextIdx i) ELNode.dummy).withPrev
          (el.prevIdx i)) := rfl

lemma restore_nodes (el : EmptiesList) (i : Nat) :
    (el.restore i).nodes =
      (el.nodes.set (el.prevIdx i)
            ((el.nodes.getD (el.prevIdx i) ELNode.dummy).withNext i)).set
        (el.nextIdx i)
        (((el.nodes.set (el.prevIdx i)
              ((el.nodes.getD (el.prevIdx i) ELNode.dummy).withNext i)).getD
            (el.nextIdx i) ELNode.dummy).withPrev i) := rfl

lemma remove_x_to_node (el : EmptiesList) (i : Nat) :
    (el.remove i).x_to_node = el.x_to_node := rfl

lemma remove_length (el : EmptiesList) (i : Nat) :
    (el.remove i).nodes.length = el.nodes.length := by
  rw [remove_nodes]
  simp

lemma restore_length (el : EmptiesList) (i : Nat) :
    (el.restore i).nodes.length = el.nodes.length := by
  rw [restore_nodes]
  simp

lemma remove_getD_other (el : EmptiesList) (i j : Nat)
    (hjp : j ≠ el.prevIdx i) (hjn : j ≠ el.nextIdx i) :
    (el.remove i).nodes.getD j ELNode.dummy = el.nodes.getD j ELNode.dummy := by
  rw [remove_nodes]
  rw [getD_set_ne _ _ _ _ _ hjn, getD_set_ne _ _ _ _ _ hjp]

lemma remove_getD_p (el : EmptiesList) (i : Nat) (hpn : el.prevIdx i ≠ el.nextIdx i)
    (hp : el.prevIdx i < el.nodes.length) :
    (el.remove i).nodes.getD (el.prevIdx i) ELNode.dummy =
      (el.nodes.getD (el.prevIdx i) ELNode.dummy).withNext (el.nextIdx i) := by
  rw [remove_nodes]
  rw [getD_set_ne _ _ _ _ _ hpn, getD_set_self _ _ _ _ hp]

lemma remove_getD_n (el : EmptiesList) (i : Nat) (hpn : el.prevIdx i ≠ el.nextIdx i)
    (hp : el.prevIdx i < el.nodes.length) (hn : el.nextIdx i < el.nodes.length) :
    (el.remove i).nodes.getD (el.nextIdx i) ELNode.dummy =
      (el.nodes.getD (el.nextIdx i) ELNode.dummy).withPrev (el.prevIdx i) := by
  rw [remove_nodes]
  rw [getD_set_self _ _ _ _ (by simpa using hn),
    getD_set_ne _ _ _ _ _ (Ne.symm hpn)]

lemma remove_getD_pn (el : EmptiesList) (i : Nat) (hpn : el.prevIdx i = el.nextIdx i)
    (hp : el.prevIdx i < el.nodes.length) :
    (el.remove i).nodes.getD (el.prevIdx i) ELNode.dummy =
      ((el.nodes.getD (el.prevIdx i) ELNode.dummy).withNext
        (el.nextIdx i)).withPrev (el.prevIdx i) := by
  rw [remove_nodes]
  rw [← hpn, getD_set_self _ _ _ _ (by simpa using hp),
    getD_set_self _ _ _ _ hp]

/-- Node `i` itself is untouched by `remove i` when it is not its own
neighbour. -/
lemma remove_getD_self (el : EmptiesList) (i : Nat)
    (hip : i ≠ el.prevIdx i) (hin : i ≠ el.nextIdx i) :
    (el.remove i).nodes.getD i ELNode.dummy = el.nodes.getD i ELNode.dummy :=
  remove_getD_other el i i hip hin

lemma remove_prevIdx_self (el : EmptiesList) (i : Nat)
    (hip : i ≠ el.prevIdx i) (hin : i ≠ el.nextIdx i) :
    (el.remove i).prevIdx i = el.prevIdx i := by
  unfold EmptiesList.prevIdx
  rw [remove_getD_self el i hip hin]

lemma remove_nextIdx_self (el : EmptiesList) (i : Nat)
    (hip : i ≠ el.prevIdx i) (hin : i ≠ el.nextIdx i) :
    (el.remove i).nextIdx i = el.nextIdx i := by
  unfold EmptiesList.nextIdx
  rw [remove_getD_self el i hip hin]

/-- Removing and immediately restoring a properly linked node is the
identity. -/
lemma remove_restore_id (el : EmptiesList) (i : Nat)
    (hp : el.prevIdx i < el.nodes.length) (hn : el.nextIdx i < el.nodes.length)
    (hip : i ≠ el.prevIdx i) (hin : i ≠ el.nextIdx i)
    (hlink1 : el.nextIdx (el.prevIdx i) = i)
    (hlink2 : el.prevIdx (el.nextIdx i) = i) :
    (el.remove i).restore i = el := by
  have hpi : (el.remove i).prevIdx i = el.prevIdx i :=
    remove_prevIdx_self el i hip hin
  have hni : (el.remove i).nextIdx i = el.nextIdx i :=
    remove_nextIdx_self el i hip hin
  have hlen : (el.remove i).nodes.length = el.nodes.length := remove_length el i
  have hnodes : ((el.remove i).restore i).nodes = el.nodes := by
    rw [restore_nodes, hpi, hni]
    refine list_ext_getD ELNode.dummy _ _ (by simp [hlen]) ?_
    intro j hj
    have hj' : j < el.nodes.length := by
      simpa [hlen] using hj
    by_cases hjn : j = el.nextIdx i
    · by_cases hjp : j = el.prevIdx i
      · -- p = n = j: both writes hit the same node
        have hpn : el.prevIdx i = el.nextIdx i := by rw [← hjp, hjn]
        subst hjp
        rw [← hpn,
          getD_set_self _ _ _ _ (by rw [List.length_set, hlen]; exact hj'),
          getD_set_self _ _ _ _ (by rw [hlen]; exact hj'),
          remove_getD_pn el i hpn hj']
        have h1 : (el.nodes.getD (el.prevIdx i) ELNode.dummy).next = i := hlink1
        have h2 : (el.nodes.getD (el.prevIdx i) ELNode.dummy).prev = i := by
          rw [← hpn] at hlink2
          exact hlink2
        cases hcase : el.nodes.getD (el.prevIdx i) ELNode.dummy
        simp_all [ELNode.withNext, ELNode.withPrev]
      · -- j = n ≠ p
        subst hjn
        have hpn : el.prevIdx i ≠ el.nextIdx i := fun hh => hjp hh.symm
        rw [getD_set_self _ _ _ _ (by rw [List.length_set, hlen]; exact hn),
          getD_set_ne _ _ _ _ _ (Ne.symm hpn),
          remove_getD_n el i hpn hp hn]
        have h2 : (el.nodes.getD (el.nextIdx i) ELNode.dummy).prev = i := hlink2
        cases hcase : el.nodes.getD (el.nextIdx i) ELNode.dummy
        simp_all [ELNode.withPrev]
    · by_cases hjp : j = el.prevIdx i
      · -- j = p ≠ n
        subst hjp
        have hpn : el.prevIdx i ≠ el.nextIdx i := fun hh => hjn hh
        rw [getD_set_ne _ _ _ _ _ hpn,
          getD_set_self _ _ _ _ (by rw [hlen]; exact hp),
          remove_getD_p el i hpn hp]
        have h1 : (el.nodes.getD (el.prevIdx i) ELNode.dummy).next = i := hlink1
        cases hcase : el.nodes.getD (el.prevIdx i) ELNode.dummy
        simp_all [ELNode.withNext]
      · -- j untouched
        rw [getD_set_ne _ _ _ _ _ hjn, getD_set_ne _ _ _ _ _ hjp,
          remove_getD_other el i j hjp hjn]
  have hx : ((el.remove i).restore i).x_to_node = el.x_to_node := rfl
  cases hres : (el.remove i).restore i with
  | mk ns xs =>
    rw [hres] at hnodes hx
    cases el
    simp_all


lemma headD_mem_cons (l : List Nat) (b : Nat) : l.headD b ∈ b :: l := by
  cases l <;> simp [List.headD]

lemma chainF_nil (f g : Nat → Nat) (a b : Nat) :
    ChainF f g a [] b ↔ (f a = b ∧ g b = a) := Iff.rfl

lemma chainF_cons (f g : Nat → Nat) (a c b : Nat) (l : List Nat) :
    ChainF f g a (c :: l) b ↔ (f a = c ∧ g c = a ∧ ChainF f g c l b) := Iff.rfl

lemma chainF_congr (f g f' g' : Nat → Nat) :
    ∀ (l : List Nat) (a b : Nat), ChainF f g a l b →
      (∀ s, s = a ∨ s ∈ l → f' s = f s) →
      (∀ t, t ∈ l ∨ t = b → g' t = g t) →
      ChainF f' g' a l b := by
  intro l
  induction l with
  | nil =>
    intro a b h hf hg
    rw [chainF_nil] at h ⊢
    exact ⟨by rw [hf a (Or.inl rfl)]; exact h.1, by rw [hg b (Or.inr rfl)]; exact h.2⟩
  | cons c l ih =>
    intro a b h hf hg
    rw [chainF_cons] at h ⊢
    refine ⟨by rw [hf a (Or.inl rfl)]; exact h.1,
      by rw [hg c (Or.inl (by simp))]; exact h.2.1, ?_⟩
    refine ih c b h.2.2 ?_ ?_
    · intro s hs
      refine hf s (Or.inr ?_)
      rcases hs with hs | hs
      · simp [hs]
      · simp [hs]
    · intro t ht
      rcases ht with ht | ht
      · exact hg t (Or.inl (by simp [ht]))
      · exact hg t (Or.inr ht)

lemma chainF_gLast (f g : Nat → Nat) :
    ∀ (l : List Nat) (a b : Nat), ChainF f g a l b → g b = l.getLastD a := by
  intro l
  induction l with
  | nil => intro a b h; exact h.2
  | cons c l ih =>
    intro a b h
    rw [List.getLastD_cons]
    exact ih c b ((chainF_cons f g a c b l).mp h).2.2

lemma chainF_fHead (f g : Nat → Nat) :
    ∀ (l : List Nat) (a b : Nat), ChainF f g a l b → f a = l.headD b := by
  intro l
  cases l with
  | nil => intro a b h; exact h.1
  | cons c l => intro a b h; exact h.1

lemma chainF_fg (f g : Nat → Nat) :
    ∀ (l : List Nat) (a b : Nat), ChainF f g a l b → f (g b) = b := by
  intro l
  induction l with
  | nil =>
    intro a b h
    rw [h.2]
    exact h.1
  | cons c l ih =>
    intro a b h
    exact ih c b ((chainF_cons f g a c b l).mp h).2.2

lemma chainF_gf (f g : Nat → Nat) :
    ∀ (l : List Nat) (a b : Nat), ChainF f g a l b → g (f a) = a := by
  intro l
  cases l with
  | nil =>
    intro a b h
    rw [h.1]
    exact h.2
  | cons c l =>
    intro a b h
    rw [((chainF_cons f g a c b l).mp h).1]
    exact ((chainF_cons f g a c b l).mp h).2.1

lemma chainF_split (f g : Nat → Nat) :
    ∀ (l1 : List Nat) (a i : Nat) (l2 : List Nat) (b : Nat),
      ChainF f g a (l1 ++ i :: l2) b → ChainF f g a l1 i ∧ ChainF f g i l2 b := by
  intro l1
  induction l1 with
  | nil =>
    intro a i l2 b h
    rw [List.nil_append] at h
    obtain ⟨h1, h2, h3⟩ := (chainF_cons f g a i b l2).mp h
    exact ⟨(chainF_nil f g a i).mpr ⟨h1, h2⟩, h3⟩
  | cons c l1 ih =>
    intro a i l2 b h
    rw [List.cons_append] at h
    obtain ⟨h1, h2, h3⟩ := (chainF_cons f g a c b (l1 ++ i :: l2)).mp h
    obtain ⟨ha, hb⟩ := ih c i l2 b h3
    exact ⟨(chainF_cons f g a c i l1).mpr ⟨h1, h2, ha⟩, hb⟩

lemma chainF_remove_aux (f g f' g' : Nat → Nat) (i : Nat) (L2 : List Nat)
    (hc2 : ChainF f g i L2 0)
    (hf' : ∀ s, s ≠ g i → f' s = f s) (hg' : ∀ t, t ≠ f i → g' t = g t)
    (hfp : f' (g i) = f i) (hgn : g' (f i) = g i)
    (h0L2 : 0 ∉ L2) :
    ∀ (L1 : List Nat) (a : Nat), ChainF f g a L1 i → 0 ∉ L1 →
      (a :: (L1 ++ i :: L2)).Nodup →
      ChainF f' g' a (L1 ++ L2) 0 := by
  intro L1
  induction L1 with
  | nil =>
    intro a hc1 h0 hnd
    have hpa : g i = a := hc1.2
    have ha_notin : a ∉ i :: L2 := by
      have h := (List.nodup_cons.mp hnd).1
      simpa using h
    cases L2 with
    | nil =>
      rw [List.nil_append]
      rw [chainF_nil]
      refine ⟨?_, ?_⟩
      · rw [← hpa, hfp]
        exact hc2.1
      · rw [← hc2.1, hgn, hpa]
    | cons c L2' =>
      rw [List.nil_append]
      obtain ⟨hic, hci, hcc⟩ := (chainF_cons f g i c 0 L2').mp hc2
      rw [chainF_cons]
      refine ⟨?_, ?_, ?_⟩
      · rw [← hpa, hfp]
        exact hic
      · rw [← hic, hgn, hpa]
      · refine chainF_congr f g f' g' L2' c 0 hcc ?_ ?_
        · intro s hs
          refine hf' s ?_
          rw [hpa]
          intro hsa
          subst hsa
          rcases hs with hs | hs
          · exact ha_notin (by simp [hs])
          · exact ha_notin (by simp [hs])
        · intro t ht
          refine hg' t ?_
          rw [hic]
          have h1 : (i :: c :: L2').Nodup := (List.nodup_cons.mp hnd).2
          have hc_nodup : (c :: L2').Nodup := (List.nodup_cons.mp h1).2
          rcases ht with ht | ht
          · intro hct
            exact (List.nodup_cons.mp hc_nodup).1 (hct ▸ ht)
          · intro hct
            rw [ht] at hct
            exact h0L2 (by rw [← hct]; exact List.mem_cons_self 0 L2')
  | cons d L1' ih =>
    intro a hc1 h0 hnd
    obtain ⟨hfa, hgd, hc1'⟩ := (chainF_cons f g a d i L1').mp hc1
    have hgi_mem : g i ∈ d :: L1' := by
      rw [chainF_gLast f g L1' d i hc1']
      exact List.getLastD_mem_cons L1' d
    have ha_notin : a ∉ (d :: L1') ++ i :: L2 := (List.nodup_cons.mp hnd).1
    have hd0 : d ≠ 0 := by
      intro hd
      exact h0 (by rw [← hd]; exact List.mem_cons_self d L1')
    rw [List.cons_append, chainF_cons]
    refine ⟨?_, ?_, ?_⟩
    · rw [hf' a ?_]
      · exact hfa
      · intro haeq
        exact ha_notin (by rw [haeq]; exact List.mem_append_left _ hgi_mem)
    · rw [hg' d ?_]
      · exact hgd
      · have hfi_mem : f i ∈ 0 :: L2 :=
          (chainF_fHead f g L2 i 0 hc2) ▸ headD_mem_cons L2 0
        intro hdeq
        have hd_nodup : (d :: (L1' ++ i :: L2)).Nodup := (List.nodup_cons.mp hnd).2
        have hd_notin : d ∉ L1' ++ i :: L2 := (List.nodup_cons.mp hd_nodup).1
        rcases List.mem_cons.mp hfi_mem with h0' | hmem
        · exact hd0 (by rw [hdeq, h0'])
        · exact hd_notin (by rw [hdeq]; exact List.mem_append_right _ (by simp [hmem]))
    · refine ih d hc1' ?_ (List.nodup_cons.mp hnd).2
      intro hmem
      exact h0 (List.mem_cons_of_mem d hmem)


lemma remove_nextIdx_of_ne (el : EmptiesList) (i s : Nat)
    (hs : s ≠ el.prevIdx i)
    (hp : el.prevIdx i < el.nodes.length) (hn : el.nextIdx i < el.nodes.length) :
    (el.remove i).nextIdx s = el.nextIdx s := by
  unfold EmptiesList.nextIdx
  by_cases hsn : s = el.nextIdx i
  · have hpn : el.prevIdx i ≠ el.nextIdx i := by
      intro hh
      exact hs (by rw [hsn, ← hh])
    rw [hsn, remove_getD_n el i hpn hp hn]
    exact rfl
  · rw [remove_getD_other el i s hs hsn]

lemma remove_prevIdx_of_ne (el : EmptiesList) (i t : Nat)
    (ht : t ≠ el.nextIdx i)
    (hp : el.prevIdx i < el.nodes.length) :
    (el.remove i).prevIdx t = el.prevIdx t := by
  unfold EmptiesList.prevIdx
  by_cases htp : t = el.prevIdx i
  · have hpn : el.prevIdx i ≠ el.nextIdx i := by
      intro hh
      exact ht (by rw [htp, hh])
    rw [htp, remove_getD_p el i hpn hp]
    exact rfl
  · rw [remove_getD_other el i t htp ht]

lemma remove_nextIdx_p (el : EmptiesList) (i : Nat)
    (hp : el.prevIdx i < el.nodes.length) (hn : el.nextIdx i < el.nodes.length) :
    (el.remove i).nextIdx (el.prevIdx i) = el.nextIdx i := by
  unfold EmptiesList.nextIdx
  by_cases hpn : el.prevIdx i = el.nextIdx i
  · rw [remove_getD_pn el i hpn hp]
    exact rfl
  · rw [remove_getD_p el i hpn hp]
    exact rfl

lemma remove_prevIdx_n (el : EmptiesList) (i : Nat)
    (hp : el.prevIdx i < el.nodes.length) (hn : el.nextIdx i < el.nodes.length) :
    (el.remove i).prevIdx (el.nextIdx i) = el.prevIdx i := by
  unfold EmptiesList.prevIdx
  by_cases hpn : el.prevIdx i = el.nextIdx i
  · rw [← hpn, remove_getD_pn el i hpn hp]
    exact rfl
  · rw [remove_getD_n el i hpn hp hn]
    exact rfl

/-- The structural facts about an active node `i` of a well-formed list that
`remove`/`restore` reasoning needs. -/
lemma WF_split_facts (el : EmptiesList) (l1 : List Nat) (i : Nat) (l2 : List Nat)
    (hwf : el.WF (l1 ++ i :: l2)) :
    el.prevIdx i < el.nodes.length ∧ el.nextIdx i < el.nodes.length ∧
      i ≠ el.prevIdx i ∧ i ≠ el.nextIdx i ∧
      el.nextIdx (el.prevIdx i) = i ∧ el.prevIdx (el.nextIdx i) = i := by
  obtain ⟨hlen, hnd, hbnd, hchain⟩ := hwf
  obtain ⟨hc1, hc2⟩ := chainF_split el.nextIdx el.prevIdx l1 0 i l2 0 hchain
  have hgmem : el.prevIdx i ∈ 0 :: l1 := by
    rw [chainF_gLast el.nextIdx el.prevIdx l1 0 i hc1]
    exact List.getLastD_mem_cons l1 0
  have hfmem : el.nextIdx i ∈ 0 :: l2 := by
    rw [chainF_fHead el.nextIdx el.prevIdx l2 i 0 hc2]
    exact headD_mem_cons l2 0
  have hnd2 : ((0 :: l1) ++ i :: l2).Nodup := by
    rw [List.cons_append]
    exact hnd
  have hdisj := List.disjoint_of_nodup_append hnd2
  have hgmem' : el.prevIdx i ∈ 0 :: (l1 ++ i :: l2) := by
    rcases List.mem_cons.mp hgmem with h | h
    · rw [h]
      exact List.mem_cons_self 0 _
    · exact List.mem_cons_of_mem 0 (List.mem_append_left _ h)
  have hfmem' : el.nextIdx i ∈ 0 :: (l1 ++ i :: l2) := by
    rcases List.mem_cons.mp hfmem with h | h
    · rw [h]; exact List.mem_cons_self 0 _
    · exact List.mem_cons_of_mem 0
        (List.mem_append_right _ (List.mem_cons_of_mem i h))
  refine ⟨hbnd _ hgmem', hbnd _ hfmem', ?_, ?_, ?_, ?_⟩
  · intro h
    rw [← h] at hgmem
    exact hdisj hgmem (List.mem_cons_self i l2)
  · intro h
    rw [← h] at hfmem
    have h0i : (0 : Nat) ∉ l1 ++ i :: l2 := (List.nodup_cons.mp hnd).1
    have hil2 : i ∉ l2 :=
      (List.nodup_cons.mp (List.Nodup.of_append_right hnd2)).1
    rcases List.mem_cons.mp hfmem with h' | h'
    · exact h0i (h' ▸ List.mem_append_right _ (List.mem_cons_self i l2))
    · exact hil2 h'
  · exact chainF_fg el.nextIdx el.prevIdx l1 0 i hc1
  · exact chainF_gf el.nextIdx el.prevIdx l2 i 0 hc2

/-- Removing an active node of a well-formed list yields a well-formed list
whose active chain has that node deleted. -/
lemma WF_remove (el : EmptiesList) (l1 : List Nat) (i : Nat) (l2 : List Nat)
    (hwf : el.WF (l1 ++ i :: l2)) : (el.remove i).WF (l1 ++ l2) := by
  obtain ⟨hp, hn, hip, hin, hlink1, hlink2⟩ := WF_split_facts el l1 i l2 hwf
  obtain ⟨hlen, hnd, hbnd, hchain⟩ := hwf
  obtain ⟨hc1, hc2⟩ := chainF_split el.nextIdx el.prevIdx l1 0 i l2 0 hchain
  have hsub : List.Sublist (0 :: (l1 ++ l2)) (0 :: (l1 ++ i :: l2)) :=
    List.Sublist.cons₂ 0 (List.Sublist.append_left (List.sublist_cons_self i l2) l1)
  have h0l : (0 : Nat) ∉ l1 ++ i :: l2 := (List.nodup_cons.mp hnd).1
  refine ⟨?_, ?_, ?_, ?_⟩
  · rw [remove_length]
    exact hlen
  · exact List.Nodup.sublist hsub hnd
  · intro j hj
    rw [remove_length]
    exact hbnd j (hsub.subset hj)
  · refine chainF_remove_aux el.nextIdx el.prevIdx
      (el.remove i).nextIdx (el.remove i).prevIdx i l2 hc2 ?_ ?_ ?_ ?_ ?_ l1 0 hc1 ?_ hnd
    · intro s hs
      exact remove_nextIdx_of_ne el i s hs hp hn
    · intro t ht
      exact remove_prevIdx_of_ne el i t ht hp
    · exact remove_nextIdx_p el i hp hn
    · exact remove_prevIdx_n el i hp hn
    · intro hmem
      exact h0l (List.mem_append_right _ (List.mem_cons_of_mem i hmem))
    · intro hmem
      exact h0l (List.mem_append_left _ hmem)

/-- One `EmptiesList` operation of the searcher: `remove_by_x` or
`restore_by_x` of a square. -/
inductive ELOp where
  | rm (x : Nat)
  | rs (x : Nat)
  deriving DecidableEq, Repr

/-- Run one operation. -/
def execOp (el : EmptiesList) : ELOp → EmptiesList
  | ELOp.rm x => el.remove_by_x x
  | ELOp.rs x => el.restore_by_x x

/-- Run a sequence of operations left to right. -/
def execOps : List ELOp → EmptiesList → EmptiesList
  | [], el => el
  | op :: ops, el => execOps ops (execOp el op)

lemma execOps_append (L1 L2 : List ELOp) :
    ∀ el : EmptiesList, execOps (L1 ++ L2) el = execOps L2 (execOps L1 el) := by
  induction L1 with
  | nil => intro el; rfl
  | cons op ops ih =>
    intro el
    show execOps (ops ++ L2) (execOp el op) = _
    rw [ih (execOp el op)]
    rfl

/-- Properly nested (LIFO) operation sequences: relative to a fixed
square-to-node map `m` and the current list `L` of active node indices (in
chain order), a nested sequence is either empty, or removes an active square
`x`, runs a sequence nested inside the shrunk list, restores `x`, and
continues with a sequence nested in the original list. -/
inductive Nested (m : List Nat) : List Nat → List ELOp → Prop where
  | nil : ∀ L, Nested m L []
  | wrap : ∀ (l1 l2 : List Nat) (x : Nat) (inner rest : List ELOp),
      Nested m (l1 ++ l2) inner →
      Nested m (l1 ++ m.getD x 0 :: l2) rest →
      Nested m (l1 ++ m.getD x 0 :: l2) (ELOp.rm x :: (inner ++ ELOp.rs x :: rest))

lemma nested_exec_id (m L : List Nat) (ops : List ELOp) (hn : Nested m L ops) :
    ∀ el : EmptiesList, el.x_to_node = m → el.WF L → execOps ops el = el := by
  induction hn with
  | nil L =>
    intro el _ _
    rfl
  | wrap l1 l2 x inner rest hinner hrest ih_inner ih_rest =>
    intro el hm hwf
    have hix : el.x_to_node.getD x 0 = m.getD x 0 := by rw [hm]
    have e1 : execOp el (ELOp.rm x) = el.remove (m.getD x 0) := by
      show el.remove_by_x x = _
      unfold EmptiesList.remove_by_x
      rw [hix]
    have hwf' : (el.remove (m.getD x 0)).WF (l1 ++ l2) :=
      WF_remove el l1 (m.getD x 0) l2 hwf
    have hm' : (el.remove (m.getD x 0)).x_to_node = m := by
      rw [remove_x_to_node, hm]
    have hinner_id : execOps inner (el.remove (m.getD x 0)) = el.remove (m.getD x 0) :=
      ih_inner _ hm' hwf'
    obtain ⟨hp, hn', hip, hin, hlink1, hlink2⟩ :=
      WF_split_facts el l1 (m.getD x 0) l2 hwf
    have e2 : execOp (el.remove (m.getD x 0)) (ELOp.rs x) = el := by
      show (el.remove (m.getD x 0)).restore_by_x x = _
      unfold EmptiesList.restore_by_x
      rw [remove_x_to_node, hix]
      exact remove_restore_id el (m.getD x 0) hp hn' hip hin hlink1 hlink2
    calc execOps (ELOp.rm x :: (inner ++ ELOp.rs x :: rest)) el
        = execOps (inner ++ ELOp.rs x :: rest) (el.remove (m.getD x 0)) := by
          show execOps (inner ++ ELOp.rs x :: rest) (execOp el (ELOp.rm x)) = _
          rw [e1]
      _ = execOps (ELOp.rs x :: rest) (execOps inner (el.remove (m.getD x 0))) :=
          execOps_append inner (ELOp.rs x :: rest) (el.remove (m.getD x 0))
      _ = execOps rest (execOp (el.remove (m.getD x 0)) (ELOp.rs x)) := by
          rw [hinner_id]
          exact rfl
      _ = execOps rest el := by rw [e2]
      _ = el := ih_rest el hm hwf

/-- **C10**: for every well-formed `EmptiesList` and every properly nested
(LIFO) sequence of `remove_by_x` / `restore_by_x` operations on squares
active in the list, running the sequence returns the list exactly to its
original state, and in particular its iteration order is unchanged. -/
theorem empties_list_lifo_restore (el : EmptiesList) (L : List Nat)
    (ops : List ELOp) (hwf : el.WF L) (hn : Nested el.x_to_node L ops) :
    execOps ops el = el ∧ (execOps ops el).iter = el.iter := by
  have h := nested_exec_id el.x_to_node L ops hn el rfl hwf
  exact ⟨h, by rw [h]⟩

/-- A concrete three-node empties list: sentinel, square 11 at arena index 1,
square 22 at arena index 2, chain 0 → 1 → 2 → 0. -/
def c10el : EmptiesList :=
  ⟨[⟨⟨0, 0, 0⟩, 1, 2⟩, ⟨⟨2048, 11, 1⟩, 2, 0⟩, ⟨⟨4194304, 22, 1⟩, 0, 1⟩],
    ((List.replicate 64 0).set 11 1).set 22 2⟩

theorem empties_list_lifo_restore_witness :
    c10el.WF [1, 2] ∧
      execOps [ELOp.rm 11, ELOp.rs 11] c10el = c10el ∧
      (execOps [ELOp.rm 11, ELOp.rs 11] c10el).iter = c10el.iter := by
  have hwf : c10el.WF [1, 2] := by
    unfold EmptiesList.WF
    decide
  have hL : ([1, 2] : List Nat) = [] ++ c10el.x_to_node.getD 11 0 :: [2] := by decide
  have hops : [ELOp.rm 11, ELOp.rs 11] =
      ELOp.rm 11 :: (([] : List ELOp) ++ ELOp.rs 11 :: []) := rfl
  have hnested : Nested c10el.x_to_node [1, 2] [ELOp.rm 11, ELOp.rs 11] := by
    rw [hL, hops]
    exact Nested.wrap [] [2] 11 [] []
      (Nested.nil ([] ++ [2]))
      (hL ▸ Nested.nil ([] ++ c10el.x_to_node.getD 11 0 :: [2]))
  have h := empties_list_lifo_restore c10el [1, 2] [ELOp.rm 11, ELOp.rs 11] hwf hnested
  exact ⟨hwf, h.1, h.2⟩



/-! ### Midgame search state (`src/bot/edax/search_state.rs`, `eval.rs`,
`move.rs`, `const.rs`, `square.rs`) -/

/-- `QUADRANT_ID` from `src/bot/edax/square.rs`. -/
def QUADRANT_ID : List Nat :=
  [1, 1, 1, 1, 2, 2, 2, 2,
   1, 1, 1, 1, 2, 2, 2, 2,
   1, 1, 1, 1, 2, 2, 2, 2,
   1, 1, 1, 1, 2, 2, 2, 2,
   4, 4, 4, 4, 8, 8, 8, 8,
   4, 4, 4, 4, 8, 8, 8, 8,
   4, 4, 4, 4, 8, 8, 8, 8,
   4, 4, 4, 4, 8, 8, 8, 8,
   0, 0]

/-- `NodeType` from `src/bot/edax/const.rs`; the `#[default]` variant is
`PvNode`. -/
inductive NodeType where
  | PvNode
  | CutNode
  | AllNode
  deriving DecidableEq, Repr

/-- The `#[repr(u8)]` discriminant of a `NodeType`. -/
def NodeType.toNat : NodeType → Nat
  | NodeType.PvNode => 0
  | NodeType.CutNode => 1
  | NodeType.AllNode => 2

/-- The `NEXT_NODE_TYPE` table local to `update_midgame`, indexed by the
discriminant of the parent node type. -/
def NEXT_NODE_TYPE : List NodeType :=
  [NodeType.CutNode, NodeType.AllNode, NodeType.CutNode]

/-- `Move` from `src/bot/edax/move.rs` (`Cell` wrappers hold plain values). -/
structure Move where
  flipped : Nat
  x : Int
  score : Int
  cost : Nat
  deriving DecidableEq, Repr

/-- `MoveList` from `src/collections/move_list.rs`. -/
structure MoveList where
  moves : List Move
  deriving DecidableEq, Repr

/-- `Bound` from `src/bot/edax/search.rs`. -/
structure Bound where
  upper : Int
  lower : Int
  deriving DecidableEq, Repr

/-- `EVAL_F2X` from `src/bot/edax/eval.rs`: the squares of each of the 47
pattern features, in table order (square constants from
`src/othello/squares.rs` resolved to indices `col + 8*row`). -/
def EVAL_F2X : List (List Nat) := [
  [0, 1, 8, 9, 2, 16, 10, 17, 18],
  [7, 6, 15, 14, 5, 23, 13, 22, 21],
  [56, 48, 57, 49, 40, 58, 41, 50, 42],
  [63, 55, 62, 54, 47, 61, 46, 53, 45],
  [32, 24, 16, 8, 0, 9, 1, 2, 3, 4],
  [39, 31, 23, 15, 7, 14, 6, 5, 4, 3],
  [24, 32, 40, 48, 56, 49, 57, 58, 59, 60],
  [31, 39, 47, 55, 63, 54, 62, 61, 60, 59],
  [9, 0, 1, 2, 3, 4, 5, 6, 7, 14],
  [49, 56, 57, 58, 59, 60, 61, 62, 63, 54],
  [9, 0, 8, 16, 24, 32, 40, 48, 56, 49],
  [14, 7, 15, 23, 31, 39, 47, 55, 63, 54],
  [0, 2, 3, 10, 11, 12, 13, 4, 5, 7],
  [56, 58, 59, 50, 51, 52, 53, 60, 61, 63],
  [0, 16, 24, 17, 25, 33, 41, 32, 40, 56],
  [7, 23, 31, 22, 30, 38, 46, 39, 47, 63],
  [8, 9, 10, 11, 12, 13, 14, 15],
  [48, 49, 50, 51, 52, 53, 54, 55],
  [1, 9, 17, 25, 33, 41, 49, 57],
  [6, 14, 22, 30, 38, 46, 54, 62],
  [16, 17, 18, 19, 20, 21, 22, 23],
  [40, 41, 42, 43, 44, 45, 46, 47],
  [2, 10, 18, 26, 34, 42, 50, 58],
  [5, 13, 21, 29, 37, 45, 53, 61],
  [24, 25, 26, 27, 28, 29, 30, 31],
  [32, 33, 34, 35, 36, 37, 38, 39],
  [3, 11, 19, 27, 35, 43, 51, 59],
  [4, 12, 20, 28, 36, 44, 52, 60],
  [0, 9, 18, 27, 36, 45, 54, 63],
  [56, 49, 42, 35, 28, 21, 14, 7],
  [1, 10, 19, 28, 37, 46, 55],
  [15, 22, 29, 36, 43, 50, 57],
  [8, 17, 26, 35, 44, 53, 62],
  [6, 13, 20, 27, 34, 41, 48],
  [2, 11, 20, 29, 38, 47],
  [16, 25, 34, 43, 52, 61],
  [5, 12, 19, 26, 33, 40],
  [23, 30, 37, 44, 51, 58],
  [3, 12, 21, 30, 39],
  [24, 33, 42, 51, 60],
  [4, 11, 18, 25, 32],
  [31, 38, 45, 52, 59],
  [3, 10, 17, 24],
  [32, 41, 50, 59],
  [4, 13, 22, 31],
  [39, 46, 53, 60],
  []]

/-- `EVAL_X2F` from `src/bot/edax/eval.rs`: for each square (and 64 =
pass), the `(feature index, base-3 digit value)` pairs it contributes to. -/
def EVAL_X2F : List (List (Nat × Int)) := [
  [(0, 6561), (4, 243), (8, 6561), (10, 6561), (12, 19683), (14, 19683), (28, 2187)],
  [(0, 2187), (4, 27), (8, 2187), (18, 2187), (30, 729)],
  [(0, 81), (4, 9), (8, 729), (12, 6561), (22, 2187), (34, 243)],
  [(4, 3), (5, 1), (8, 243), (12, 2187), (26, 2187), (38, 81), (42, 27)],
  [(4, 1), (5, 3), (8, 81), (12, 9), (27, 2187), (40, 81), (44, 27)],
  [(1, 81), (5, 9), (8, 27), (12, 3), (23, 2187), (36, 243)],
  [(1, 2187), (5, 27), (8, 9), (19, 2187), (33, 729)],
  [(1, 6561), (5, 243), (8, 3), (11, 6561), (12, 1), (15, 19683), (29, 1)],
  [(0, 729), (4, 729), (10, 2187), (16, 2187), (32, 729)],
  [(0, 243), (4, 81), (8, 19683), (10, 19683), (16, 729), (18, 729), (28, 729)],
  [(0, 9), (12, 729), (16, 243), (22, 729), (30, 243), (42, 9)],
  [(12, 243), (16, 81), (26, 729), (34, 81), (40, 27)],
  [(12, 81), (16, 27), (27, 729), (36, 81), (38, 27)],
  [(1, 9), (12, 27), (16, 9), (23, 729), (33, 243), (44, 9)],
  [(1, 243), (5, 81), (8, 1), (11, 19683), (16, 3), (19, 729), (29, 3)],
  [(1, 729), (5, 729), (11, 2187), (16, 1), (31, 729)],
  [(0, 27), (4, 2187), (10, 729), (14, 6561), (20, 2187), (35, 243)],
  [(0, 3), (14, 729), (18, 243), (20, 729), (32, 243), (42, 3)],
  [(0, 1), (20, 243), (22, 243), (28, 243), (40, 9)],
  [(20, 81), (26, 243), (30, 81), (36, 27)],
  [(20, 27), (27, 243), (33, 81), (34, 27)],
  [(1, 1), (20, 9), (23, 243), (29, 9), (38, 9)],
  [(1, 3), (15, 729), (19, 243), (20, 3), (31, 243), (44, 3)],
  [(1, 27), (5, 2187), (11, 729), (15, 6561), (20, 1), (37, 243)],
  [(4, 6561), (6, 19683), (10, 243), (14, 2187), (24, 2187), (39, 81), (42, 1)],
  [(14, 243), (18, 81), (24, 729), (35, 81), (40, 3)],
  [(22, 81), (24, 243), (32, 81), (36, 9)],
  [(24, 81), (26, 81), (28, 81), (33, 27)],
  [(24, 27), (27, 81), (29, 27), (30, 27)],
  [(23, 81), (24, 9), (31, 81), (34, 9)],
  [(15, 243), (19, 81), (24, 3), (37, 81), (38, 3)],
  [(5, 6561), (7, 19683), (11, 243), (15, 2187), (24, 1), (41, 81), (44, 1)],
  [(4, 19683), (6, 6561), (10, 81), (14, 9), (25, 2187), (40, 1), (43, 27)],
  [(14, 81), (18, 27), (25, 729), (36, 3), (39, 27)],
  [(22, 27), (25, 243), (33, 9), (35, 27)],
  [(25, 81), (26, 27), (29, 81), (32, 27)],
  [(25, 27), (27, 27), (28, 27), (31, 27)],
  [(23, 27), (25, 9), (30, 9), (37, 27)],
  [(15, 81), (19, 27), (25, 3), (34, 3), (41, 27)],
  [(5, 19683), (7, 6561), (11, 81), (15, 9), (25, 1), (38, 1), (45, 27)],
  [(2, 81), (6, 2187), (10, 27), (14, 3), (21, 2187), (36, 1)],
  [(2, 9), (14, 27), (18, 9), (21, 729), (33, 3), (43, 9)],
  [(2, 1), (21, 243), (22, 9), (29, 243), (39, 9)],
  [(21, 81), (26, 9), (31, 9), (35, 9)],
  [(21, 27), (27, 9), (32, 9), (37, 9)],
  [(3, 1), (21, 9), (23, 9), (28, 9), (41, 9)],
  [(3, 9), (15, 27), (19, 9), (21, 3), (30, 3), (45, 9)],
  [(3, 81), (7, 2187), (11, 27), (15, 3), (21, 1), (34, 1)],
  [(2, 2187), (6, 729), (10, 9), (17, 2187), (33, 1)],
  [(2, 243), (6, 81), (9, 19683), (10, 1), (17, 729), (18, 3), (29, 729)],
  [(2, 3), (13, 729), (17, 243), (22, 3), (31, 3), (43, 3)],
  [(13, 243), (17, 81), (26, 3), (37, 3), (39, 3)],
  [(13, 81), (17, 27), (27, 3), (35, 3), (41, 3)],
  [(3, 3), (13, 27), (17, 9), (23, 3), (32, 3), (45, 3)],
  [(3, 243), (7, 81), (9, 1), (11, 1), (17, 3), (19, 3), (28, 3)],
  [(3, 2187), (7, 729), (11, 9), (17, 1), (30, 1)],
  [(2, 6561), (6, 243), (9, 6561), (10, 3), (13, 19683), (14, 1), (29, 2187)],
  [(2, 729), (6, 27), (9, 2187), (18, 1), (31, 1)],
  [(2, 27), (6, 9), (9, 729), (13, 6561), (22, 1), (37, 1)],
  [(6, 3), (7, 1), (9, 243), (13, 2187), (26, 1), (41, 1), (43, 1)],
  [(6, 1), (7, 3), (9, 81), (13, 9), (27, 1), (39, 1), (45, 1)],
  [(3, 27), (7, 9), (9, 27), (13, 3), (23, 1), (35, 1)],
  [(3, 729), (7, 27), (9, 9), (19, 1), (32, 1)],
  [(3, 6561), (7, 243), (9, 3), (11, 3), (13, 1), (15, 1), (28, 1)],
  [(0, 0)]]

/-- `EVAL_OFFSET` from `src/bot/edax/eval.rs`. -/
def EVAL_OFFSET : List Int := [
  0, 0, 0, 0, 19683, 19683, 19683, 19683, 78732, 78732,
  78732, 78732, 137781, 137781, 137781, 137781, 196830, 196830, 196830, 196830,
  203391, 203391, 203391, 203391, 209952, 209952, 209952, 209952, 216513, 216513,
  223074, 223074, 223074, 223074, 225261, 225261, 225261, 225261, 225990, 225990,
  225990, 225990, 226233, 226233, 226233, 226233, 226314]

/-- `Position::get_square_color`: 0 for a player disc, 1 for an opponent
disc, 2 for an empty square (the source computes
`2 - 2*((player >> i) & 1) - ((opponent >> i) & 1)`; for the disjoint
boards it is used on this never underflows). -/
def get_square_color (p : Position) (index : Nat) : Nat :=
  2 - 2 * ((p.player >>> index) &&& 1) - ((p.opponent >>> index) &&& 1)

/-- `Eval` from `src/bot/edax/eval.rs`: the 47 pattern features, the side to
evaluate from (0 player / 1 opponent) and `60 - #empties`. -/
structure Eval where
  features : List Int
  player : Nat
  empty_index : Nat
  deriving DecidableEq, Repr

/-- The fresh value of feature `i` for a position: the base-3 Horner value of
its squares' colors plus the feature's offset (the inner loop of
`Eval::new`). -/
def featureVal (p : Position) (i : Nat) : Int :=
  (EVAL_F2X.getD i []).foldl
    (fun acc x => acc * 3 + (get_square_color p x : Int)) 0 + EVAL_OFFSET.getD i 0

/-- `Eval::new`. -/
def Eval.new (p : Position) : Eval :=
  { features := (List.range 47).map (featureVal p),
    player := 0,
    empty_index := 60 - p.count_empty }

/-- The ascending list of set-bit positions of a 64-bit word: the order in
which the `trailing_zeros` / clear-lowest-bit loop of `update_features`
visits the flipped squares. -/
def bitIndices (f : Nat) : List Nat :=
  (List.range 64).filter (fun i => f.testBit i)

/-- Apply a list of indexed additions to a feature array, left to right
(each `features[i] += d` of the source). -/
def applyAdds : List Int → List (Nat × Int) → List Int
  | fs, [] => fs
  | fs, q :: rest => applyAdds (fs.set q.1 (fs.getD q.1 0 + q.2)) rest

/-- The additions performed by `Eval::update_features::<M, F>`: the move
square's feature entries scaled by `M`, then for each flipped square in
ascending bit order its entries scaled by `F`. -/
def addsFor (M F : Int) (move_pos : Nat) (flipped : Nat) : List (Nat × Int) :=
  ((EVAL_X2F.getD move_pos []).map (fun q => (q.1, M * q.2))) ++
    ((bitIndices flipped).map
      (fun pos => (EVAL_X2F.getD pos []).map (fun q => (q.1, F * q.2)))).flatten

/-- `Eval::update_features::<M, F>`. -/
def Eval.update_features (M F : Int) (e : Eval) (move_pos : Nat) (flipped : Nat) : Eval :=
  { e with features := applyAdds e.features (addsFor M F move_pos flipped) }

/-- `Eval::swap`. -/
def Eval.swap (e : Eval) : Eval := { e with player := 1 - e.player }

/-- `Eval::do_move`: dispatch on the current side, bump `empty_index`, swap
sides. -/
def Eval.do_move (e : Eval) (index : Nat) (flipped : Nat) : Eval :=
  let e1 := if e.player = 0 then Eval.update_features (-2) (-1) e index flipped
            else Eval.update_features (-1) 1 e index flipped
  { e1 with empty_index := e1.empty_index + 1, player := 1 - e1.player }

/-- `Eval::undo_move`: swap sides back, dispatch on the restored side, lower
`empty_index`. -/
def Eval.undo_move (e : Eval) (index : Nat) (flipped : Nat) : Eval :=
  let e1 := Eval.swap e
  let e2 := if e1.player = 0 then Eval.update_features 2 1 e1 index flipped
            else Eval.update_features 1 (-1) e1 index flipped
  { e2 with empty_index := e2.empty_index - 1 }

/-- `Eval::pass`. -/
def Eval.pass (e : Eval) : Eval := Eval.swap e

/-- `SearchState` from `src/bot/edax/search_state.rs`. -/
structure SearchState where
  position : Position
  n_empties : Int
  empties : EmptiesList
  move_list : MoveList
  parity : Nat
  eval : Eval
  height : Int
  node_type : List NodeType
  depth_pv_extension : Int
  stability_bound : Bound
  probcut_level : Int
  deriving DecidableEq, Repr

/-- `SearchState::update_midgame`: xor parity with the move's quadrant,
unlink the move square from the empties list, play the move on the position
and the evaluator, decrement `n_empties`, increment `height`, and write the
next node type at the new height (the source performs these independent
field assignments in sequence). -/
def SearchState.update_midgame (s : SearchState) (m : Move) : SearchState :=
  { s with
    parity := s.parity ^^^ QUADRANT_ID.getD m.x.toNat 0,
    empties := s.empties.remove_by_x m.x.toNat,
    position := (s.position.do_move m.x.toNat).1,
    eval := s.eval.do_move m.x.toNat m.flipped,
    n_empties := s.n_empties - 1,
    height := s.height + 1,
    node_type := s.node_type.set (s.height + 1).toNat
      (NEXT_NODE_TYPE.getD
        (s.node_type.getD (s.height + 1 - 1).toNat NodeType.PvNode).toNat
        NodeType.PvNode) }

/-- `SearchState::restore_midgame`: xor parity again, relink the move square,
undo the move on the position and the evaluator, increment `n_empties`,
decrement `height` (the source performs these independent field assignments
in sequence; `node_type` is not touched). -/
def SearchState.restore_midgame (s : SearchState) (m : Move) : SearchState :=
  { s with
    parity := s.parity ^^^ QUADRANT_ID.getD m.x.toNat 0,
    empties := s.empties.restore_by_x m.x.toNat,
    position := s.position.undo_move m.x.toNat m.flipped,
    eval := s.eval.undo_move m.x.toNat m.flipped,
    n_empties := s.n_empties + 1,
    height := s.height - 1 }

/-- The quadrant parity of the empty squares of a position (xor of
`QUADRANT_ID` over all empty squares). -/
def parityOf (p : Position) : Nat :=
  ((List.range 64).filter
    (fun x => ((p.player ||| p.opponent).testBit x) = false)).foldl
    (fun a x => a ^^^ QUADRANT_ID.getD x 0) 0

/-- The documented invariants of `SearchState`: `n_empties` is the number of
empty squares, `parity` is the xor of the quadrant ids of the empty squares,
and the empties list holds exactly the empty squares. -/
def SearchState.Invariant (s : SearchState) : Prop :=
  s.n_empties = (s.position.count_empty : Int) ∧
  s.parity = parityOf s.position ∧
  (∀ x, x < 64 →
    ((x ∈ s.empties.iter.map ELSquare.x) ↔
      (s.position.player ||| s.position.opponent).testBit x = false)) ∧
  (∀ sq ∈ s.empties.iter, sq.x < 64)


lemma applyAdds_length : ∀ (l : List (Nat × Int)) (fs : List Int),
    (applyAdds fs l).length = fs.length := by
  intro l
  induction l with
  | nil => intro fs; rfl
  | cons q rest ih =>
    intro fs
    show (applyAdds (fs.set q.1 (fs.getD q.1 0 + q.2)) rest).length = _
    rw [ih, List.length_set]

/-- The sum of the deltas a list of indexed additions contributes to a given
index. -/
def sumAt (j : Nat) : List (Nat × Int) → Int
  | [] => 0
  | q :: rest => (if q.1 = j then q.2 else 0) + sumAt j rest

lemma applyAdds_getD : ∀ (l : List (Nat × Int)) (fs : List Int),
    (∀ q ∈ l, q.1 < fs.length) →
    ∀ j, (applyAdds fs l).getD j 0 = fs.getD j 0 + sumAt j l := by
  intro l
  induction l with
  | nil =>
    intro fs _ j
    show fs.getD j 0 = fs.getD j 0 + 0
    rw [add_zero]
  | cons q rest ih =>
    intro fs hb j
    show (applyAdds (fs.set q.1 (fs.getD q.1 0 + q.2)) rest).getD j 0 = _
    rw [ih _ ?_ j]
    · by_cases hqj : q.1 = j
      · rw [hqj, getD_set_self _ _ _ _ (by rw [← hqj]; exact hb q (by simp))]
        show fs.getD j 0 + q.2 + sumAt j rest =
          fs.getD j 0 + ((if q.1 = j then q.2 else 0) + sumAt j rest)
        rw [if_pos hqj]
        ring
      · rw [getD_set_ne _ _ _ _ _ (fun hh => hqj hh.symm)]
        show fs.getD j 0 + sumAt j rest =
          fs.getD j 0 + ((if q.1 = j then q.2 else 0) + sumAt j rest)
        rw [if_neg hqj]
        ring
    · intro q' hq'
      rw [List.length_set]
      exact hb q' (by simp [hq'])

lemma sumAt_map_neg (j : Nat) : ∀ (l : List (Nat × Int)),
    sumAt j (l.map (fun q => (q.1, -q.2))) = - sumAt j l := by
  intro l
  induction l with
  | nil => rfl
  | cons q rest ih =>
    show (if q.1 = j then -q.2 else 0) + sumAt j (rest.map _) =
      -((if q.1 = j then q.2 else 0) + sumAt j rest)
    rw [ih]
    by_cases hqj : q.1 = j
    · rw [if_pos hqj, if_pos hqj]
      ring
    · rw [if_neg hqj, if_neg hqj]
      ring

lemma addsFor_neg (M F : Int) (m f : Nat) :
    addsFor (-M) (-F) m f = (addsFor M F m f).map (fun q => (q.1, -q.2)) := by
  unfold addsFor
  rw [List.map_append, List.map_flatten, List.map_map, List.map_map]
  congr 1
  · apply List.map_congr_left
    intro q _
    show ((q.1, -M * q.2) : Nat × Int) = (q.1, -(M * q.2))
    rw [neg_mul]
  · congr 1
    apply List.map_congr_left
    intro pos _
    show List.map (fun q => (q.1, -F * q.2)) (EVAL_X2F.getD pos []) =
      List.map (fun q => (q.1, -q.2))
        (List.map (fun q => (q.1, F * q.2)) (EVAL_X2F.getD pos []))
    rw [List.map_map]
    apply List.map_congr_left
    intro q _
    show ((q.1, -F * q.2) : Nat × Int) = (q.1, -(F * q.2))
    rw [neg_mul]

lemma X2F_entry_bound : ∀ l ∈ EVAL_X2F, ∀ q ∈ l, q.1 < 47 := by decide

lemma X2F_getD_bound (k : Nat) : ∀ q ∈ EVAL_X2F.getD k [], q.1 < 47 := by
  by_cases hk : k < EVAL_X2F.length
  · intro q hq
    rw [List.getD_eq_getElem _ _ hk] at hq
    exact X2F_entry_bound _ (List.getElem_mem hk) q hq
  · intro q hq
    rw [List.getD_eq_default _ _ (by omega)] at hq
    simp at hq

lemma addsFor_bound (M F : Int) (m f : Nat) :
    ∀ q ∈ addsFor M F m f, q.1 < 47 := by
  intro q hq
  unfold addsFor at hq
  rcases List.mem_append.mp hq with h | h
  · obtain ⟨q0, hq0, rfl⟩ := List.mem_map.mp h
    exact X2F_getD_bound m q0 hq0
  · obtain ⟨l0, hl0, hq0⟩ := List.mem_flatten.mp h
    obtain ⟨pos, _, rfl⟩ := List.mem_map.mp hl0
    obtain ⟨q0, hq0', rfl⟩ := List.mem_map.mp hq0
    exact X2F_getD_bound pos q0 hq0'

lemma applyAdds_cancel_map_neg (A : List (Nat × Int)) (fs : List Int)
    (hb : ∀ q ∈ A, q.1 < fs.length) :
    applyAdds (applyAdds fs A) (A.map (fun q => (q.1, -q.2))) = fs := by
  have hb' : ∀ q ∈ A.map (fun q => (q.1, -q.2)), q.1 < (applyAdds fs A).length := by
    intro q hq
    obtain ⟨q0, hq0, rfl⟩ := List.mem_map.mp hq
    rw [applyAdds_length]
    exact hb q0 hq0
  refine list_ext_getD 0 _ _ (by rw [applyAdds_length, applyAdds_length]) ?_
  intro j _
  rw [applyAdds_getD _ _ hb' j, applyAdds_getD _ _ hb j, sumAt_map_neg]
  ring

/-- Undoing a move on the evaluator exactly cancels doing it. -/
lemma eval_undo_do (e : Eval) (x f : Nat)
    (hp : e.player = 0 ∨ e.player = 1) (hlen : e.features.length = 47) :
    (e.do_move x f).undo_move x f = e := by
  obtain ⟨fs, pl, ei⟩ := e
  have hb : ∀ (M F : Int), ∀ q ∈ addsFor M F x f, q.1 < fs.length := by
    intro M F q hq
    rw [hlen]
    exact addsFor_bound M F x f q hq
  rcases hp with hpl | hpl
  · subst hpl
    show Eval.undo_move
        ⟨applyAdds fs (addsFor (-2) (-1) x f), 1 - 0, ei + 1⟩ x f = ⟨fs, 0, ei⟩
    show (⟨applyAdds (applyAdds fs (addsFor (-2) (-1) x f)) (addsFor 2 1 x f),
        1 - (1 - 0), ei + 1 - 1⟩ : Eval) = ⟨fs, 0, ei⟩
    have hA : addsFor 2 1 x f =
        (addsFor (-2) (-1) x f).map (fun q => (q.1, -q.2)) := by
      have h := addsFor_neg (-2) (-1) x f
      norm_num at h
      exact h
    rw [hA, applyAdds_cancel_map_neg _ _ (hb (-2) (-1))]
    exact rfl
  · subst hpl
    show Eval.undo_move
        ⟨applyAdds fs (addsFor (-1) 1 x f), 1 - 1, ei + 1⟩ x f = ⟨fs, 1, ei⟩
    show (⟨applyAdds (applyAdds fs (addsFor (-1) 1 x f)) (addsFor 1 (-1) x f),
        1 - (1 - 1), ei + 1 - 1⟩ : Eval) = ⟨fs, 1, ei⟩
    have hA : addsFor 1 (-1) x f =
        (addsFor (-1) 1 x f).map (fun q => (q.1, -q.2)) := by
      have h := addsFor_neg (-1) 1 x f
      norm_num at h
      exact h
    rw [hA, applyAdds_cancel_map_neg _ _ (hb (-1) 1)]
    exact rfl


/-- **C2** (amended): for a search state with a well-formed empties list, a
legal move whose `flipped` matches the position, and a consistent evaluator,
`update_midgame(m)` followed by `restore_midgame(m)` restores every field
except `node_type`, which keeps the next-node-type value written at
`height + 1`; consequently the documented invariants (on `n_empties`,
`parity` and the empties list) are preserved by the pair. The original
claim's full state equality fails on `node_type`. -/
theorem update_restore_midgame (s : SearchState) (m : Move) (L : List Nat)
    (hr : s.position.InRange) (hd : s.position.Disjoint)
    (hm : (s.position.get_moves').testBit m.x.toNat = true)
    (hflip : m.flipped = (s.position.do_move m.x.toNat).2)
    (hwf : s.empties.WF L)
    (hmem : s.empties.x_to_node.getD m.x.toNat 0 ∈ L)
    (hpl : s.eval.player = 0 ∨ s.eval.player = 1)
    (hfl : s.eval.features.length = 47) :
    (s.update_midgame m).restore_midgame m =
      { s with
        node_type := s.node_type.set (s.height + 1).toNat
                       (NEXT_NODE_TYPE.getD
                         (s.node_type.getD s.height.toNat NodeType.PvNode).toNat
                         NodeType.PvNode) } ∧
    (s.Invariant → ((s.update_midgame m).restore_midgame m).Invariant) := by
  obtain ⟨pos, ne, emp, ml, par, ev, h, nt, dpe, sb, plv⟩ := s
  have heq : (SearchState.update_midgame ⟨pos, ne, emp, ml, par, ev, h, nt, dpe, sb, plv⟩
        m).restore_midgame m =
      ⟨pos, ne, emp, ml, par, ev, h,
        nt.set (h + 1).toNat
          (NEXT_NODE_TYPE.getD (nt.getD h.toNat NodeType.PvNode).toNat NodeType.PvNode),
        dpe, sb, plv⟩ := by
    simp only [SearchState.update_midgame, SearchState.restore_midgame,
      SearchState.mk.injEq]
    refine ⟨?_, ?_, ?_, ?_, ?_, ?_, ?_, ?_, ?_, ?_, ?_⟩
    · rw [hflip]
      exact do_undo_restores pos m.x.toNat hr hd hm
    · omega
    · obtain ⟨l1, l2, hL⟩ := List.append_of_mem hmem
      rw [hL] at hwf
      unfold EmptiesList.remove_by_x EmptiesList.restore_by_x
      rw [remove_x_to_node]
      obtain ⟨hp', hn', hip, hin, hl1, hl2⟩ := WF_split_facts emp l1 _ l2 hwf
      exact remove_restore_id emp _ hp' hn' hip hin hl1 hl2
    · trivial
    · exact Nat.xor_cancel_right _ par
    · exact eval_undo_do ev m.x.toNat m.flipped hpl hfl
    · omega
    · rw [Int.add_sub_cancel]
    · trivial
    · trivial
    · trivial
  refine ⟨heq, ?_⟩
  intro hInv
  rw [heq]
  exact hInv

/-- The position of the concrete `C2` state: only `G8` and `H8` are empty,
and `G8` (square 62) is a legal move for the player. -/
def c2pos : Position := ⟨0x01000000FFFFFFFF, 0x3EFFFFFF00000000⟩

/-- A concrete search state satisfying the documented invariants, at height
0 with an all-default `node_type` array. -/
def c2state : SearchState :=
  { position := c2pos,
    n_empties := 2,
    empties := ⟨[⟨⟨0, 0, 0⟩, 1, 2⟩,
                 ⟨⟨0x4000000000000000, 62, 8⟩, 2, 0⟩,
                 ⟨⟨0x8000000000000000, 63, 8⟩, 0, 1⟩],
                ((List.replicate 64 0).set 62 1).set 63 2⟩,
    move_list := ⟨[]⟩,
    parity := 0,
    eval := Eval.new c2pos,
    height := 0,
    node_type := List.replicate 80 NodeType.PvNode,
    depth_pv_extension := 0,
    stability_bound := ⟨64, -64⟩,
    probcut_level := 0 }

/-- The legal move `G8` of `c2pos` with its true flipped bitset. -/
def c2move : Move := ⟨0x3E60504800000000, 62, 0, 0⟩

theorem update_restore_midgame_counterexample :
    c2state.Invariant ∧ c2state.empties.WF [1, 2] ∧
      (c2state.position.get_moves').testBit c2move.x.toNat = true ∧
      c2move.flipped = (c2state.position.do_move c2move.x.toNat).2 ∧
      (c2state.update_midgame c2move).restore_midgame c2move ≠ c2state := by
  refine ⟨?_, ?_, ?_, ?_, ?_⟩
  · unfold SearchState.Invariant parityOf
    decide
  · unfold EmptiesList.WF
    decide
  · decide
  · decide
  · decide

theorem update_restore_midgame_witness :
    (c2state.update_midgame c2move).restore_midgame c2move =
      { c2state with
        node_type := c2state.node_type.set (c2state.height + 1).toNat
                       (NEXT_NODE_TYPE.getD
                         (c2state.node_type.getD c2state.height.toNat
                           NodeType.PvNode).toNat
                         NodeType.PvNode) } ∧
      (c2state.Invariant →
        ((c2state.update_midgame c2move).restore_midgame c2move).Invariant) :=
  update_restore_midgame c2state c2move [1, 2]
    (by unfold Position.InRange M64; exact ⟨by decide, by decide⟩)
    (by unfold Position.Disjoint; decide)
    (by decide)
    (by decide)
    (by unfold EmptiesList.WF; decide)
    (by decide)
    (Or.inl rfl)
    rfl


/-! ### Incremental evaluation (`src/bot/edax/eval.rs`) -/

lemma and1_eq_ite (n s : Nat) : (n >>> s) &&& 1 = if n.testBit s then 1 else 0 := by
  rw [Nat.and_one_is_mod, Nat.shiftRight_eq_div_pow, Nat.testBit_to_div_mod]
  rcases Nat.mod_two_eq_zero_or_one (n / 2 ^ s) with h | h <;> simp [h]

/-- `get_square_color` as a case split on the two bits. -/
lemma get_square_color_eq (p : Position) (s : Nat) :
    get_square_color p s =
      if p.player.testBit s then 0 else if p.opponent.testBit s then 1 else 2 := by
  unfold get_square_color
  rw [and1_eq_ite, and1_eq_ite]
  rcases hp1 : p.player.testBit s with _ | _ <;>
    rcases ho1 : p.opponent.testBit s with _ | _ <;> decide

/-- A legal move square is an empty in-range square. -/
lemma legal_move_facts (p : Position) (x : Nat)
    (hr : p.InRange) (hd : p.Disjoint)
    (hm : (p.get_moves').testBit x = true) :
    x < 64 ∧ p.player.testBit x = false ∧ p.opponent.testBit x = false := by
  obtain ⟨hp, ho⟩ := hr
  have hme : (not64 (p.player ||| p.opponent)).testBit x = true := by
    have h : p.get_moves' =
        (0 ||| movesDir p.player 1 (p.opponent &&& 0x7E7E7E7E7E7E7E7E)
           ||| movesDir p.player 7 (p.opponent &&& 0x7E7E7E7E7E7E7E7E)
           ||| movesDir p.player 9 (p.opponent &&& 0x7E7E7E7E7E7E7E7E)
           ||| movesDir p.player 8 p.opponent)
          &&& not64 (p.player ||| p.opponent) := rfl
    rw [h, Nat.testBit_and, Bool.and_eq_true] at hm
    exact hm.2
  rw [testBit_not64, Nat.testBit_or] at hme
  have hx64 : x < 64 := by
    by_contra hge
    have hge' : 64 ≤ x := by omega
    have h1 : p.player.testBit x = false := testBit_false_of_lt hp hge'
    have h2 : p.opponent.testBit x = false := testBit_false_of_lt ho hge'
    simp [h1, h2, hge] at hme
  refine ⟨hx64, ?_, ?_⟩
  · rcases hb : p.player.testBit x with _ | _
    · rfl
    · simp [hb, hx64] at hme
  · rcases hb : p.opponent.testBit x with _ | _
    · rfl
    · simp [hb, hx64] at hme

lemma disjoint_testBit (p : Position) (hd : p.Disjoint) (i : Nat)
    (hi : p.player.testBit i = true) : p.opponent.testBit i = false := by
  rcases hb : p.opponent.testBit i with _ | _
  · rfl
  · have h := Nat.testBit_and p.player p.opponent i
    rw [hd] at h
    simp [hi, hb] at h

lemma flips_testBit_move (p : Position) (x : Nat)
    (hxo : p.opponent.testBit x = false) :
    (p.get_flipped' x).testBit x = false := by
  rcases hb : (p.get_flipped' x).testBit x with _ | _
  · rfl
  · rw [get_flipped_simple_subset p.player p.opponent x x hb] at hxo
    exact absurd hxo (by simp)

lemma countP_testBit_xor_subset (a b : Nat)
    (hsub : ∀ i, b.testBit i = true → a.testBit i = true) (l : List Nat) :
    l.countP (fun i => (a ^^^ b).testBit i) + l.countP (fun i => b.testBit i) =
      l.countP (fun i => a.testBit i) := by
  induction l with
  | nil => rfl
  | cons c l ih =>
    simp only [List.countP_cons, Nat.testBit_xor] at ih ⊢
    rcases ha : a.testBit c with _ | _
    · rcases hb : b.testBit c with _ | _
      · simp [ha, hb]
        omega
      · exact absurd (hsub c hb) (by simp [ha])
    · rcases hb : b.testBit c with _ | _ <;> simp [ha, hb] <;> omega

lemma popcount64_xor_subset (a b : Nat)
    (hsub : ∀ i, b.testBit i = true → a.testBit i = true) :
    popcount64 (a ^^^ b) + popcount64 b = popcount64 a :=
  countP_testBit_xor_subset a b hsub _

lemma popcount64_one_shiftLeft (x : Nat) (hx : x < 64) :
    popcount64 (1 <<< x) = 1 := by
  unfold popcount64
  have h1 : (List.range 64).countP (fun i => (1 <<< x).testBit i) =
      (List.range 64).count x := by
    rw [List.count]
    apply List.countP_congr
    intro a _
    rw [testBit_one_shiftLeft]
    by_cases h : x = a
    · subst h
      simp
    · simp [h, Ne.symm h]
  rw [h1]
  rw [List.count_eq_one_of_mem (List.nodup_range 64)]
  simpa using hx

/-- Doing a legal move preserves range and disjointness and raises the disc
count by one; the flips are a sub-board of the opponent. -/
lemma do_move_preserves (p : Position) (x : Nat)
    (hr : p.InRange) (hd : p.Disjoint)
    (hm : (p.get_moves').testBit x = true) :
    (p.do_move x).1.InRange ∧ (p.do_move x).1.Disjoint ∧
      (p.do_move x).1.count_discs = p.count_discs + 1 := by
  obtain ⟨hx64, hxp, hxo⟩ := legal_move_facts p x hr hd hm
  obtain ⟨hp, ho⟩ := hr
  set f := p.get_flipped' x with hf
  have hfsub : ∀ i, f.testBit i = true → p.opponent.testBit i = true :=
    fun i hi => get_flipped_simple_subset p.player p.opponent x i hi
  have hfp : ∀ i, f.testBit i = true → p.player.testBit i = false := by
    intro i hi
    rcases hb : p.player.testBit i with _ | _
    · rfl
    · have h2 := hfsub i hi
      rw [disjoint_testBit p hd i hb] at h2
      exact absurd h2 (by simp)
  have hfx : f.testBit x = false := flips_testBit_move p x hxo
  have hfle : f < M64 := by
    have hfa : f &&& p.opponent = f := by
      apply Nat.eq_of_testBit_eq
      intro i
      rw [Nat.testBit_and]
      rcases hb : f.testBit i with _ | _
      · simp
      · simp [hfsub i hb]
    calc f = f &&& p.opponent := hfa.symm
      _ ≤ p.opponent := Nat.and_le_right
      _ < M64 := ho
  have hshow : (p.do_move x).1 =
      ⟨p.opponent ^^^ f, p.player ||| (f ||| 1 <<< x)⟩ := rfl
  rw [hshow]
  have hM : M64 = 2 ^ 64 := by unfold M64; norm_num
  refine ⟨⟨?_, ?_⟩, ?_, ?_⟩
  · show p.opponent ^^^ f < M64
    rw [hM]
    exact Nat.xor_lt_two_pow (hM ▸ ho) (hM ▸ hfle)
  · show p.player ||| (f ||| 1 <<< x) < M64
    rw [hM]
    refine Nat.or_lt_two_pow (hM ▸ hp) (Nat.or_lt_two_pow (hM ▸ hfle) ?_)
    rw [Nat.one_shiftLeft]
    exact Nat.pow_lt_pow_right (by norm_num) hx64
  · show (p.opponent ^^^ f) &&& (p.player ||| (f ||| 1 <<< x)) = 0
    apply Nat.eq_of_testBit_eq
    intro i
    simp only [Nat.testBit_and, Nat.testBit_or, Nat.testBit_xor,
      testBit_one_shiftLeft, Nat.zero_testBit]
    rcases hb : f.testBit i with _ | _
    · rcases hpb : p.player.testBit i with _ | _
      · by_cases hxi : x = i
        · subst hxi
          simp [hxo, hb]
        · simp [hxi, hb, disjoint_testBit p hd i, hpb]
      · simp [hb, disjoint_testBit p hd i hpb]
    · simp [hb, hfsub i hb]
  · show popcount64 (p.opponent ^^^ f) + popcount64 (p.player ||| (f ||| 1 <<< x)) =
      popcount64 p.player + popcount64 p.opponent + 1
    have h1 : popcount64 (p.opponent ^^^ f) + popcount64 f = popcount64 p.opponent :=
      popcount64_xor_subset p.opponent f hfsub
    have hd1 : f &&& 1 <<< x = 0 := by
      apply Nat.eq_of_testBit_eq
      intro i
      simp only [Nat.testBit_and, testBit_one_shiftLeft, Nat.zero_testBit]
      by_cases hxi : x = i
      · subst hxi
        simp [hfx]
      · simp [hxi]
    have hd2 : p.player &&& (f ||| 1 <<< x) = 0 := by
      apply Nat.eq_of_testBit_eq
      intro i
      simp only [Nat.testBit_and, Nat.testBit_or, testBit_one_shiftLeft,
        Nat.zero_testBit]
      rcases hpb : p.player.testBit i with _ | _
      · simp
      · have hfb : f.testBit i = false := by
          rcases hb : f.testBit i with _ | _
          · rfl
          · have h2 := hfsub i hb
            rw [disjoint_testBit p hd i hpb] at h2
            exact absurd h2 (by simp)
        by_cases hxi : x = i
        · subst hxi
          rw [hxp] at hpb
          exact absurd hpb (by simp)
        · simp [hfb, hxi]
    rw [popcount64_or_disjoint _ _ hd2, popcount64_or_disjoint _ _ hd1,
      popcount64_one_shiftLeft x hx64]
    omega


/-- Weighted base-3 square sum: the contribution of each square of a pattern
with its positional power of three. -/
def hornerSum (c : Nat → Int) : List Nat → Int
  | [] => 0
  | y :: S => c y * 3 ^ S.length + hornerSum c S

lemma foldl_horner (c : Nat → Int) : ∀ (S : List Nat) (a : Int),
    S.foldl (fun acc y => acc * 3 + c y) a = a * 3 ^ S.length + hornerSum c S := by
  intro S
  induction S with
  | nil =>
    intro a
    show a = a * 3 ^ 0 + 0
    ring
  | cons y S ih =>
    intro a
    show List.foldl _ (a * 3 + c y) S = a * 3 ^ (S.length + 1) + _
    rw [ih (a * 3 + c y)]
    show (a * 3 + c y) * 3 ^ S.length + hornerSum c S =
      a * 3 ^ (S.length + 1) + (c y * 3 ^ S.length + hornerSum c S)
    rw [pow_succ]
    ring

lemma hornerSum_congr (c c' : Nat → Int) : ∀ (S : List Nat),
    (∀ y ∈ S, c y = c' y) → hornerSum c S = hornerSum c' S := by
  intro S
  induction S with
  | nil => intro _; rfl
  | cons y S ih =>
    intro h
    show c y * 3 ^ S.length + hornerSum c S = c' y * 3 ^ S.length + hornerSum c' S
    rw [h y (by simp), ih (fun z hz => h z (by simp [hz]))]

lemma hornerSum_add (c d : Nat → Int) : ∀ (S : List Nat),
    hornerSum (fun y => c y + d y) S = hornerSum c S + hornerSum d S := by
  intro S
  induction S with
  | nil => rfl
  | cons y S ih =>
    show (c y + d y) * 3 ^ S.length + hornerSum _ S = _
    rw [ih]
    show (c y + d y) * 3 ^ S.length + (hornerSum c S + hornerSum d S) =
      c y * 3 ^ S.length + hornerSum c S + (d y * 3 ^ S.length + hornerSum d S)
    ring

lemma hornerSum_smul (K : Int) (c : Nat → Int) : ∀ (S : List Nat),
    hornerSum (fun y => K * c y) S = K * hornerSum c S := by
  intro S
  induction S with
  | nil =>
    show (0 : Int) = K * 0
    ring
  | cons y S ih =>
    show K * c y * 3 ^ S.length + hornerSum _ S = _
    rw [ih]
    show K * c y * 3 ^ S.length + K * hornerSum c S =
      K * (c y * 3 ^ S.length + hornerSum c S)
    ring

/-- The total positional weight of square `x` inside a pattern square list. -/
def coefOf : List Nat → Nat → Int
  | [], _ => 0
  | y :: S, x => (if y = x then (3 : Int) ^ S.length else 0) + coefOf S x

lemma hornerSum_indicator (x : Nat) : ∀ (S : List Nat),
    hornerSum (fun s => if s = x then (1 : Int) else 0) S = coefOf S x := by
  intro S
  induction S with
  | nil => rfl
  | cons y S ih =>
    show (if y = x then (1 : Int) else 0) * 3 ^ S.length + hornerSum _ S =
      (if y = x then (3 : Int) ^ S.length else 0) + coefOf S x
    rw [ih]
    by_cases h : y = x
    · rw [if_pos h, if_pos h, one_mul]
    · rw [if_neg h, if_neg h, zero_mul]

lemma sum_map_single (y : Nat) (c : Int) : ∀ (l : List Nat), l.Nodup →
    (l.map (fun b => if y = b then c else 0)).sum = if y ∈ l then c else 0 := by
  intro l
  induction l with
  | nil => intro _; simp
  | cons a l ih =>
    intro hnd
    rw [List.map_cons, List.sum_cons, ih (List.nodup_cons.mp hnd).2]
    by_cases hya : y = a
    · rw [if_pos hya, if_neg (by rw [hya]; exact (List.nodup_cons.mp hnd).1),
        if_pos (by simp [hya])]
      ring
    · rw [if_neg hya]
      by_cases hyl : y ∈ l
      · rw [if_pos hyl, if_pos (by simp [hyl])]
        ring
      · rw [if_neg hyl, if_neg (by simp [hya, hyl])]
        ring

lemma bitIndices_nodup (f : Nat) : (bitIndices f).Nodup :=
  (List.nodup_range 64).filter _

lemma mem_bitIndices (f y : Nat) :
    y ∈ bitIndices f ↔ (y < 64 ∧ f.testBit y = true) := by
  unfold bitIndices
  simp [List.mem_filter, List.mem_range, and_comm]

lemma hornerSum_testBit (f : Nat) : ∀ (S : List Nat), (∀ y ∈ S, y < 64) →
    hornerSum (fun s => if f.testBit s then (1 : Int) else 0) S =
      ((bitIndices f).map (fun b => coefOf S b)).sum := by
  intro S
  induction S with
  | nil =>
    intro _
    show (0 : Int) = ((bitIndices f).map (fun _ => (0 : Int))).sum
    simp
  | cons y S ih =>
    intro hS
    show (if f.testBit y then (1 : Int) else 0) * 3 ^ S.length + hornerSum _ S =
      ((bitIndices f).map
        (fun b => (if y = b then (3 : Int) ^ S.length else 0) + coefOf S b)).sum
    rw [List.sum_map_add, ih (fun z hz => hS z (by simp [hz])),
      sum_map_single y ((3 : Int) ^ S.length) (bitIndices f) (bitIndices_nodup f)]
    have hy64 : y < 64 := hS y (by simp)
    by_cases hb : f.testBit y
    · rw [if_pos hb, one_mul, if_pos ((mem_bitIndices f y).mpr ⟨hy64, hb⟩)]
    · rw [if_neg hb, zero_mul,
        if_neg (fun hmem => hb ((mem_bitIndices f y).mp hmem).2)]

lemma sumAt_append (j : Nat) : ∀ (l1 l2 : List (Nat × Int)),
    sumAt j (l1 ++ l2) = sumAt j l1 + sumAt j l2 := by
  intro l1 l2
  induction l1 with
  | nil =>
    show sumAt j l2 = 0 + sumAt j l2
    ring
  | cons q l ih =>
    show (if q.1 = j then q.2 else 0) + sumAt j (l ++ l2) = _
    rw [ih]
    show (if q.1 = j then q.2 else 0) + (sumAt j l + sumAt j l2) =
      (if q.1 = j then q.2 else 0) + sumAt j l + sumAt j l2
    ring

lemma sumAt_flatten (j : Nat) : ∀ (L : List (List (Nat × Int))),
    sumAt j L.flatten = (L.map (sumAt j)).sum := by
  intro L
  induction L with
  | nil => rfl
  | cons l L ih =>
    rw [List.flatten_cons, sumAt_append, ih, List.map_cons, List.sum_cons]

lemma sumAt_map_scale (j : Nat) (K : Int) : ∀ (l : List (Nat × Int)),
    sumAt j (l.map (fun q => (q.1, K * q.2))) = K * sumAt j l := by
  intro l
  induction l with
  | nil =>
    show (0 : Int) = K * 0
    ring
  | cons q l ih =>
    show (if q.1 = j then K * q.2 else 0) + sumAt j (l.map _) =
      K * ((if q.1 = j then q.2 else 0) + sumAt j l)
    rw [ih]
    by_cases h : q.1 = j
    · rw [if_pos h, if_pos h]
      ring
    · rw [if_neg h, if_neg h]
      ring

lemma sumAt_addsFor (i : Nat) (M F : Int) (x f : Nat) :
    sumAt i (addsFor M F x f) =
      M * sumAt i (EVAL_X2F.getD x []) +
        F * ((bitIndices f).map (fun b => sumAt i (EVAL_X2F.getD b []))).sum := by
  unfold addsFor
  rw [sumAt_append, sumAt_map_scale, sumAt_flatten, List.map_map]
  congr 1
  have h1 : ∀ b ∈ bitIndices f,
      (sumAt i ∘ fun pos => (EVAL_X2F.getD pos []).map (fun q => (q.1, F * q.2))) b =
        F * sumAt i (EVAL_X2F.getD b []) := by
    intro b _
    show sumAt i ((EVAL_X2F.getD b []).map (fun q => (q.1, F * q.2))) = _
    rw [sumAt_map_scale]
  rw [List.map_congr_left h1, List.sum_map_mul_left]

/-- Every pattern square in `EVAL_F2X` is an on-board square. -/
lemma F2X_sq_lt : ∀ l ∈ EVAL_F2X, ∀ y ∈ l, y < 64 := by decide

lemma F2X_getD_sq_lt (i : Nat) : ∀ y ∈ EVAL_F2X.getD i [], y < 64 := by
  by_cases hk : i < EVAL_F2X.length
  · intro y hy
    rw [List.getD_eq_getElem _ _ hk] at hy
    exact F2X_sq_lt _ (List.getElem_mem hk) y hy
  · intro y hy
    rw [List.getD_eq_default _ _ (by omega)] at hy
    simp at hy

/-- Consistency of the two feature tables: the positional weight of square
`x` in pattern `i` equals the `(i, value)` entry of `EVAL_X2F[x]`. -/
lemma tables_consistent : ∀ i, i < 47 → ∀ x, x < 64 →
    coefOf (EVAL_F2X.getD i []) x = sumAt i (EVAL_X2F.getD x []) := by decide


/-- Generic incremental-update correctness for one feature: if the colors of
the (orientation) board change by `M` at the move square and by `F` at each
flipped square, then the fresh feature value changes by exactly the additions
`update_features` performs. -/
lemma featureVal_delta (O O' : Position) (M F : Int) (x f : Nat) (i : Nat)
    (hi : i < 47) (hx : x < 64) (hfx : f.testBit x = false)
    (hd : ∀ s, s < 64 →
      (get_square_color O' s : Int) =
        (get_square_color O s : Int) +
          ((if s = x then M else 0) + (if f.testBit s then F else 0))) :
    featureVal O' i = featureVal O i + sumAt i (addsFor M F x f) := by
  unfold featureVal
  rw [foldl_horner (fun s => ((get_square_color O' s : Nat) : Int)) _ 0,
    foldl_horner (fun s => ((get_square_color O s : Nat) : Int)) _ 0]
  have hS : ∀ y ∈ EVAL_F2X.getD i [], y < 64 := F2X_getD_sq_lt i
  have hcongr : hornerSum (fun s => ((get_square_color O' s : Nat) : Int))
      (EVAL_F2X.getD i []) =
      hornerSum (fun s => ((get_square_color O s : Nat) : Int) +
        ((if s = x then M else 0) + (if f.testBit s then F else 0)))
        (EVAL_F2X.getD i []) :=
    hornerSum_congr _ _ _ (fun y hy => hd y (hS y hy))
  rw [hcongr, hornerSum_add, hornerSum_add]
  have hind : hornerSum (fun s => if s = x then M else 0) (EVAL_F2X.getD i []) =
      M * coefOf (EVAL_F2X.getD i []) x := by
    have h1 : hornerSum (fun s => if s = x then M else 0) (EVAL_F2X.getD i []) =
        hornerSum (fun s => M * (if s = x then (1 : Int) else 0))
          (EVAL_F2X.getD i []) := by
      refine hornerSum_congr _ _ _ ?_
      intro y _
      by_cases h : y = x
      · rw [if_pos h, if_pos h, mul_one]
      · rw [if_neg h, if_neg h, mul_zero]
    rw [h1, hornerSum_smul, hornerSum_indicator]
  have hbit : hornerSum (fun s => if f.testBit s then F else 0)
      (EVAL_F2X.getD i []) =
      F * ((bitIndices f).map (fun b => coefOf (EVAL_F2X.getD i []) b)).sum := by
    have h1 : hornerSum (fun s => if f.testBit s then F else 0)
        (EVAL_F2X.getD i []) =
        hornerSum (fun s => F * (if f.testBit s then (1 : Int) else 0))
          (EVAL_F2X.getD i []) := by
      refine hornerSum_congr _ _ _ ?_
      intro y _
      by_cases h : f.testBit y
      · rw [if_pos h, if_pos h, mul_one]
      · rw [if_neg h, if_neg h, mul_zero]
    rw [h1, hornerSum_smul, hornerSum_testBit f _ hS]
  rw [hind, hbit, sumAt_addsFor, tables_consistent i hi x hx]
  have hmap : ((bitIndices f).map
      (fun b => coefOf (EVAL_F2X.getD i []) b)).sum =
      ((bitIndices f).map (fun b => sumAt i (EVAL_X2F.getD b []))).sum := by
    congr 1
    refine List.map_congr_left ?_
    intro b hb
    exact tables_consistent i hi b ((mem_bitIndices f b).mp hb).1
  rw [hmap]
  ring

/-- Color change of the fixed eval orientation when the root player moves:
orientation before is `p`, after it is `(do_move p x).pass`. -/
lemma color_delta_player (p : Position) (x : Nat)
    (hr : p.InRange) (hd : p.Disjoint)
    (hm : (p.get_moves').testBit x = true) (s : Nat) (hs : s < 64) :
    (get_square_color ⟨p.player ||| (p.get_flipped' x ||| 1 <<< x),
        p.opponent ^^^ p.get_flipped' x⟩ s : Int) =
      (get_square_color p s : Int) +
        ((if s = x then (-2 : Int) else 0) +
          (if (p.get_flipped' x).testBit s then (-1 : Int) else 0)) := by
  obtain ⟨hx64, hxp, hxo⟩ := legal_move_facts p x hr hd hm
  set f := p.get_flipped' x with hf
  have hfsub : ∀ i, f.testBit i = true → p.opponent.testBit i = true :=
    fun i hi => get_flipped_simple_subset p.player p.opponent x i hi
  have hfx : f.testBit x = false := flips_testBit_move p x hxo
  rw [get_square_color_eq, get_square_color_eq]
  show (((if (p.player ||| (f ||| 1 <<< x)).testBit s then 0
      else if (p.opponent ^^^ f).testBit s then 1 else 2 : Nat) : Int)) = _
  simp only [Nat.testBit_or, Nat.testBit_xor, testBit_one_shiftLeft]
  by_cases hsx : s = x
  · subst hsx
    rw [hxp, hxo, hfx]
    simp
  · have hxs : (decide (x = s)) = false := by
      simp only [decide_eq_false_iff_not]
      intro h
      exact hsx h.symm
    rw [hxs]
    rcases hfb : f.testBit s with _ | _
    · rcases hpb : p.player.testBit s with _ | _ <;>
        rcases hob : p.opponent.testBit s with _ | _ <;>
        simp [hpb, hob, hfb, hsx]
    · have hob := hfsub s hfb
      have hpb : p.player.testBit s = false := by
        rcases hpb : p.player.testBit s with _ | _
        · rfl
        · rw [disjoint_testBit p hd s hpb] at hob
          exact absurd hob (by simp)
      rw [hpb, hob]
      simp [hsx, hfb]

/-- Color change of the swapped orientation when the orientation opponent
moves: orientation before is `p.pass`, after it is `(do_move p x).1`. -/
lemma color_delta_opponent (p : Position) (x : Nat)
    (hr : p.InRange) (hd : p.Disjoint)
    (hm : (p.get_moves').testBit x = true) (s : Nat) (hs : s < 64) :
    (get_square_color ⟨p.opponent ^^^ p.get_flipped' x,
        p.player ||| (p.get_flipped' x ||| 1 <<< x)⟩ s : Int) =
      (get_square_color p.pass s : Int) +
        ((if s = x then (-1 : Int) else 0) +
          (if (p.get_flipped' x).testBit s then (1 : Int) else 0)) := by
  obtain ⟨hx64, hxp, hxo⟩ := legal_move_facts p x hr hd hm
  set f := p.get_flipped' x with hf
  have hfsub : ∀ i, f.testBit i = true → p.opponent.testBit i = true :=
    fun i hi => get_flipped_simple_subset p.player p.opponent x i hi
  have hfx : f.testBit x = false := flips_testBit_move p x hxo
  rw [get_square_color_eq, get_square_color_eq]
  show (((if (p.opponent ^^^ f).testBit s then 0
      else if (p.player ||| (f ||| 1 <<< x)).testBit s then 1 else 2 : Nat) : Int)) =
    (((if p.opponent.testBit s then 0
      else if p.player.testBit s then 1 else 2 : Nat) : Int)) +
      ((if s = x then (-1 : Int) else 0) +
        (if f.testBit s then (1 : Int) else 0))
  simp only [Nat.testBit_or, Nat.testBit_xor, testBit_one_shiftLeft]
  by_cases hsx : s = x
  · subst hsx
    rw [hxp, hxo, hfx]
    simp
  · have hxs : (decide (x = s)) = false := by
      simp only [decide_eq_false_iff_not]
      intro h
      exact hsx h.symm
    rw [hxs]
    rcases hfb : f.testBit s with _ | _
    · rcases hpb : p.player.testBit s with _ | _ <;>
        rcases hob : p.opponent.testBit s with _ | _ <;>
        simp [hpb, hob, hfb, hsx]
    · have hob := hfsub s hfb
      have hpb : p.player.testBit s = false := by
        rcases hpb : p.player.testBit s with _ | _
        · rfl
        · rw [disjoint_testBit p hd s hpb] at hob
          exact absurd hob (by simp)
      rw [hpb, hob]
      simp [hsx, hfb]


/-- `Eval::new_for_opponent` (from the validation helpers of
`src/bot/edax/eval.rs`): fresh evaluation from the opponent's perspective. -/
def Eval.new_for_opponent (p : Position) : Eval := (Eval.new p.pass).pass

lemma pass_pass (p : Position) : p.pass.pass = p := rfl

lemma count_discs_pass (p : Position) : p.pass.count_discs = p.count_discs :=
  Nat.add_comm _ _

lemma count_empty_pass (p : Position) : p.pass.count_empty = p.count_empty := by
  unfold Position.count_empty
  rw [count_discs_pass]

lemma new_features_getD (p : Position) (j : Nat) (hj : j < 47) :
    ((List.range 47).map (featureVal p)).getD j 0 = featureVal p j := by
  rw [List.getD_eq_getElem _ _ (by simp [hj])]
  simp

lemma new_for_opponent_eq (p : Position) :
    Eval.new_for_opponent p =
      ⟨(List.range 47).map (featureVal p.pass), 1, 60 - p.pass.count_empty⟩ := rfl

lemma new_do_eq (p : Position) (x f : Nat) :
    (Eval.new p).do_move x f =
      ⟨applyAdds ((List.range 47).map (featureVal p)) (addsFor (-2) (-1) x f), 1,
        60 - p.count_empty + 1⟩ := rfl

lemma new_op_do_eq (p : Position) (x f : Nat) :
    (Eval.new_for_opponent p).do_move x f =
      ⟨applyAdds ((List.range 47).map (featureVal p.pass)) (addsFor (-1) 1 x f), 0,
        60 - p.pass.count_empty + 1⟩ := rfl

lemma popcount64_le63 (n x : Nat) (hx : x < 64) (hb : n.testBit x = false) :
    popcount64 n ≤ 63 := by
  by_contra hgt
  have h64 : popcount64 n = 64 := by
    have := popcount64_le n
    omega
  unfold popcount64 at h64
  have hall := (List.countP_eq_length
      (l := List.range 64) (p := fun i => n.testBit i)).mp
    (by rw [h64]; simp)
  have hx' := hall x (by simpa using hx)
  rw [hb] at hx'
  exact absurd hx' (by simp)

lemma count_discs_le63 (p : Position) (x : Nat) (hr : p.InRange) (hd : p.Disjoint)
    (hm : (p.get_moves').testBit x = true) : p.count_discs ≤ 63 := by
  obtain ⟨hx64, hxp, hxo⟩ := legal_move_facts p x hr hd hm
  have hor : p.count_discs = popcount64 (p.player ||| p.opponent) :=
    (popcount64_or_disjoint _ _ hd).symm
  rw [hor]
  refine popcount64_le63 _ x hx64 ?_
  rw [Nat.testBit_or, hxp, hxo]
  rfl

/-- Playing a legal move on a fresh player-perspective evaluation yields the
fresh opponent-perspective evaluation of the resulting position. -/
lemma eval_do_player (p : Position) (x : Nat)
    (hr : p.InRange) (hd : p.Disjoint) (hcd : 4 ≤ p.count_discs)
    (hm : (p.get_moves').testBit x = true) :
    (Eval.new p).do_move x (p.do_move x).2 =
      Eval.new_for_opponent (p.do_move x).1 := by
  obtain ⟨hr', hd', hcd'⟩ := do_move_preserves p x hr hd hm
  obtain ⟨hx64, hxp, hxo⟩ := legal_move_facts p x hr hd hm
  have hcd63 : p.count_discs ≤ 63 := count_discs_le63 p x hr hd hm
  have hfx : (p.get_flipped' x).testBit x = false := flips_testBit_move p x hxo
  have hflip : (p.do_move x).2 = p.get_flipped' x := rfl
  rw [hflip, new_do_eq, new_for_opponent_eq]
  have hO : (p.do_move x).1.pass =
      ⟨p.player ||| (p.get_flipped' x ||| 1 <<< x),
        p.opponent ^^^ p.get_flipped' x⟩ := rfl
  have hfeat : applyAdds ((List.range 47).map (featureVal p))
      (addsFor (-2) (-1) x (p.get_flipped' x)) =
      (List.range 47).map (featureVal (p.do_move x).1.pass) := by
    refine list_ext_getD 0 _ _ (by rw [applyAdds_length]; simp) ?_
    intro j hj
    have hj47 : j < 47 := by
      rw [applyAdds_length] at hj
      simpa using hj
    rw [applyAdds_getD _ _ ?_ j, new_features_getD _ _ hj47, new_features_getD _ _ hj47]
    · rw [hO]
      exact (featureVal_delta p _ (-2) (-1) x (p.get_flipped' x) j hj47 hx64 hfx
        (fun s hs => color_delta_player p x hr hd hm s hs)).symm
    · intro q hq
      have := addsFor_bound (-2) (-1) x (p.get_flipped' x) q hq
      simp only [List.length_map, List.length_range]
      exact this
  have hei : 60 - p.count_empty + 1 = 60 - (p.do_move x).1.pass.count_empty := by
    rw [count_empty_pass]
    unfold Position.count_empty
    rw [hcd']
    omega
  rw [hfeat, hei]

/-- Playing a legal move on a fresh opponent-perspective evaluation yields
the fresh player-perspective evaluation of the resulting position. -/
lemma eval_do_opponent (p : Position) (x : Nat)
    (hr : p.InRange) (hd : p.Disjoint) (hcd : 4 ≤ p.count_discs)
    (hm : (p.get_moves').testBit x = true) :
    (Eval.new_for_opponent p).do_move x (p.do_move x).2 =
      Eval.new (p.do_move x).1 := by
  obtain ⟨hr', hd', hcd'⟩ := do_move_preserves p x hr hd hm
  obtain ⟨hx64, hxp, hxo⟩ := legal_move_facts p x hr hd hm
  have hcd63 : p.count_discs ≤ 63 := count_discs_le63 p x hr hd hm
  have hfx : (p.get_flipped' x).testBit x = false := flips_testBit_move p x hxo
  have hflip : (p.do_move x).2 = p.get_flipped' x := rfl
  rw [hflip, new_op_do_eq]
  show _ = (⟨(List.range 47).map (featureVal (p.do_move x).1), 0,
    60 - (p.do_move x).1.count_empty⟩ : Eval)
  have hO : (p.do_move x).1 =
      ⟨p.opponent ^^^ p.get_flipped' x,
        p.player ||| (p.get_flipped' x ||| 1 <<< x)⟩ := rfl
  have hfeat : applyAdds ((List.range 47).map (featureVal p.pass))
      (addsFor (-1) 1 x (p.get_flipped' x)) =
      (List.range 47).map (featureVal (p.do_move x).1) := by
    refine list_ext_getD 0 _ _ (by rw [applyAdds_length]; simp) ?_
    intro j hj
    have hj47 : j < 47 := by
      rw [applyAdds_length] at hj
      simpa using hj
    rw [applyAdds_getD _ _ ?_ j, new_features_getD _ _ hj47, new_features_getD _ _ hj47]
    · rw [hO]
      exact (featureVal_delta p.pass _ (-1) 1 x (p.get_flipped' x) j hj47 hx64 hfx
        (fun s hs => color_delta_opponent p x hr hd hm s hs)).symm
    · intro q hq
      have := addsFor_bound (-1) 1 x (p.get_flipped' x) q hq
      simp only [List.length_map, List.length_range]
      exact this
  have hei : 60 - p.pass.count_empty + 1 = 60 - (p.do_move x).1.count_empty := by
    rw [count_empty_pass]
    unfold Position.count_empty
    rw [hcd']
    omega
  rw [hfeat, hei]

lemma new_pass_pass (p : Position) : ((Eval.new p).pass).pass = Eval.new p := rfl

lemma new_op_of_pass (q : Position) :
    Eval.new_for_opponent q.pass = (Eval.new q).pass := by
  unfold Eval.new_for_opponent
  rw [pass_pass]

/-- One lockstep step of the position and its evaluator: a legal move, the
exact undo of a legal move (with the position's flips), or a pass on both. -/
inductive EStep : Position × Eval → Position × Eval → Prop where
  | mv : ∀ (p : Position) (e : Eval) (x : Nat),
      (p.get_moves').testBit x = true →
      EStep (p, e) ((p.do_move x).1, e.do_move x (p.do_move x).2)
  | undo : ∀ (p : Position) (e : Eval) (x : Nat),
      (p.get_moves').testBit x = true → p.InRange → p.Disjoint →
      4 ≤ p.count_discs →
      EStep ((p.do_move x).1, e)
        (((p.do_move x).1).undo_move x (p.do_move x).2,
          e.undo_move x (p.do_move x).2)
  | pass : ∀ (p : Position) (e : Eval),
      EStep (p, e) (p.pass, e.pass)

/-- The evaluator agrees with a fresh evaluation of the current position,
from the side it tracks. -/
def EvalSync (e : Eval) (p : Position) : Prop :=
  e = if e.player = 0 then Eval.new p else Eval.new_for_opponent p

/-- The invariant carried along a search line. -/
def SyncInv (σ : Position × Eval) : Prop :=
  σ.1.InRange ∧ σ.1.Disjoint ∧ 4 ≤ σ.1.count_discs ∧ EvalSync σ.2 σ.1

lemma estep_preserves (σ τ : Position × Eval) (h : EStep σ τ) (hs : SyncInv σ) :
    SyncInv τ := by
  obtain ⟨hr, hd, hcd, hsync⟩ := hs
  cases h with
  | mv p e x hx =>
    dsimp only at hr hd hcd hsync ⊢
    obtain ⟨hr', hd', hcd'⟩ := do_move_preserves p x hr hd hx
    refine ⟨hr', hd', by rw [hcd']; omega, ?_⟩
    unfold EvalSync at hsync ⊢
    by_cases hp0 : e.player = 0
    · rw [if_pos hp0] at hsync
      rw [hsync, eval_do_player p x hr hd hcd hx]
      rw [if_neg (by simp [new_for_opponent_eq])]
    · rw [if_neg hp0] at hsync
      rw [hsync, eval_do_opponent p x hr hd hcd hx]
      have hpl : (Eval.new ((p.do_move x).1)).player = 0 := rfl
      rw [if_pos hpl]
  | undo p e x hx hrp hdp hcdp =>
    dsimp only at hr hd hcd hsync ⊢
    have hback : ((p.do_move x).1).undo_move x (p.do_move x).2 = p :=
      do_undo_restores p x hrp hdp hx
    rw [hback]
    refine ⟨hrp, hdp, hcdp, ?_⟩
    unfold EvalSync at hsync ⊢
    by_cases hp0 : e.player = 0
    · rw [if_pos hp0] at hsync
      rw [hsync, ← eval_do_opponent p x hrp hdp hcdp hx,
        eval_undo_do _ _ _ (Or.inr rfl) (by rw [new_for_opponent_eq]; simp)]
      rw [if_neg (by simp [new_for_opponent_eq])]
    · rw [if_neg hp0] at hsync
      rw [hsync, ← eval_do_player p x hrp hdp hcdp hx,
        eval_undo_do _ _ _ (Or.inl rfl) (by simp [Eval.new])]
      have hpl : (Eval.new p).player = 0 := rfl
      rw [if_pos hpl]
  | pass p e =>
    dsimp only at hr hd hcd hsync ⊢
    refine ⟨⟨hr.2, hr.1⟩, ?_, ?_, ?_⟩
    · show p.opponent &&& p.player = 0
      rw [Nat.and_comm]
      exact hd
    · show 4 ≤ p.pass.count_discs
      rw [count_discs_pass]
      exact hcd
    · unfold EvalSync at hsync ⊢
      by_cases hp0 : e.player = 0
      · rw [if_pos hp0] at hsync
        rw [hsync]
        have hpl : ((Eval.new p).pass).player = 1 := rfl
        rw [if_neg (by rw [hpl]; exact one_ne_zero)]
        exact (new_op_of_pass p).symm
      · rw [if_neg hp0] at hsync
        rw [hsync]
        have h1 : (Eval.new_for_opponent p).pass = Eval.new p.pass :=
          new_pass_pass p.pass
        rw [h1]
        have hpl : (Eval.new p.pass).player = 0 := rfl
        rw [if_pos hpl]

/-- **C3**: along any lockstep sequence of legal moves, exact undos and
passes applied to both the position and the evaluator, starting from a fresh
evaluation, every feature entry equals the fresh base-3 feature value of the
current position (relative to the side the evaluator tracks) plus its
offset — the incrementally maintained `Eval` equals `Eval::new` recomputed
from scratch. -/
theorem eval_incremental_matches_fresh (p0 : Position) (st : Position × Eval)
    (hr : p0.InRange) (hd : p0.Disjoint) (hcd : 4 ≤ p0.count_discs)
    (h : Relation.ReflTransGen EStep (p0, Eval.new p0) st) :
    ∀ i, i < 47 →
      st.2.features.getD i 0 =
        featureVal (if st.2.player = 0 then st.1 else st.1.pass) i := by
  have hinv : SyncInv st := by
    induction h with
    | refl =>
      refine ⟨hr, hd, hcd, ?_⟩
      unfold EvalSync
      have hpl : (Eval.new p0).player = 0 := rfl
      rw [if_pos hpl]
    | tail hsteps hstep ih => exact estep_preserves _ _ hstep ih
  obtain ⟨_, _, _, hsync⟩ := hinv
  unfold EvalSync at hsync
  intro i hi
  by_cases hp0 : st.2.player = 0
  · rw [if_pos hp0] at hsync
    rw [if_pos hp0, hsync]
    show ((List.range 47).map (featureVal st.1)).getD i 0 = _
    exact new_features_getD _ _ hi
  · rw [if_neg hp0] at hsync
    rw [if_neg hp0, hsync, new_for_opponent_eq]
    show ((List.range 47).map (featureVal st.1.pass)).getD i 0 = _
    exact new_features_getD _ _ hi

/-- The standard Othello starting position. -/
def c3start : Position := ⟨0x810000000, 0x1008000000⟩

theorem eval_incremental_matches_fresh_witness :
    ((Eval.new c3start).do_move 19 ((c3start.do_move 19).2)).features.getD 0 0 =
      featureVal ((c3start.do_move 19).1).pass 0 := by
  have h := eval_incremental_matches_fresh c3start
      ((c3start.do_move 19).1, (Eval.new c3start).do_move 19 (c3start.do_move 19).2)
      (by unfold Position.InRange M64; exact ⟨by decide, by decide⟩)
      (by unfold Position.Disjoint; decide)
      (by decide)
      (Relation.ReflTransGen.single
        (EStep.mv c3start (Eval.new c3start) 19 (by decide)))
      0 (by decide)
  rw [if_neg (by decide)] at h
  exact h


/-! ### Iterative deepening, terminal case (`src/bot/edax/search.rs`) -/

/-- `NO_SELECTIVITY` from `src/bot/edax/const.rs`. -/
def NO_SELECTIVITY : Int := 5

/-- `SearchResult` from `src/bot/edax/search.rs` (`Line` is its move list). -/
structure SearchResult where
  move_ : Nat
  score : Int
  n_moves_left : Nat
  book_move : Bool
  n_moves : Int
  bound : List Bound
  n_nodes : Nat
  time : Int
  depth : Int
  selectivity : Int
  pv : List Nat
  deriving DecidableEq, Repr

/-- The prologue and game-over branch of `iterative_deepening`: the shared
result is reset, then, when the side to move has no legal moves and neither
does the opponent, it is filled with the solved score and the function
returns (modelled as `some`); otherwise the deepening loop would run
(modelled as `none`).  `n_nodes` and `time` stand for the node counter and
clock reads. -/
def iterative_deepening_terminal (s : SearchState) (r0 : SearchResult)
    (n_nodes : Nat) (time : Int) : Option SearchResult :=
  let r := { r0 with
             move_ := NO_MOVE,
             score := -SCORE_INF,
             depth := -1,
             selectivity := 0,
             time := 0,
             n_nodes := 0,
             pv := [] }
  if s.move_list.moves = [] ∧ ¬(s.position.get_opponent_moves ≠ 0) then
    some { r with
           move_ := NO_MOVE,
           score := s.position.final_score_with_empty s.n_empties,
           depth := s.n_empties,
           selectivity := NO_SELECTIVITY,
           time := time,
           n_nodes := n_nodes,
           bound := r.bound.set NO_MOVE
                      ⟨s.position.final_score_with_empty s.n_empties,
                        s.position.final_score_with_empty s.n_empties⟩,
           pv := [] }
  else none

/-- **C1** (amended): in a terminal position (no legal move for either
side), `iterative_deepening` takes the game-over branch and reports the
exact final score, but the chosen move it stores is `NO_MOVE` (65), not
`PASS` (64) as the specification claims; the score bound stored for
`NO_MOVE` is exact. -/
theorem iterative_deepening_terminal_result (s : SearchState) (r0 : SearchResult)
    (nn : Nat) (t : Int)
    (hd : s.position.Disjoint)
    (hne : s.n_empties = (s.position.count_empty : Int))
    (hml : s.move_list.moves = [])
    (hom : s.position.get_opponent_moves = 0)
    (hb : r0.bound.length = 66) :
    ∃ r, iterative_deepening_terminal s r0 nn t = some r ∧
      r.move_ = NO_MOVE ∧ r.move_ ≠ PASS ∧
      r.score = s.position.final_score ∧
      r.bound.getD NO_MOVE ⟨0, 0⟩ =
        ⟨s.position.final_score, s.position.final_score⟩ := by
  have hsc : s.position.final_score_with_empty s.n_empties = s.position.final_score :=
    final_score_with_empty_eq s.position s.n_empties hd hne
  refine ⟨{ move_ := NO_MOVE,
            score := s.position.final_score_with_empty s.n_empties,
            n_moves_left := r0.n_moves_left,
            book_move := r0.book_move,
            n_moves := r0.n_moves,
            bound := r0.bound.set NO_MOVE
                       ⟨s.position.final_score_with_empty s.n_empties,
                         s.position.final_score_with_empty s.n_empties⟩,
            n_nodes := nn,
            time := t,
            depth := s.n_empties,
            selectivity := NO_SELECTIVITY,
            pv := [] }, ?_, rfl, by show NO_MOVE ≠ PASS; decide, hsc, ?_⟩
  · unfold iterative_deepening_terminal
    rw [if_pos ⟨hml, by simp [hom]⟩]
  · show (r0.bound.set NO_MOVE _).getD NO_MOVE _ = _
    rw [getD_set_self _ _ _ _ (by rw [hb]; unfold NO_MOVE; omega), hsc]

/-- A terminal position: the board is full of player discs. -/
def c1state : SearchState :=
  { position := ⟨0xFFFFFFFFFFFFFFFF, 0⟩,
    n_empties := 0,
    empties := ⟨[⟨⟨0, 0, 0⟩, 0, 0⟩], []⟩,
    move_list := ⟨[]⟩,
    parity := 0,
    eval := Eval.new ⟨0xFFFFFFFFFFFFFFFF, 0⟩,
    height := 0,
    node_type := List.replicate 80 NodeType.PvNode,
    depth_pv_extension := 0,
    stability_bound := ⟨64, -64⟩,
    probcut_level := 0 }

/-- A fresh search result with the 66-entry bound table. -/
def c1result0 : SearchResult :=
  { move_ := NO_MOVE, score := 0, n_moves_left := 0, book_move := false,
    n_moves := 0, bound := List.replicate 66 ⟨0, 0⟩, n_nodes := 0, time := 0,
    depth := 0, selectivity := 0, pv := [] }

theorem iterative_deepening_terminal_counterexample :
    c1state.move_list.moves = [] ∧
      c1state.position.get_opponent_moves = 0 ∧
      c1state.n_empties = (c1state.position.count_empty : Int) ∧
      ((iterative_deepening_terminal c1state c1result0 0 0).map
        (fun r => r.move_)) = some NO_MOVE ∧
      NO_MOVE ≠ PASS ∧
      ((iterative_deepening_terminal c1state c1result0 0 0).map
        (fun r => r.score)) = some c1state.position.final_score := by
  refine ⟨rfl, by decide, by decide, by decide, by decide, by decide⟩

theorem iterative_deepening_terminal_witness :
    ∃ r, iterative_deepening_terminal c1state c1result0 0 0 = some r ∧
      r.move_ = NO_MOVE ∧ r.move_ ≠ PASS ∧
      r.score = c1state.position.final_score ∧
      r.bound.getD NO_MOVE ⟨0, 0⟩ =
        ⟨c1state.position.final_score, c1state.position.final_score⟩ :=
  iterative_deepening_terminal_result c1state c1result0 0 0
    (by unfold Position.Disjoint; decide)
    (by decide)
    rfl
    (by decide)
    (by decide)


/-! ### Hash stores at the end of midgame nodes (`src/bot/edax/search.rs`) -/

/-- `Stop` from `src/bot/edax/const.rs`. -/
inductive Stop where
  | Running
  | StopParallelSearch
  | StopPondering
  | StopTimeout
  | StopOnDemand
  | StopEnd
  deriving DecidableEq, Repr

/-- `PV_HASH_HEIGHT` from `src/bot/edax/const.rs`. -/
def PV_HASH_HEIGHT : Int := 5

/-- The post-move-loop tail of `pvs_midgame`
(`if !self.is_running() { ..store.. } else { node.set_best_score(alpha) }`):
returns whether the result is stored in the main and PV hash tables, and the
score the node reports (`is_running()` holds exactly when the stop flag is
`Running`). -/
def pvs_midgame_tail (stop : Stop) (best_score alpha : Int) : Bool × Int :=
  if ¬(stop = Stop.Running) then (true, best_score)
  else (false, alpha)

/-- The post-move-loop tail of `nws_midgame`: whether the result is stored
in the PV table (low heights only) and in the main hash table, and the
reported best score. -/
def nws_midgame_tail (stop : Stop) (height : Int) (best_score : Int) :
    Bool × Bool × Int :=
  if ¬(stop = Stop.Running) then
    ((if height ≤ PV_HASH_HEIGHT then true else false), true, best_score)
  else (false, false, best_score)

/-- **C8** (code bug): the store conditions of `pvs_midgame` and
`nws_midgame` are inverted.  A finished node stores its result if and only
if the stop flag is *not* `Running`; with the stop flag still `Running` (the
case the specification describes) nothing is stored, and `pvs_midgame`
additionally overwrites its best score with `alpha`. -/
theorem midgame_store_only_when_stopped (stop : Stop) (best alpha h : Int) :
    ((pvs_midgame_tail stop best alpha).1 = true ↔ ¬stop = Stop.Running) ∧
    ((nws_midgame_tail stop h best).2.1 = true ↔ ¬stop = Stop.Running) ∧
    (stop = Stop.Running → (pvs_midgame_tail stop best alpha).2 = alpha) := by
  unfold pvs_midgame_tail nws_midgame_tail
  by_cases hs : stop = Stop.Running
  · rw [if_neg (by simp [hs]), if_neg (by simp [hs])]
    simp [hs]
  · rw [if_pos hs, if_pos hs]
    simp [hs]

theorem midgame_store_only_when_stopped_witness :
    ((pvs_midgame_tail Stop.Running 7 0).1 = true ↔ ¬Stop.Running = Stop.Running) ∧
    ((nws_midgame_tail Stop.Running 0 7).2.1 = true ↔
      ¬Stop.Running = Stop.Running) ∧
    (Stop.Running = Stop.Running → (pvs_midgame_tail Stop.Running 7 0).2 = 0) :=
  midgame_store_only_when_stopped Stop.Running 7 0 0


/-! ### Enhanced Transposition Cutoff of NWS (`src/bot/edax/search.rs`) -/

/-- `ETC_MIN_DEPTH` from `src/bot/edax/const.rs`. -/
def ETC_MIN_DEPTH : Int := 5

/-- The hash branch of `etc_nws` for one candidate move, as implemented: a
cutoff of `-upper` is stored and returned when
`selectivity >= hash_data.selectivity && hash_data.depth >= depth - 1` and
`-upper > alpha` (and the whole routine only runs for
`depth > ETC_MIN_DEPTH`). -/
def etc_nws_hash_cutoff (depth selectivity entry_depth entry_selectivity
    upper alpha : Int) : Option Int :=
  if depth > ETC_MIN_DEPTH then
    if selectivity ≥ entry_selectivity ∧ entry_depth ≥ depth - 1 then
      if -upper > alpha then some (-upper) else none
    else none
  else none

/-- The same branch as the specification words it: the entry must have
`selectivity >= the current search selectivity` (and depth at least
`depth - 1`). -/
def etc_nws_hash_cutoff_spec (depth selectivity entry_depth entry_selectivity
    upper alpha : Int) : Option Int :=
  if depth > ETC_MIN_DEPTH then
    if entry_selectivity ≥ selectivity ∧ entry_depth ≥ depth - 1 then
      if -upper > alpha then some (-upper) else none
    else none
  else none

/-- **C9** (code bug): the selectivity comparison of the hash-based ETC
cutoff is inverted relative to the specification (and to
`transposition_cutoff_nws` in the same file).  At depth 6, with current
selectivity 5, a child entry of depth 5 with selectivity 0 and upper bound
−10 is *accepted* by the code but refused by the specified condition, while
an entry with selectivity 5 under current selectivity 0 is refused by the
code but accepted by the specified condition. -/
theorem etc_nws_selectivity_inverted :
    etc_nws_hash_cutoff 6 5 5 0 (-10) 0 = some 10 ∧
    etc_nws_hash_cutoff_spec 6 5 5 0 (-10) 0 = none ∧
    etc_nws_hash_cutoff 6 0 5 5 (-10) 0 = none ∧
    etc_nws_hash_cutoff_spec 6 0 5 5 (-10) 0 = some 10 := by
  unfold etc_nws_hash_cutoff etc_nws_hash_cutoff_spec ETC_MIN_DEPTH
  norm_num


/-! ### C4: Kogge-Stone versus naive move generation -/

/-- One Kogge-Stone chain step towards higher bit indices: shift and mask. -/
def FL (m k b : Nat) : Nat := m &&& ((b <<< k) % M64)

/-- One Kogge-Stone chain step towards lower bit indices. -/
def FR (m k b : Nat) : Nat := m &&& (b >>> k)

/-- `t`-fold iterate of `FL`. -/
def FLpow (m k : Nat) : Nat → Nat → Nat
  | 0, b => b
  | t + 1, b => FL m k (FLpow m k t b)

/-- `t`-fold iterate of `FR`. -/
def FRpow (m k : Nat) : Nat → Nat → Nat
  | 0, b => b
  | t + 1, b => FR m k (FRpow m k t b)

/-- The candidate iterate of `get_moves_simple`:
`candIter o d t c` is the candidate bitset after `t` loop iterations. -/
def candIter (o : Nat) (d : Int) : Nat → Nat → Nat
  | 0, c => c
  | t + 1, c => candIter o d t (Position.shift c d &&& o)

/-- Big or of `f 0, ..., f (n-1)`. -/
def bigOr (f : Nat → Nat) : Nat → Nat
  | 0 => 0
  | n + 1 => bigOr f n ||| f n

lemma testBit_shl_mod (b k i : Nat) :
    (((b <<< k) % M64)).testBit i =
      (decide (i < 64) && (decide (k ≤ i) && b.testBit (i - k))) := by
  have hM : M64 = 2 ^ 64 := by unfold M64; norm_num
  rw [hM, Nat.testBit_mod_two_pow, Nat.testBit_shiftLeft]

lemma testBit_shr (b k i : Nat) : (b >>> k).testBit i = b.testBit (k + i) :=
  Nat.testBit_shiftRight b

lemma testBit_ge_false {b : Nat} (hb : b < M64) {i : Nat} (hi : 64 ≤ i) :
    b.testBit i = false :=
  testBit_false_of_lt hb hi

lemma FL_lt (m k b : Nat) (hm : m < M64) : FL m k b < M64 :=
  lt_of_le_of_lt Nat.and_le_left hm

lemma FR_lt (m k b : Nat) (hm : m < M64) : FR m k b < M64 :=
  lt_of_le_of_lt Nat.and_le_left hm

lemma FLpow_lt (m k : Nat) (hm : m < M64) :
    ∀ t b, b < M64 → FLpow m k t b < M64 := by
  intro t
  induction t with
  | zero => intro b hb; exact hb
  | succ t ih => intro b hb; exact FL_lt m k _ hm

lemma FRpow_lt (m k : Nat) (hm : m < M64) :
    ∀ t b, b < M64 → FRpow m k t b < M64 := by
  intro t
  induction t with
  | zero => intro b hb; exact hb
  | succ t ih => intro b hb; exact FR_lt m k _ hm

lemma FLpow_add (m k : Nat) : ∀ (a b : Nat) (p : Nat),
    FLpow m k (a + b) p = FLpow m k a (FLpow m k b p) := by
  intro a
  induction a with
  | zero => intro b p; rw [Nat.zero_add]; rfl
  | succ a ih =>
    intro b p
    rw [Nat.succ_add]
    show FL m k (FLpow m k (a + b) p) = FL m k (FLpow m k a (FLpow m k b p))
    rw [ih]

lemma FRpow_add (m k : Nat) : ∀ (a b : Nat) (p : Nat),
    FRpow m k (a + b) p = FRpow m k a (FRpow m k b p) := by
  intro a
  induction a with
  | zero => intro b p; rw [Nat.zero_add]; rfl
  | succ a ih =>
    intro b p
    rw [Nat.succ_add]
    show FR m k (FRpow m k (a + b) p) = FR m k (FRpow m k a (FRpow m k b p))
    rw [ih]

lemma FL_zero (m k : Nat) : FL m k 0 = 0 := by
  unfold FL
  rw [Nat.zero_shiftLeft, Nat.zero_mod, Nat.and_zero]

lemma FR_zero (m k : Nat) : FR m k 0 = 0 := by
  unfold FR
  rw [Nat.zero_shiftRight, Nat.and_zero]

lemma FLpow_zero (m k : Nat) : ∀ t, FLpow m k t 0 = 0 := by
  intro t
  induction t with
  | zero => rfl
  | succ t ih =>
    show FL m k (FLpow m k t 0) = 0
    rw [ih, FL_zero]

lemma FRpow_zero (m k : Nat) : ∀ t, FRpow m k t 0 = 0 := by
  intro t
  induction t with
  | zero => rfl
  | succ t ih =>
    show FR m k (FRpow m k t 0) = 0
    rw [ih, FR_zero]

lemma shift_zero (d : Int) : Position.shift 0 d = 0 := by
  unfold Position.shift
  split_ifs <;> simp

lemma candIter_zero (o : Nat) (d : Int) : ∀ t, candIter o d t 0 = 0 := by
  intro t
  induction t with
  | zero => rfl
  | succ t ih =>
    show candIter o d t (Position.shift 0 d &&& o) = 0
    rw [shift_zero, Nat.zero_and]
    exact ih

lemma candIter_succ (o : Nat) (d : Int) (t c : Nat) :
    candIter o d (t + 1) c = candIter o d t (Position.shift c d &&& o) := rfl

lemma bigOr_zero (n : Nat) (f : Nat → Nat) (h : ∀ t, t < n → f t = 0) :
    bigOr f n = 0 := by
  induction n with
  | zero => rfl
  | succ n ih =>
    show bigOr f n ||| f n = 0
    rw [h n (by omega), ih (fun t ht => h t (by omega)), Nat.or_zero]

lemma bigOr_truncate (f : Nat → Nat) (n0 : Nat)
    (h : ∀ t, n0 ≤ t → f t = 0) :
    ∀ n, n0 ≤ n → bigOr f n = bigOr f n0 := by
  intro n
  induction n with
  | zero =>
    intro hn
    have : n0 = 0 := by omega
    rw [this]
  | succ n ih =>
    intro hn
    by_cases h0 : n0 = n + 1
    · rw [h0]
    · show bigOr f n ||| f n = bigOr f n0
      rw [h n (by omega), ih (by omega), Nat.or_zero]

lemma bigOr_succ_shift (f : Nat → Nat) : ∀ n,
    bigOr f (n + 1) = f 0 ||| bigOr (fun t => f (t + 1)) n := by
  intro n
  induction n with
  | zero =>
    show bigOr f 0 ||| f 0 = f 0 ||| 0
    rw [Nat.or_zero]
    show 0 ||| f 0 = f 0
    rw [Nat.zero_or]
  | succ n ih =>
    show bigOr f (n + 1) ||| f (n + 1) = f 0 ||| (bigOr (fun t => f (t + 1)) n ||| f (n + 1))
    rw [ih, Nat.or_assoc]


lemma GL_and_src (o src bmask k : Nat) (ho : o < M64)
    (hmask : ∀ i, i < 64 → k ≤ i →
      bmask.testBit i = (src.testBit (i - k) && src.testBit i)) (c : Nat) :
    ((((c &&& src) <<< k) % M64) &&& o) &&& src = FL (o &&& bmask) k c := by
  apply Nat.eq_of_testBit_eq
  intro i
  simp only [FL, Nat.testBit_and, testBit_shl_mod]
  by_cases hi : i < 64
  · by_cases hk : k ≤ i
    · rw [hmask i hi hk, decide_eq_true hi, decide_eq_true hk]
      cases c.testBit (i - k) <;> cases src.testBit (i - k) <;>
        cases o.testBit i <;> cases src.testBit i <;> rfl
    · simp [hk]
  · have ho2 : o.testBit i = false := testBit_ge_false ho (by omega)
    simp [hi, ho2]

lemma FL_G (o src bmask k : Nat) (ho : o < M64) (hk0 : 0 < k)
    (hmask : ∀ i, i < 64 → k ≤ i →
      bmask.testBit i = (src.testBit (i - k) && src.testBit i)) (c : Nat) :
    FL (o &&& bmask) k ((((c &&& src) <<< k) % M64) &&& o) =
      FL (o &&& bmask) k (FL (o &&& bmask) k c) := by
  apply Nat.eq_of_testBit_eq
  intro i
  simp only [FL, Nat.testBit_and, testBit_shl_mod]
  by_cases hi : i < 64
  · by_cases hk : k ≤ i
    · have hik : i - k < 64 := by omega
      by_cases hk2 : k ≤ i - k
      · rw [hmask i hi hk, hmask (i - k) hik hk2, decide_eq_true hi,
          decide_eq_true hk, decide_eq_true hik, decide_eq_true hk2]
        cases c.testBit (i - k - k) <;> cases src.testBit (i - k - k) <;>
          cases o.testBit (i - k) <;> cases src.testBit (i - k) <;>
          cases o.testBit i <;> cases src.testBit i <;> rfl
      · simp [hik, hk2]
    · simp [hk]
  · simp [hi]

lemma FL2 (m k b : Nat) :
    (m &&& ((m <<< k) % M64)) &&& ((b <<< (2 * k)) % M64) =
      FL m k (FL m k b) := by
  apply Nat.eq_of_testBit_eq
  intro i
  simp only [FL, Nat.testBit_and, testBit_shl_mod]
  by_cases hi : i < 64
  · by_cases hk : k ≤ i
    · have hik : i - k < 64 := by omega
      by_cases hk2 : 2 * k ≤ i
      · have h1 : k ≤ i - k := by omega
        have h2 : i - k - k = i - 2 * k := by omega
        rw [h2, decide_eq_true hi, decide_eq_true hk, decide_eq_true hik,
          decide_eq_true hk2, decide_eq_true h1]
        cases m.testBit i <;> cases m.testBit (i - k) <;>
          cases b.testBit (i - 2 * k) <;> rfl
      · have h1 : ¬(k ≤ i - k) := by omega
        simp [hik, hk2, h1]
    · have h2 : ¬(2 * k ≤ i) := by omega
      simp [hk, h2]
  · simp [hi]

lemma GR_and_src (o src bmask k : Nat) (ho : o < M64)
    (hmask : ∀ i, k + i < 64 →
      bmask.testBit i = (src.testBit (k + i) && src.testBit i)) (c : Nat)
    (hc : c < M64) :
    (((c &&& src) >>> k) &&& o) &&& src = FR (o &&& bmask) k c := by
  apply Nat.eq_of_testBit_eq
  intro i
  simp only [FR, Nat.testBit_and, testBit_shr]
  by_cases hi : i < 64
  · by_cases hk : k + i < 64
    · rw [hmask i hk]
      cases c.testBit (k + i) <;> cases src.testBit (k + i) <;>
        cases o.testBit i <;> cases src.testBit i <;> rfl
    · rw [testBit_ge_false hc (show 64 ≤ k + i by omega)]
      simp
  · rw [testBit_ge_false ho (show 64 ≤ i by omega)]
    simp

lemma FR_G (o src bmask k : Nat) (ho : o < M64)
    (hmask : ∀ i, k + i < 64 →
      bmask.testBit i = (src.testBit (k + i) && src.testBit i)) (c : Nat)
    (hc : c < M64) :
    FR (o &&& bmask) k (((c &&& src) >>> k) &&& o) =
      FR (o &&& bmask) k (FR (o &&& bmask) k c) := by
  apply Nat.eq_of_testBit_eq
  intro i
  simp only [FR, Nat.testBit_and, testBit_shr]
  by_cases hki : k + i < 64
  · by_cases hkk : k + (k + i) < 64
    · rw [hmask i hki, hmask (k + i) hkk]
      cases c.testBit (k + (k + i)) <;> cases src.testBit (k + (k + i)) <;>
        cases o.testBit (k + i) <;> cases src.testBit (k + i) <;>
        cases o.testBit i <;> cases src.testBit i <;> rfl
    · rw [testBit_ge_false hc (show 64 ≤ k + (k + i) by omega)]
      simp
  · rw [testBit_ge_false ho (show 64 ≤ k + i by omega)]
    simp

lemma FR2 (m k b : Nat) :
    (m &&& (m >>> k)) &&& (b >>> (2 * k)) = FR m k (FR m k b) := by
  apply Nat.eq_of_testBit_eq
  intro i
  simp only [FR, Nat.testBit_and, testBit_shr]
  have h2 : 2 * k + i = k + (k + i) := by omega
  rw [h2]
  cases m.testBit i <;> cases m.testBit (k + i) <;>
    cases b.testBit (k + (k + i)) <;> rfl

lemma simpleDirLoop_eq (o e : Nat) (d : Int) : ∀ (fuel : Nat) (moves c : Nat),
    simpleDirLoop o e d fuel moves c =
      moves ||| bigOr (fun t => e &&& Position.shift (candIter o d t c) d) fuel := by
  intro fuel
  induction fuel with
  | zero =>
    intro moves c
    show moves = moves ||| 0
    rw [Nat.or_zero]
  | succ fuel ih =>
    intro moves c
    show (if c = 0 then moves
      else simpleDirLoop o e d fuel
        (moves ||| (e &&& Position.shift c d)) (Position.shift c d &&& o)) = _
    by_cases hc : c = 0
    · rw [if_pos hc]
      subst hc
      rw [bigOr_zero]
      · rw [Nat.or_zero]
      · intro t _
        rw [candIter_zero, shift_zero, Nat.and_zero]
    · rw [if_neg hc, ih, bigOr_succ_shift, Nat.or_assoc]
      exact rfl


lemma FL_or (m k a b : Nat) : FL m k (a ||| b) = FL m k a ||| FL m k b := by
  apply Nat.eq_of_testBit_eq
  intro i
  simp only [FL, Nat.testBit_and, Nat.testBit_or, testBit_shl_mod]
  cases a.testBit (i - k) <;> cases b.testBit (i - k) <;> cases m.testBit i <;>
    cases decide (i < 64) <;> cases decide (k ≤ i) <;> rfl

lemma FR_or (m k a b : Nat) : FR m k (a ||| b) = FR m k a ||| FR m k b := by
  apply Nat.eq_of_testBit_eq
  intro i
  simp only [FR, Nat.testBit_and, Nat.testBit_or, testBit_shr]
  cases a.testBit (k + i) <;> cases b.testBit (k + i) <;> cases m.testBit i <;> rfl

lemma candIter_lt (o : Nat) (d : Int) (ho : o < M64) :
    ∀ t c, c < M64 → candIter o d t c < M64 := by
  intro t
  induction t with
  | zero => intro c hc; exact hc
  | succ t ih =>
    intro c hc
    show candIter o d t (Position.shift c d &&& o) < M64
    exact ih _ (lt_of_le_of_lt Nat.and_le_right ho)


lemma FLpow_shiftG (o src bmask k : Nat) (ho : o < M64) (hk0 : 0 < k)
    (hmask : ∀ i, i < 64 → k ≤ i →
      bmask.testBit i = (src.testBit (i - k) && src.testBit i)) :
    ∀ t c, FLpow (o &&& bmask) k (t + 1) ((((c &&& src) <<< k) % M64) &&& o) =
      FLpow (o &&& bmask) k (t + 2) c := by
  intro t
  induction t with
  | zero =>
    intro c
    show FL (o &&& bmask) k ((((c &&& src) <<< k) % M64) &&& o) =
      FL (o &&& bmask) k (FL (o &&& bmask) k c)
    exact FL_G o src bmask k ho hk0 hmask c
  | succ t ih =>
    intro c
    show FL (o &&& bmask) k (FLpow (o &&& bmask) k (t + 1) _) =
      FL (o &&& bmask) k (FLpow (o &&& bmask) k (t + 2) c)
    rw [ih c]

lemma FRpow_shiftG (o src bmask k : Nat) (ho : o < M64)
    (hmask : ∀ i, k + i < 64 →
      bmask.testBit i = (src.testBit (k + i) && src.testBit i)) :
    ∀ t c, c < M64 →
      FRpow (o &&& bmask) k (t + 1) (((c &&& src) >>> k) &&& o) =
        FRpow (o &&& bmask) k (t + 2) c := by
  intro t
  induction t with
  | zero =>
    intro c hc
    show FR (o &&& bmask) k (((c &&& src) >>> k) &&& o) =
      FR (o &&& bmask) k (FR (o &&& bmask) k c)
    exact FR_G o src bmask k ho hmask c hc
  | succ t ih =>
    intro c hc
    show FR (o &&& bmask) k (FRpow (o &&& bmask) k (t + 1) _) =
      FR (o &&& bmask) k (FRpow (o &&& bmask) k (t + 2) c)
    rw [ih c hc]



lemma candIter_FL (o src bmask k : Nat) (d : Int) (ho : o < M64) (hk0 : 0 < k)
    (hmask : ∀ i, i < 64 → k ≤ i →
      bmask.testBit i = (src.testBit (i - k) && src.testBit i))
    (hsh : ∀ c, c < M64 → Position.shift c d = ((c &&& src) <<< k) % M64) :
    ∀ t (p : Nat), p < M64 →
      candIter o d t (Position.shift p d &&& o) &&& src =
        FLpow (o &&& bmask) k (t + 1) p := by
  intro t
  induction t with
  | zero =>
    intro p hp
    show (Position.shift p d &&& o) &&& src = _
    rw [hsh p hp]
    exact GL_and_src o src bmask k ho hmask p
  | succ t ih =>
    intro p hp
    have hGp : Position.shift p d &&& o < M64 :=
      lt_of_le_of_lt Nat.and_le_right ho
    rw [candIter_succ, ih (Position.shift p d &&& o) hGp, hsh p hp]
    exact FLpow_shiftG o src bmask k ho hk0 hmask t p

lemma candIter_FR (o src bmask k : Nat) (d : Int) (ho : o < M64)
    (hmask : ∀ i, k + i < 64 →
      bmask.testBit i = (src.testBit (k + i) && src.testBit i))
    (hsh : ∀ c, c < M64 → Position.shift c d = (c &&& src) >>> k) :
    ∀ t (p : Nat), p < M64 →
      candIter o d t (Position.shift p d &&& o) &&& src =
        FRpow (o &&& bmask) k (t + 1) p := by
  intro t
  induction t with
  | zero =>
    intro p hp
    show (Position.shift p d &&& o) &&& src = _
    rw [hsh p hp]
    exact GR_and_src o src bmask k ho hmask p hp
  | succ t ih =>
    intro p hp
    have hGp : Position.shift p d &&& o < M64 :=
      lt_of_le_of_lt Nat.and_le_right ho
    rw [candIter_succ, ih (Position.shift p d &&& o) hGp, hsh p hp]
    exact FRpow_shiftG o src bmask k ho hmask t p hp

lemma FLpow_masks (m k bmask : Nat)
    (hmb : ∀ i, m.testBit i = true → bmask.testBit i = true) :
    ∀ t p i, (FLpow m k t p).testBit i = true →
      ∀ j, j < t → (j * k ≤ i ∧ bmask.testBit (i - j * k) = true) := by
  intro t
  induction t with
  | zero =>
    intro p i _ j hj
    omega
  | succ t ih =>
    intro p i hi j hj
    have hi' := hi
    rw [show FLpow m k (t + 1) p = FL m k (FLpow m k t p) from rfl] at hi'
    simp only [FL, Nat.testBit_and, testBit_shl_mod, Bool.and_eq_true,
      decide_eq_true_eq] at hi'
    obtain ⟨hm, hlt, hke, hb⟩ := hi'
    rcases j with _ | j'
    · refine ⟨by omega, ?_⟩
      have := hmb i hm
      simpa using this
    · have hj' : j' < t := by omega
      obtain ⟨h1, h2⟩ := ih p (i - k) hb j' hj'
      have hmul : (j' + 1) * k = j' * k + k := by ring
      refine ⟨by rw [hmul]; omega, ?_⟩
      have heq : i - k - j' * k = i - (j' + 1) * k := by rw [hmul]; omega
      rw [← heq]
      exact h2

lemma FRpow_masks (m k bmask : Nat)
    (hmb : ∀ i, m.testBit i = true → bmask.testBit i = true) :
    ∀ t p i, (FRpow m k t p).testBit i = true →
      ∀ j, j < t → bmask.testBit (i + j * k) = true := by
  intro t
  induction t with
  | zero =>
    intro p i _ j hj
    omega
  | succ t ih =>
    intro p i hi j hj
    have hi' := hi
    rw [show FRpow m k (t + 1) p = FR m k (FRpow m k t p) from rfl] at hi'
    simp only [FR, Nat.testBit_and, testBit_shr, Bool.and_eq_true] at hi'
    obtain ⟨hm, hb⟩ := hi'
    rcases j with _ | j'
    · have := hmb i hm
      simpa using this
    · have hj' : j' < t := by omega
      have h2 := ih p (k + i) hb j' hj'
      have hmul : (j' + 1) * k = j' * k + k := by ring
      have heq : k + i + j' * k = i + (j' + 1) * k := by rw [hmul]; omega
      rw [← heq]
      exact h2

lemma FLpow_bits_ge (m k : Nat) :
    ∀ t p i, (FLpow m k t p).testBit i = true → t * k ≤ i := by
  intro t
  induction t with
  | zero => intro p i _; omega
  | succ t ih =>
    intro p i hi
    rw [show FLpow m k (t + 1) p = FL m k (FLpow m k t p) from rfl] at hi
    simp only [FL, Nat.testBit_and, testBit_shl_mod, Bool.and_eq_true,
      decide_eq_true_eq] at hi
    obtain ⟨_, _, hke, hb⟩ := hi
    have := ih p (i - k) hb
    have hmul : (t + 1) * k = t * k + k := by ring
    rw [hmul]
    omega

lemma FRpow_bits_lt (m k : Nat) (hm : m < M64) :
    ∀ t p, p < M64 → ∀ i, (FRpow m k t p).testBit i = true → i + t * k < 64 := by
  intro t
  induction t with
  | zero =>
    intro p hp i hi
    have hi0 : p.testBit i = true := hi
    have : i < 64 := by
      by_contra hge
      rw [testBit_ge_false hp (by omega)] at hi0
      exact absurd hi0 (by simp)
    omega
  | succ t ih =>
    intro p hp i hi
    rw [show FRpow m k (t + 1) p = FR m k (FRpow m k t p) from rfl] at hi
    simp only [FR, Nat.testBit_and, testBit_shr, Bool.and_eq_true] at hi
    have := ih p hp (k + i) hi.2
    have hmul : (t + 1) * k = t * k + k := by ring
    rw [hmul]
    omega

lemma FLpow_lt_of_pos (m k : Nat) (hm : m < M64) (t : Nat) (p : Nat) :
    FLpow m k (t + 1) p < M64 :=
  lt_of_le_of_lt Nat.and_le_left hm

lemma FRpow_lt_of_pos (m k : Nat) (hm : m < M64) (t : Nat) (p : Nat) :
    FRpow m k (t + 1) p < M64 :=
  lt_of_le_of_lt Nat.and_le_left hm

lemma eq_zero_of_no_bits {b : Nat} (h : ∀ i, b.testBit i = false) : b = 0 := by
  apply Nat.eq_of_testBit_eq
  intro i
  rw [h i, Nat.zero_testBit]

lemma FLpow7_zero (m k bmask : Nat) (hm : m < M64)
    (hmb : ∀ i, m.testBit i = true → bmask.testBit i = true)
    (hdead : ∀ i, i < 64 →
      ¬(∀ j, j < 7 → (j * k ≤ i ∧ bmask.testBit (i - j * k) = true))) :
    ∀ p, FLpow m k 7 p = 0 := by
  intro p
  apply eq_zero_of_no_bits
  intro i
  rcases hb : (FLpow m k 7 p).testBit i with _ | _
  · rfl
  · have hi64 : i < 64 := by
      by_contra hge
      rw [testBit_ge_false (FLpow_lt_of_pos m k hm 6 p) (by omega)] at hb
      exact absurd hb (by simp)
    exact absurd (fun j hj => FLpow_masks m k bmask hmb 7 p i hb j hj)
      (hdead i hi64)

lemma FRpow7_zero (m k bmask : Nat) (hm : m < M64)
    (hmb : ∀ i, m.testBit i = true → bmask.testBit i = true)
    (hdead : ∀ i, i < 64 →
      ¬(∀ j, j < 7 → bmask.testBit (i + j * k) = true)) :
    ∀ p, FRpow m k 7 p = 0 := by
  intro p
  apply eq_zero_of_no_bits
  intro i
  rcases hb : (FRpow m k 7 p).testBit i with _ | _
  · rfl
  · have hi64 : i < 64 := by
      by_contra hge
      rw [testBit_ge_false (FRpow_lt_of_pos m k hm 6 p) (by omega)] at hb
      exact absurd hb (by simp)
    exact absurd (fun j hj => FRpow_masks m k bmask hmb 7 p i hb j hj)
      (hdead i hi64)

lemma shl_mod_zero_of_bits (b k : Nat)
    (h : ∀ i, b.testBit i = true → 64 ≤ i + k) : (b <<< k) % M64 = 0 := by
  apply eq_zero_of_no_bits
  intro i
  rw [testBit_shl_mod]
  by_cases hi : i < 64
  · by_cases hk : k ≤ i
    · rcases hb : b.testBit (i - k) with _ | _
      · simp
      · have := h (i - k) hb
        omega
    · simp [hk]
  · simp [hi]

lemma shr_zero_of_bits (b k : Nat)
    (h : ∀ i, b.testBit i = true → i < k) : b >>> k = 0 := by
  apply eq_zero_of_no_bits
  intro i
  rw [testBit_shr]
  rcases hb : b.testBit (k + i) with _ | _
  · rfl
  · have := h (k + i) hb
    omega


lemma and_M64 (a : Nat) (ha : a < M64) : a &&& (M64 - 1) = a := by
  apply Nat.eq_of_testBit_eq
  intro i
  rw [Nat.testBit_and]
  by_cases hi : i < 64
  · have h1 : (M64 - 1).testBit i = true := by
      have hM : M64 - 1 = 2 ^ 64 - 1 := rfl
      rw [hM, Nat.testBit_two_pow_sub_one]
      exact decide_eq_true hi
    rw [h1, Bool.and_true]
  · rw [testBit_ge_false ha (by omega)]
    simp

lemma nat_or_left_comm (a b c : Nat) : a ||| (b ||| c) = b ||| (a ||| c) := by
  rw [← Nat.or_assoc, Nat.or_comm a b, Nat.or_assoc]

lemma nat_and_or_left (e a b : Nat) : e &&& (a ||| b) = (e &&& a) ||| (e &&& b) := by
  apply Nat.eq_of_testBit_eq
  intro i
  simp only [Nat.testBit_and, Nat.testBit_or]
  cases e.testBit i <;> cases a.testBit i <;> cases b.testBit i <;> rfl

lemma or_shl_mod (a b k : Nat) :
    (((a ||| b) <<< k) % M64) = ((a <<< k) % M64) ||| ((b <<< k) % M64) := by
  apply Nat.eq_of_testBit_eq
  intro i
  simp only [testBit_shl_mod, Nat.testBit_or]
  cases a.testBit (i - k) <;> cases b.testBit (i - k) <;>
    cases decide (i < 64) <;> cases decide (k ≤ i) <;> rfl

lemma or_shr (a b k : Nat) : (a ||| b) >>> k = (a >>> k) ||| (b >>> k) := by
  apply Nat.eq_of_testBit_eq
  intro i
  simp only [testBit_shr, Nat.testBit_or]

lemma bigOr_congr (f g : Nat → Nat) : ∀ n, (∀ t, t < n → f t = g t) →
    bigOr f n = bigOr g n := by
  intro n
  induction n with
  | zero => intro _; rfl
  | succ n ih =>
    intro h
    show bigOr f n ||| f n = bigOr g n ||| g n
    rw [h n (by omega), ih (fun t ht => h t (by omega))]

lemma bigOr_map_shl (f : Nat → Nat) (k : Nat) : ∀ n,
    ((bigOr f n) <<< k) % M64 = bigOr (fun t => ((f t) <<< k) % M64) n := by
  intro n
  induction n with
  | zero =>
    show ((0 <<< k) % M64) = 0
    rw [Nat.zero_shiftLeft, Nat.zero_mod]
  | succ n ih =>
    show (((bigOr f n ||| f n) <<< k) % M64) = _ ||| ((f n <<< k) % M64)
    rw [or_shl_mod, ih]

lemma bigOr_map_shr (f : Nat → Nat) (k : Nat) : ∀ n,
    (bigOr f n) >>> k = bigOr (fun t => (f t) >>> k) n := by
  intro n
  induction n with
  | zero =>
    show (0 >>> k) = 0
    rw [Nat.zero_shiftRight]
  | succ n ih =>
    show ((bigOr f n ||| f n) >>> k) = _ ||| (f n >>> k)
    rw [or_shr, ih]

lemma bigOr_map_and (e : Nat) (f : Nat → Nat) : ∀ n,
    e &&& bigOr f n = bigOr (fun t => e &&& f t) n := by
  intro n
  induction n with
  | zero =>
    show e &&& 0 = 0
    rw [Nat.and_zero]
  | succ n ih =>
    show e &&& (bigOr f n ||| f n) = _ ||| (e &&& f n)
    rw [nat_and_or_left, ih]

lemma FLpow_dead (o e bmask k : Nat) (ho : o < M64)
    (hdead : ∀ i, i < 64 →
      ¬(∀ j, j < 7 → (j * k ≤ i ∧ bmask.testBit (i - j * k) = true))) :
    ∀ p t, 6 ≤ t → e &&& ((FLpow (o &&& bmask) k (t + 1) p <<< k) % M64) = 0 := by
  intro p t ht
  obtain ⟨s, rfl⟩ : ∃ s, t = s + 6 := ⟨t - 6, by omega⟩
  have h7 : FLpow (o &&& bmask) k (s + 6 + 1) p = 0 := by
    have hadd : s + 6 + 1 = s + 7 := by omega
    rw [hadd, FLpow_add, FLpow7_zero (o &&& bmask) k bmask
      (lt_of_le_of_lt Nat.and_le_left ho)
      (fun i hi => by rw [Nat.testBit_and, Bool.and_eq_true] at hi; exact hi.2)
      hdead p, FLpow_zero]
  rw [h7, Nat.zero_shiftLeft, Nat.zero_mod, Nat.and_zero]

lemma FRpow_dead (o e bmask k : Nat) (ho : o < M64)
    (hdead : ∀ i, i < 64 → ¬(∀ j, j < 7 → bmask.testBit (i + j * k) = true)) :
    ∀ p t, 6 ≤ t → e &&& (FRpow (o &&& bmask) k (t + 1) p >>> k) = 0 := by
  intro p t ht
  obtain ⟨s, rfl⟩ : ∃ s, t = s + 6 := ⟨t - 6, by omega⟩
  have h7 : FRpow (o &&& bmask) k (s + 6 + 1) p = 0 := by
    have hadd : s + 6 + 1 = s + 7 := by omega
    rw [hadd, FRpow_add, FRpow7_zero (o &&& bmask) k bmask
      (lt_of_le_of_lt Nat.and_le_left ho)
      (fun i hi => by rw [Nat.testBit_and, Bool.and_eq_true] at hi; exact hi.2)
      hdead p, FRpow_zero]
  rw [h7, Nat.zero_shiftRight, Nat.and_zero]

lemma FLpow8_dead (m e : Nat) :
    ∀ (p t : Nat), 6 ≤ t → e &&& ((FLpow m 8 (t + 1) p <<< 8) % M64) = 0 := by
  intro p t ht
  rw [shl_mod_zero_of_bits]
  · rw [Nat.and_zero]
  · intro i hi
    have := FLpow_bits_ge m 8 (t + 1) p i hi
    omega

lemma FRpow8_dead (m e : Nat) (hm : m < M64) :
    ∀ (p : Nat), p < M64 → ∀ t, 6 ≤ t → e &&& (FRpow m 8 (t + 1) p >>> 8) = 0 := by
  intro p hp t ht
  rw [shr_zero_of_bits]
  · rw [Nat.and_zero]
  · intro i hi
    have := FRpow_bits_lt m 8 hm (t + 1) p hp i hi
    omega

lemma flipL_chain (m k p : Nat) :
    ((((m &&& ((p <<< k) % M64)) ||| (m &&& (((m &&& ((p <<< k) % M64)) <<< k) % M64))) ||| ((m &&& ((m <<< k) % M64)) &&& ((((m &&& ((p <<< k) % M64)) ||| (m &&& (((m &&& ((p <<< k) % M64)) <<< k) % M64))) <<< (2 * k)) % M64))) ||| ((m &&& ((m <<< k) % M64)) &&& (((((m &&& ((p <<< k) % M64)) ||| (m &&& (((m &&& ((p <<< k) % M64)) <<< k) % M64))) ||| ((m &&& ((m <<< k) % M64)) &&& ((((m &&& ((p <<< k) % M64)) ||| (m &&& (((m &&& ((p <<< k) % M64)) <<< k) % M64))) <<< (2 * k)) % M64))) <<< (2 * k)) % M64))) = bigOr (fun t => FLpow m k (t + 1) p) 6 := by
  have hR : bigOr (fun t => FLpow m k (t + 1) p) 6 = ((((((0 ||| FL m k p) ||| FL m k (FL m k p)) ||| FL m k (FL m k (FL m k p))) ||| FL m k (FL m k (FL m k (FL m k p)))) ||| FL m k (FL m k (FL m k (FL m k (FL m k p))))) ||| FL m k (FL m k (FL m k (FL m k (FL m k (FL m k p)))))) := rfl
  simp only [FL2]
  have e1 : ∀ b, m &&& ((b <<< k) % M64) = FL m k b := fun b => rfl
  simp only [e1]
  simp only [FL_or]
  rw [hR]
  apply Nat.eq_of_testBit_eq
  intro i
  simp only [Nat.testBit_or, Nat.zero_testBit, Bool.false_or]
  cases (FL m k p).testBit i <;> cases (FL m k (FL m k p)).testBit i <;>
    cases (FL m k (FL m k (FL m k p))).testBit i <;> cases (FL m k (FL m k (FL m k (FL m k p)))).testBit i <;>
    cases (FL m k (FL m k (FL m k (FL m k (FL m k p))))).testBit i <;> cases (FL m k (FL m k (FL m k (FL m k (FL m k (FL m k p)))))).testBit i <;> rfl

lemma flipR_chain (m k p : Nat) :
    ((((m &&& (p >>> k)) ||| (m &&& ((m &&& (p >>> k)) >>> k))) ||| ((m &&& (m >>> k)) &&& (((m &&& (p >>> k)) ||| (m &&& ((m &&& (p >>> k)) >>> k))) >>> (2 * k)))) ||| ((m &&& (m >>> k)) &&& ((((m &&& (p >>> k)) ||| (m &&& ((m &&& (p >>> k)) >>> k))) ||| ((m &&& (m >>> k)) &&& (((m &&& (p >>> k)) ||| (m &&& ((m &&& (p >>> k)) >>> k))) >>> (2 * k)))) >>> (2 * k)))) = bigOr (fun t => FRpow m k (t + 1) p) 6 := by
  have hR : bigOr (fun t => FRpow m k (t + 1) p) 6 = ((((((0 ||| FR m k p) ||| FR m k (FR m k p)) ||| FR m k (FR m k (FR m k p))) ||| FR m k (FR m k (FR m k (FR m k p)))) ||| FR m k (FR m k (FR m k (FR m k (FR m k p))))) ||| FR m k (FR m k (FR m k (FR m k (FR m k (FR m k p)))))) := rfl
  simp only [FR2]
  have e1 : ∀ b, m &&& (b >>> k) = FR m k b := fun b => rfl
  simp only [e1]
  simp only [FR_or]
  rw [hR]
  apply Nat.eq_of_testBit_eq
  intro i
  simp only [Nat.testBit_or, Nat.zero_testBit, Bool.false_or]
  cases (FR m k p).testBit i <;> cases (FR m k (FR m k p)).testBit i <;>
    cases (FR m k (FR m k (FR m k p))).testBit i <;> cases (FR m k (FR m k (FR m k (FR m k p)))).testBit i <;>
    cases (FR m k (FR m k (FR m k (FR m k (FR m k p))))).testBit i <;> cases (FR m k (FR m k (FR m k (FR m k (FR m k (FR m k p)))))).testBit i <;> rfl

lemma movesDir_eq_bigOr (p k m : Nat) :
    movesDir p k m = ((bigOr (fun t => FLpow m k (t + 1) p) 6 <<< k) % M64) |||
      (bigOr (fun t => FRpow m k (t + 1) p) 6 >>> k) := by
  rw [← flipL_chain m k p, ← flipR_chain m k p]
  rfl

lemma dirB_L (o e src bmask k : Nat) (d : Int) (p : Nat)
    (ho : o < M64) (hp : p < M64) (hk0 : 0 < k)
    (hmask : ∀ i, i < 64 → k ≤ i →
      bmask.testBit i = (src.testBit (i - k) && src.testBit i))
    (hsh : ∀ c, c < M64 → Position.shift c d = ((c &&& src) <<< k) % M64)
    (hdead : ∀ t, 6 ≤ t →
      e &&& ((FLpow (o &&& bmask) k (t + 1) p <<< k) % M64) = 0) :
    bigOr (fun t =>
        e &&& Position.shift (candIter o d t (Position.shift p d &&& o)) d) 64 =
      bigOr (fun t => e &&& ((FLpow (o &&& bmask) k (t + 1) p <<< k) % M64)) 6 := by
  have hcand : ∀ t, e &&& Position.shift (candIter o d t (Position.shift p d &&& o)) d =
      e &&& ((FLpow (o &&& bmask) k (t + 1) p <<< k) % M64) := by
    intro t
    have hX : candIter o d t (Position.shift p d &&& o) < M64 :=
      candIter_lt o d ho t _ (lt_of_le_of_lt Nat.and_le_right ho)
    rw [hsh _ hX, candIter_FL o src bmask k d ho hk0 hmask hsh t p hp]
  rw [bigOr_congr _ _ 64 (fun t _ => hcand t)]
  exact bigOr_truncate _ 6 hdead 64 (by omega)

lemma dirB_R (o e src bmask k : Nat) (d : Int) (p : Nat)
    (ho : o < M64) (hp : p < M64)
    (hmask : ∀ i, k + i < 64 →
      bmask.testBit i = (src.testBit (k + i) && src.testBit i))
    (hsh : ∀ c, c < M64 → Position.shift c d = (c &&& src) >>> k)
    (hdead : ∀ t, 6 ≤ t → e &&& (FRpow (o &&& bmask) k (t + 1) p >>> k) = 0) :
    bigOr (fun t =>
        e &&& Position.shift (candIter o d t (Position.shift p d &&& o)) d) 64 =
      bigOr (fun t => e &&& (FRpow (o &&& bmask) k (t + 1) p >>> k)) 6 := by
  have hcand : ∀ t, e &&& Position.shift (candIter o d t (Position.shift p d &&& o)) d =
      e &&& (FRpow (o &&& bmask) k (t + 1) p >>> k) := by
    intro t
    have hX : candIter o d t (Position.shift p d &&& o) < M64 :=
      candIter_lt o d ho t _ (lt_of_le_of_lt Nat.and_le_right ho)
    rw [hsh _ hX, candIter_FR o src bmask k d ho hmask hsh t p hp]
  rw [bigOr_congr _ _ 64 (fun t _ => hcand t)]
  exact bigOr_truncate _ 6 hdead 64 (by omega)

lemma bmask_left_1 : ∀ i, i < 64 → 1 ≤ i → (0x7E7E7E7E7E7E7E7E : Nat).testBit i =
    ((0x7f7f7f7f7f7f7f7f : Nat).testBit (i - 1) && (0x7f7f7f7f7f7f7f7f : Nat).testBit i) := by decide

lemma bmask_left_7 : ∀ i, i < 64 → 7 ≤ i → (0x7E7E7E7E7E7E7E7E : Nat).testBit i =
    ((0xfefefefefefefefe : Nat).testBit (i - 7) && (0xfefefefefefefefe : Nat).testBit i) := by decide

lemma bmask_left_9 : ∀ i, i < 64 → 9 ≤ i → (0x7E7E7E7E7E7E7E7E : Nat).testBit i =
    ((0x7f7f7f7f7f7f7f7f : Nat).testBit (i - 9) && (0x7f7f7f7f7f7f7f7f : Nat).testBit i) := by decide

lemma bmask_left_8 : ∀ i, i < 64 → 8 ≤ i → (M64 - 1).testBit i =
    ((M64 - 1).testBit (i - 8) && (M64 - 1).testBit i) := by decide

lemma bmask_right_1 : ∀ i, i < 64 → (1 + i < 64 → (0x7E7E7E7E7E7E7E7E : Nat).testBit i =
    ((0xfefefefefefefefe : Nat).testBit (1 + i) && (0xfefefefefefefefe : Nat).testBit i)) := by decide

lemma bmask_right_7 : ∀ i, i < 64 → (7 + i < 64 → (0x7E7E7E7E7E7E7E7E : Nat).testBit i =
    ((0x7f7f7f7f7f7f7f7f : Nat).testBit (7 + i) && (0x7f7f7f7f7f7f7f7f : Nat).testBit i)) := by decide

lemma bmask_right_9 : ∀ i, i < 64 → (9 + i < 64 → (0x7E7E7E7E7E7E7E7E : Nat).testBit i =
    ((0xfefefefefefefefe : Nat).testBit (9 + i) && (0xfefefefefefefefe : Nat).testBit i)) := by decide

lemma bmask_right_8 : ∀ i, i < 64 → (8 + i < 64 → (M64 - 1).testBit i =
    ((M64 - 1).testBit (8 + i) && (M64 - 1).testBit i)) := by decide

lemma dead_left_1 : ∀ i, i < 64 →
    ¬(∀ j, j < 7 → (j * 1 ≤ i ∧ (0x7E7E7E7E7E7E7E7E : Nat).testBit (i - j * 1) = true)) := by decide

lemma dead_left_7 : ∀ i, i < 64 →
    ¬(∀ j, j < 7 → (j * 7 ≤ i ∧ (0x7E7E7E7E7E7E7E7E : Nat).testBit (i - j * 7) = true)) := by decide

lemma dead_left_9 : ∀ i, i < 64 →
    ¬(∀ j, j < 7 → (j * 9 ≤ i ∧ (0x7E7E7E7E7E7E7E7E : Nat).testBit (i - j * 9) = true)) := by decide

lemma dead_right_1 : ∀ i, i < 64 →
    ¬(∀ j, j < 7 → (0x7E7E7E7E7E7E7E7E : Nat).testBit (i + j * 1) = true) := by decide

lemma dead_right_7 : ∀ i, i < 64 →
    ¬(∀ j, j < 7 → (0x7E7E7E7E7E7E7E7E : Nat).testBit (i + j * 7) = true) := by decide

lemma dead_right_9 : ∀ i, i < 64 →
    ¬(∀ j, j < 7 → (0x7E7E7E7E7E7E7E7E : Nat).testBit (i + j * 9) = true) := by decide

set_option maxHeartbeats 2000000 in
/-- C4: for every pair of in-range disjoint bitboards, the Kogge-Stone
bit-parallel move generator `get_moves` returns exactly the same bitset as the
naive per-square ray-scan generator `get_moves_simple`. -/
theorem get_moves_eq_get_moves_simple (player opponent : Nat)
    (hp : player < M64) (ho : opponent < M64)
    (hdisj : player &&& opponent = 0) :
    get_moves player opponent = get_moves_simple player opponent := by
  have hBm9 : bigOr (fun t => not64 (player ||| opponent) &&& Position.shift (candIter opponent (-9) t (Position.shift player (-9) &&& opponent)) (-9)) 64 = bigOr (fun t => not64 (player ||| opponent) &&& ((FLpow (opponent &&& 0x7E7E7E7E7E7E7E7E) 7 (t + 1) player <<< 7) % M64)) 6 :=
    dirB_L opponent (not64 (player ||| opponent)) 0xfefefefefefefefe 0x7E7E7E7E7E7E7E7E 7 (-9) player ho hp (by norm_num)
      bmask_left_7 (fun c _ => rfl)
      (FLpow_dead opponent (not64 (player ||| opponent)) 0x7E7E7E7E7E7E7E7E 7 ho dead_left_7 player)
  have hBm8 : bigOr (fun t => not64 (player ||| opponent) &&& Position.shift (candIter opponent (-8) t (Position.shift player (-8) &&& opponent)) (-8)) 64 = bigOr (fun t => not64 (player ||| opponent) &&& ((FLpow (opponent) 8 (t + 1) player <<< 8) % M64)) 6 := by
    have h := dirB_L opponent (not64 (player ||| opponent)) (M64 - 1) (M64 - 1) 8 (-8) player ho hp
      (by norm_num) bmask_left_8 (fun c hc => by rw [and_M64 c hc]; exact rfl)
      (FLpow8_dead (opponent &&& (M64 - 1)) (not64 (player ||| opponent)) player)
    rwa [and_M64 opponent ho] at h
  have hBm7 : bigOr (fun t => not64 (player ||| opponent) &&& Position.shift (candIter opponent (-7) t (Position.shift player (-7) &&& opponent)) (-7)) 64 = bigOr (fun t => not64 (player ||| opponent) &&& ((FLpow (opponent &&& 0x7E7E7E7E7E7E7E7E) 9 (t + 1) player <<< 9) % M64)) 6 :=
    dirB_L opponent (not64 (player ||| opponent)) 0x7f7f7f7f7f7f7f7f 0x7E7E7E7E7E7E7E7E 9 (-7) player ho hp (by norm_num)
      bmask_left_9 (fun c _ => rfl)
      (FLpow_dead opponent (not64 (player ||| opponent)) 0x7E7E7E7E7E7E7E7E 9 ho dead_left_9 player)
  have hBm1 : bigOr (fun t => not64 (player ||| opponent) &&& Position.shift (candIter opponent (-1) t (Position.shift player (-1) &&& opponent)) (-1)) 64 = bigOr (fun t => not64 (player ||| opponent) &&& (FRpow (opponent &&& 0x7E7E7E7E7E7E7E7E) 1 (t + 1) player >>> 1)) 6 :=
    dirB_R opponent (not64 (player ||| opponent)) 0xfefefefefefefefe 0x7E7E7E7E7E7E7E7E 1 (-1) player ho hp
      (fun i h => bmask_right_1 i (by omega) h) (fun c _ => rfl)
      (FRpow_dead opponent (not64 (player ||| opponent)) 0x7E7E7E7E7E7E7E7E 1 ho dead_right_1 player)
  have hB1 : bigOr (fun t => not64 (player ||| opponent) &&& Position.shift (candIter opponent (1) t (Position.shift player (1) &&& opponent)) (1)) 64 = bigOr (fun t => not64 (player ||| opponent) &&& ((FLpow (opponent &&& 0x7E7E7E7E7E7E7E7E) 1 (t + 1) player <<< 1) % M64)) 6 :=
    dirB_L opponent (not64 (player ||| opponent)) 0x7f7f7f7f7f7f7f7f 0x7E7E7E7E7E7E7E7E 1 1 player ho hp (by norm_num)
      bmask_left_1 (fun c _ => rfl)
      (FLpow_dead opponent (not64 (player ||| opponent)) 0x7E7E7E7E7E7E7E7E 1 ho dead_left_1 player)
  have hB7 : bigOr (fun t => not64 (player ||| opponent) &&& Position.shift (candIter opponent (7) t (Position.shift player (7) &&& opponent)) (7)) 64 = bigOr (fun t => not64 (player ||| opponent) &&& (FRpow (opponent &&& 0x7E7E7E7E7E7E7E7E) 7 (t + 1) player >>> 7)) 6 :=
    dirB_R opponent (not64 (player ||| opponent)) 0x7f7f7f7f7f7f7f7f 0x7E7E7E7E7E7E7E7E 7 7 player ho hp
      (fun i h => bmask_right_7 i (by omega) h) (fun c _ => rfl)
      (FRpow_dead opponent (not64 (player ||| opponent)) 0x7E7E7E7E7E7E7E7E 7 ho dead_right_7 player)
  have hB8 : bigOr (fun t => not64 (player ||| opponent) &&& Position.shift (candIter opponent (8) t (Position.shift player (8) &&& opponent)) (8)) 64 = bigOr (fun t => not64 (player ||| opponent) &&& (FRpow (opponent) 8 (t + 1) player >>> 8)) 6 := by
    have h := dirB_R opponent (not64 (player ||| opponent)) (M64 - 1) (M64 - 1) 8 8 player ho hp
      (fun i h => bmask_right_8 i (by omega) h) (fun c hc => by rw [and_M64 c hc]; exact rfl)
      (FRpow8_dead (opponent &&& (M64 - 1)) (not64 (player ||| opponent))
        (lt_of_le_of_lt Nat.and_le_left ho) player hp)
    rwa [and_M64 opponent ho] at h
  have hB9 : bigOr (fun t => not64 (player ||| opponent) &&& Position.shift (candIter opponent (9) t (Position.shift player (9) &&& opponent)) (9)) 64 = bigOr (fun t => not64 (player ||| opponent) &&& (FRpow (opponent &&& 0x7E7E7E7E7E7E7E7E) 9 (t + 1) player >>> 9)) 6 :=
    dirB_R opponent (not64 (player ||| opponent)) 0xfefefefefefefefe 0x7E7E7E7E7E7E7E7E 9 9 player ho hp
      (fun i h => bmask_right_9 i (by omega) h) (fun c _ => rfl)
      (FRpow_dead opponent (not64 (player ||| opponent)) 0x7E7E7E7E7E7E7E7E 9 ho dead_right_9 player)
  have hcomm : ∀ (a : Nat), a &&& not64 (player ||| opponent) = not64 (player ||| opponent) &&& a :=
    fun a => Nat.and_comm a _
  simp only [get_moves, get_moves_simple, simpleDirections, List.foldl_cons,
    List.foldl_nil]
  simp only [simpleDirLoop_eq]
  simp only [Nat.zero_or]
  rw [hBm9, hBm8, hBm7, hBm1, hB1, hB7, hB8, hB9, hcomm]
  simp only [movesDir_eq_bigOr, nat_and_or_left, bigOr_map_shl, bigOr_map_shr,
    bigOr_map_and]
  simp only [Nat.or_assoc, Nat.or_comm, nat_or_left_comm]

/-- Witness for `get_moves_eq_get_moves_simple` at the Othello start
position. -/
theorem get_moves_eq_get_moves_simple_witness :
    (0x0000000810000000 : Nat) < M64 ∧ (0x0000001008000000 : Nat) < M64 ∧
      (0x0000000810000000 : Nat) &&& 0x0000001008000000 = 0 ∧
      get_moves 0x0000000810000000 0x0000001008000000 =
        get_moves_simple 0x0000000810000000 0x0000001008000000 :=
  ⟨by decide, by decide, by decide,
    get_moves_eq_get_moves_simple 0x0000000810000000 0x0000001008000000
      (by decide) (by decide) (by decide)⟩

end Swap
